import Mathlib

/-!
# Class View parser (`src/plugins/classview/classviewparser.cpp`)

A shallow embedding of `ClassView::Internal::Parser`: the symbol walk
(`addSymbol`), the per-document and per-project caches, root assembly
(`parse`) and the tracked-file operations, followed by theorems about them.

Conventions of the embedding

* A `QSharedPointer<T>` that may be null is an `Option T`.
* `QHash<QString, V>` is a function `String → Option V`; `operator[]` on an
  absent key yields the default-constructed value, `value(key)` likewise.
* `QSet<QString>` is a `Finset String`.
* `unsigned` revisions are natural numbers; sums are reduced modulo `2^32`.
* Tree items are values.  The one place where the source mutates an item
  through a second pointer (`addSymbol` reusing an existing child) is spelled
  out in `addSymbol`.
-/

namespace ClassView

/-! ## Value types -/

/-- One occurrence of a symbol: file, line and column. -/
structure SymbolLocation where
  fileName : String
  line : Nat
  column : Nat
deriving DecidableEq, Repr

/-- Display identity of a symbol, the key of a child in a tree item. -/
structure SymbolInformation where
  name : String
  type : String
  iconType : Int
deriving DecidableEq, Repr

/-- Modelled from the spec: the tree item class `ParserTreeItem`
(classviewparsertreeitem.cpp is not among the sources).  A node holds a set of
source locations, an optional icon, and an insertion-ordered mapping from
display identity to child. -/
inductive ParserTreeItem where
  | mk (symbolLocations : Finset SymbolLocation) (icon : Option Nat)
       (symbolInformations : List (SymbolInformation × ParserTreeItem))

namespace ParserTreeItem

/-- Modelled from the spec: the location set of a tree item. -/
def symbolLocations : ParserTreeItem → Finset SymbolLocation
  | mk l _ _ => l

/-- Modelled from the spec: the optional icon of a tree item. -/
def icon : ParserTreeItem → Option Nat
  | mk _ i _ => i

/-- Modelled from the spec: the keyed children of a tree item, in insertion order. -/
def symbolInformations : ParserTreeItem → List (SymbolInformation × ParserTreeItem)
  | mk _ _ c => c

/-- Modelled from the spec: `new ParserTreeItem()`, no locations, no icon, no children. -/
def empty : ParserTreeItem := mk ∅ none []

/-- Lookup of a key in an insertion-ordered association list. -/
def lookup (inf : SymbolInformation) :
    List (SymbolInformation × ParserTreeItem) → Option ParserTreeItem
  | [] => none
  | (k, v) :: rest => if k = inf then some v else lookup inf rest

/-- Assignment `hash[inf] = item`: replaces the value of an existing key in
place, appends a new key at the end. -/
def assign (inf : SymbolInformation) (item : ParserTreeItem) :
    List (SymbolInformation × ParserTreeItem) → List (SymbolInformation × ParserTreeItem)
  | [] => [(inf, item)]
  | (k, v) :: rest => if k = inf then (k, item) :: rest else (k, v) :: assign inf item rest

/-- Modelled from the spec: `ParserTreeItem::child`, the child stored under a
display identity, null when there is none. -/
def child (item : ParserTreeItem) (inf : SymbolInformation) : Option ParserTreeItem :=
  lookup inf item.symbolInformations

/-- Modelled from the spec: `ParserTreeItem::appendChild`, stores the child
under its display identity. -/
def appendChild (parent : ParserTreeItem) (item : ParserTreeItem) (inf : SymbolInformation) :
    ParserTreeItem :=
  mk parent.symbolLocations parent.icon (assign inf item parent.symbolInformations)

/-- Modelled from the spec: `ParserTreeItem::addSymbolLocation`, adds one
location to the location set. -/
def addSymbolLocation (item : ParserTreeItem) (location : SymbolLocation) : ParserTreeItem :=
  mk (insert location item.symbolLocations) item.icon item.symbolInformations

/-- Modelled from the spec: `ParserTreeItem::childCount`. -/
def childCount (item : ParserTreeItem) : Nat :=
  item.symbolInformations.length

/-- Modelled from the spec: `ParserTreeItem::setIcon`. -/
def setIcon (item : ParserTreeItem) (icon : Nat) : ParserTreeItem :=
  mk item.symbolLocations (some icon) item.symbolInformations

/-- Modelled from the spec: `ParserTreeItem::copy`, takes over locations, icon
and children of the source item; a null source changes nothing. -/
def copy (item : ParserTreeItem) (src : Option ParserTreeItem) : ParserTreeItem :=
  match src with
  | none => item
  | some f => mk f.symbolLocations f.icon f.symbolInformations

/-- The child keys of an item, in order. -/
def keys (item : ParserTreeItem) : List SymbolInformation :=
  item.symbolInformations.map Prod.fst

mutual
/-- Modelled from the spec: `ParserTreeItem::add`, the structural merge of a
target tree into an item: locations are united, a child of the target whose
key is already present is merged into the existing child, any other child is
inserted. -/
def add (item : ParserTreeItem) : ParserTreeItem → ParserTreeItem
  | mk locs _ children =>
    addChildren (mk (item.symbolLocations ∪ locs) item.icon item.symbolInformations) children
termination_by structural target => target
/-- Merge of the children of a target, one after the other. -/
def addChildren (item : ParserTreeItem) :
    List (SymbolInformation × ParserTreeItem) → ParserTreeItem
  | [] => item
  | (inf, targetChild) :: rest =>
    match item.child inf with
    | some c => addChildren (item.appendChild (add c targetChild) inf) rest
    | none => addChildren (item.appendChild targetChild inf) rest
termination_by structural children => children
end

end ParserTreeItem

/-! ## The symbol table supplied by the C++ front end -/

/-- A `CPlusPlus::Name`, as far as the parser looks at it. -/
structure Name where
  isQualifiedNameId : Bool
  identifier : String
deriving DecidableEq, Repr

/-- A `CPlusPlus::FullySpecifiedType`, handed unread to the pretty printer. -/
structure FullySpecifiedType where
  spelling : String
deriving DecidableEq, Repr

/-- The attributes of a `CPlusPlus::Symbol` that `addSymbol` reads, its member
scope apart. -/
structure SymbolData where
  isForwardClassDeclaration : Bool
  isExtern : Bool
  isFriend : Bool
  isGenerated : Bool
  isUsingNamespaceDirective : Bool
  isUsingDeclaration : Bool
  name : Option Name
  type : FullySpecifiedType
  fileName : String
  line : Nat
  column : Nat
  isFunction : Bool
  isNamespace : Bool
deriving DecidableEq, Repr

/-- A `CPlusPlus::Symbol`: its attributes and `asScope()`, which is null or a
scope whose member pointers may themselves be null. -/
inductive Symbol where
  | mk (data : SymbolData) (asScope : Option (List (Option Symbol)))

namespace Symbol

/-- The attributes of a symbol. -/
def data : Symbol → SymbolData
  | mk d _ => d

/-- The member scope of a symbol, null when it has none. -/
def asScope : Symbol → Option (List (Option Symbol))
  | mk _ s => s

end Symbol

/-- Library functions the parser calls (CPlusPlus::Overview,
CPlusPlus::Icons, QString) and the default icon type of the two-argument
`SymbolInformation` constructor, which is declared in a header that is not
among the sources.  They are parameters of the embedding. -/
structure Externals where
  prettyName : Option Name → String
  prettyType : FullySpecifiedType → String
  trimmed : String → String
  iconTypeForSymbol : Symbol → Int
  defaultIconType : Int

/-! ## Symbol-to-tree conversion -/

/-- The first early return of `addSymbol` (lines 314-321). -/
def isSkippedKind (d : SymbolData) : Bool :=
  d.isForwardClassDeclaration
    || d.isExtern
    || d.isFriend
    || d.isGenerated
    || d.isUsingNamespaceDirective
    || d.isUsingDeclaration

/-- The second early return of `addSymbol` (lines 323-325):
`symbolName && symbolName->isQualifiedNameId()`. -/
def hasQualifiedName (d : SymbolData) : Bool :=
  match d.name with
  | some n => n.isQualifiedNameId
  | none => false

/-- The display identity computed at lines 327-331. -/
def information (ext : Externals) (symbol : Symbol) : SymbolInformation :=
  { name := ext.trimmed (ext.prettyName symbol.data.name)
    type := ext.trimmed (ext.prettyType symbol.data.type)
    iconType := ext.iconTypeForSymbol symbol }

/-- The location recorded at lines 344-345. -/
def location (symbol : Symbol) : SymbolLocation :=
  { fileName := symbol.data.fileName, line := symbol.data.line, column := symbol.data.column }

mutual
/-- The body of `Parser::addSymbol(item, symbol)` from line 310 on, for a
non-null `item` and a non-null `symbol`; the result is the item after the call.

When `item->child(information)` finds a child, `itemAdd` is a second pointer
to that child, so the location and the members added to `itemAdd` are added
to the child of `item` itself, whether or not line 366 is reached (where it
would store the same pointer under the same key).  When no child is found,
`itemAdd` is a new item that reaches `item` only through line 366. -/
def addSymbolNonNull (ext : Externals) (item : ParserTreeItem) : Symbol → ParserTreeItem
  | Symbol.mk d scope =>
    if isSkippedKind d then item
    else if hasQualifiedName d then item
    else
      let inf := information ext (Symbol.mk d scope)
      let found := item.child inf
      let itemAdd0 := (found.getD ParserTreeItem.empty).addSymbolLocation
        (location (Symbol.mk d scope))
      let itemAdd :=
        if !d.isFunction then
          match scope with
          | some members => addMembers ext itemAdd0 members
          | none => itemAdd0
        else itemAdd0
      if found.isSome then item.appendChild itemAdd inf
      else if !(d.isNamespace && itemAdd.childCount == 0) then item.appendChild itemAdd inf
      else item
termination_by structural symbol => symbol
/-- The member loop of `addSymbol` (lines 351-360); null members are passed
over, the others go through `addSymbol`, whose null check they have passed. -/
def addMembers (ext : Externals) (itemAdd : ParserTreeItem) :
    List (Option Symbol) → ParserTreeItem
  | [] => itemAdd
  | none :: rest => addMembers ext itemAdd rest
  | some curSymbol :: rest => addMembers ext (addSymbolNonNull ext itemAdd curSymbol) rest
termination_by structural members => members
end

/-- Source `Parser::addSymbol(item, symbol)` for a non-null `item`: a null symbol
returns at line 307, any other symbol runs the body. -/
def addSymbol (ext : Externals) (item : ParserTreeItem) : Option Symbol → ParserTreeItem
  | none => item
  | some symbol => addSymbolNonNull ext item symbol

/-- The node `itemAdd` that `addSymbol` holds for a non-filtered symbol when it
reaches line 365: the reused or new child, with the location of the symbol and
the members walked into it. -/
def itemAddOf (ext : Externals) (item : ParserTreeItem) (symbol : Symbol) : ParserTreeItem :=
  let itemAdd0 :=
    ((item.child (information ext symbol)).getD ParserTreeItem.empty).addSymbolLocation
      (location symbol)
  if !symbol.data.isFunction then
    match symbol.asScope with
    | some members => addMembers ext itemAdd0 members
    | none => itemAdd0
  else itemAdd0

/-- The symbol is filtered by one of the two early returns of `addSymbol`. -/
def isFiltered (symbol : Symbol) : Bool :=
  isSkippedKind symbol.data || hasQualifiedName symbol.data

/-- The condition of line 365 under which the node is not attached. -/
def isPruned (ext : Externals) (item : ParserTreeItem) (symbol : Symbol) : Bool :=
  symbol.data.isNamespace && (itemAddOf ext item symbol).childCount == 0

mutual
/-- A namespace each of whose members is null, filtered, or again a namespace
of this kind. -/
def isHollowNamespace : Symbol → Bool
  | Symbol.mk d scope =>
    d.isNamespace && (match scope with
      | none => true
      | some members => allHollow members)
termination_by structural symbol => symbol
/-- Every member is null, filtered, or a hollow namespace. -/
def allHollow : List (Option Symbol) → Bool
  | [] => true
  | none :: rest => allHollow rest
  | some s :: rest => (isFiltered s || isHollowNamespace s) && allHollow rest
termination_by structural members => members
end

/-! ## Documents, projects and the parser state -/

/-- A `CPlusPlus::Document`: file name, revision and the global symbols. -/
structure Document where
  fileName : String
  revision : Nat
  globalSymbols : List (Option Symbol)

namespace Document

/-- Number of global symbols. -/
def globalSymbolCount (doc : Document) : Nat :=
  doc.globalSymbols.length

/-- Global symbol at an index. -/
def globalSymbolAt (doc : Document) (i : Nat) : Option Symbol :=
  doc.globalSymbols.getD i none

end Document

/-- Source `ParserPrivate::DocumentCache` (lines 100-104). -/
structure DocumentCache where
  treeRevision : Nat
  tree : Option ParserTreeItem
  document : Option Document

/-- Source `ParserPrivate::ProjectCache` (lines 105-109). -/
structure ProjectCache where
  treeRevision : Nat
  tree : Option ParserTreeItem
  fileList : List String

/-- The default-constructed document cache entry. -/
def DocumentCache.init : DocumentCache :=
  { treeRevision := 0, tree := none, document := none }

/-- The default-constructed project cache entry. -/
def ProjectCache.init : ProjectCache :=
  { treeRevision := 0, tree := none, fileList := [] }

/-- A `ProjectExplorer::Project` as the parser sees it: display name, project
file path, source files (as strings) and the icon of its container node. -/
structure Project where
  displayName : String
  projectFilePath : String
  sourceFiles : List String
  icon : Nat

/-- Insertion `QHash::insert` and assignment through `operator[]`. -/
def hashInsert {V : Type} (m : String → Option V) (key : String) (value : V) :
    String → Option V :=
  fun k => if k = key then some value else m k

/-- Removal `QHash::remove`. -/
def hashRemove {V : Type} (m : String → Option V) (key : String) : String → Option V :=
  fun k => if k = key then none else m k

/-- The data of `ParserPrivate` (lines 86-128); of the timer only whether it
is active, the lock is left out. -/
structure ParserPrivate where
  timerActive : Bool
  m_documentCache : String → Option DocumentCache
  m_projectCache : String → Option ProjectCache
  fileList : Finset String
  rootItem : Option ParserTreeItem
  flatMode : Bool

/-- Source `ParserPrivate::document` (lines 130-133). -/
def ParserPrivate.document (d : ParserPrivate) (fileName : String) : Option Document :=
  ((d.m_documentCache fileName).getD DocumentCache.init).document

/-- Width of `unsigned`. -/
def unsignedModulus : Nat := 4294967296

/-- Source `Parser::getParseDocumentTree` (lines 441-458): result and state after the call. -/
def getParseDocumentTree (ext : Externals) (d : ParserPrivate) (doc : Option Document) :
    Option ParserTreeItem × ParserPrivate :=
  match doc with
  | none => (none, d)
  | some doc =>
    let fileName := doc.fileName
    if fileName ∉ d.fileList then (none, d)
    else
      let total := doc.globalSymbolCount
      let itemPtr := (List.range total).foldl
        (fun itemPtr i => addSymbol ext itemPtr (doc.globalSymbolAt i)) ParserTreeItem.empty
      let entry : DocumentCache :=
        { treeRevision := doc.revision, tree := some itemPtr, document := some doc }
      (some itemPtr, { d with m_documentCache := hashInsert d.m_documentCache fileName entry })

/-- Source `Parser::getCachedOrParseDocumentTree` (lines 467-479). -/
def getCachedOrParseDocumentTree (ext : Externals) (d : ParserPrivate) (doc : Option Document) :
    Option ParserTreeItem × ParserPrivate :=
  match doc with
  | none => (none, d)
  | some doc =>
    match d.m_documentCache doc.fileName with
    | some entry =>
      if entry.tree.isSome && entry.treeRevision == doc.revision then (entry.tree, d)
      else getParseDocumentTree ext d (some doc)
    | none => getParseDocumentTree ext d (some doc)

/-- One iteration of the loop of `getParseProjectTree` (lines 382-395) on the
triple of project item, revision sum and parser state. -/
def projectTreeStep (ext : Externals) (acc : ParserTreeItem × Nat × ParserPrivate)
    (file : String) : ParserTreeItem × Nat × ParserPrivate :=
  match acc.2.2.document file with
  | none => acc
  | some doc =>
    let revision := (acc.2.1 + doc.revision) % unsignedModulus
    let r := getCachedOrParseDocumentTree ext acc.2.2 (some doc)
    match r.1 with
    | none => (acc.1, revision, r.2)
    | some list => (acc.1.add list, revision, r.2)

/-- Source `Parser::getParseProjectTree` (lines 375-404). -/
def getParseProjectTree (ext : Externals) (d : ParserPrivate) (fileList : List String)
    (projectId : String) : ParserTreeItem × ParserPrivate :=
  let acc := fileList.foldl (projectTreeStep ext) (ParserTreeItem.empty, 0, d)
  let item := acc.1
  let revision := acc.2.1
  let d1 := acc.2.2
  if projectId ≠ "" then
    let old := (d1.m_projectCache projectId).getD ProjectCache.init
    let projectCache : ProjectCache := { old with tree := some item, treeRevision := revision }
    (item, { d1 with m_projectCache := hashInsert d1.m_projectCache projectId projectCache })
  else (item, d1)

/-- The revision sum of lines 418-424. -/
def projectRevision (d : ParserPrivate) (fileList : List String) : Nat :=
  fileList.foldl
    (fun revision file =>
      match d.document file with
      | none => revision
      | some doc => (revision + doc.revision) % unsignedModulus)
    0

/-- Source `Parser::getCachedOrParseProjectTree` (lines 412-432). -/
def getCachedOrParseProjectTree (ext : Externals) (d : ParserPrivate) (fileList : List String)
    (projectId : String) : ParserTreeItem × ParserPrivate :=
  match d.m_projectCache projectId with
  | some entry =>
    match entry.tree with
    | some tree =>
      if projectRevision d fileList == entry.treeRevision then (tree, d)
      else getParseProjectTree ext d fileList projectId
    | none => getParseProjectTree ext d fileList projectId
  | none => getParseProjectTree ext d fileList projectId

/-- Source `Parser::addProject` (lines 289-299) for a non-null `item`. -/
def addProject (ext : Externals) (d : ParserPrivate) (item : ParserTreeItem)
    (fileList : List String) (projectId : String) : ParserTreeItem × ParserPrivate :=
  let r := getCachedOrParseProjectTree ext d fileList projectId
  (item.copy (some r.1), r.2)

/-- Source `Parser::getAllFiles` (lines 585-599). -/
def getAllFiles (d : ParserPrivate) (project : Option Project) : List String × ParserPrivate :=
  match project with
  | none => ([], d)
  | some project =>
    let projectPath := project.projectFilePath
    match d.m_projectCache projectPath with
    | some entry => (entry.fileList, d)
    | none =>
      let fileList := project.sourceFiles
      let entry : ProjectCache := { ProjectCache.init with fileList := fileList }
      (fileList, { d with m_projectCache := hashInsert d.m_projectCache projectPath entry })

/-- Source `Parser::addFlatTree` (lines 601-610) for a non-null `item`. -/
def addFlatTree (ext : Externals) (d : ParserPrivate) (item : ParserTreeItem)
    (project : Option Project) : ParserTreeItem × ParserPrivate :=
  match project with
  | none => (item, d)
  | some project =>
    let r := getAllFiles d (some project)
    if r.1.length > 0 then addProject ext r.2 item r.1 project.projectFilePath
    else (item, r.2)

/-- One iteration of the loop of `parse` (lines 263-275) on root item and state. -/
def parseStep (ext : Externals) (acc : ParserTreeItem × ParserPrivate) (prj : Project) :
    ParserTreeItem × ParserPrivate :=
  let inf : SymbolInformation :=
    { name := prj.displayName, type := prj.projectFilePath, iconType := ext.defaultIconType }
  let r := addFlatTree ext acc.2 ParserTreeItem.empty (some prj)
  let item := r.1.setIcon prj.icon
  (acc.1.appendChild item inf, r.2)

/-- Source `Parser::parse` (lines 254-282); `projects` is `SessionManager::projects()`. -/
def parse (ext : Externals) (d : ParserPrivate) (projects : List Project) :
    ParserTreeItem × ParserPrivate :=
  projects.foldl (parseStep ext) (ParserTreeItem.empty, d)

/-- Source `Parser::requestCurrentState` (lines 569-583): stops the timer and installs
the new root. -/
def requestCurrentState (ext : Externals) (d : ParserPrivate) (projects : List Project) :
    ParserPrivate :=
  let r := parse ext { d with timerActive := false } projects
  { r.2 with rootItem := some r.1 }

/-- Source `Parser::parseDocument` (lines 486-502). -/
def parseDocument (ext : Externals) (d : ParserPrivate) (doc : Option Document) :
    ParserPrivate :=
  match doc with
  | none => d
  | some doc =>
    if doc.fileName ∉ d.fileList then d
    else
      let d1 := (getParseDocumentTree ext d (some doc)).2
      if !d1.timerActive then { d1 with timerActive := true } else d1

/-- Source `Parser::setFileList` (lines 509-512). -/
def setFileList (d : ParserPrivate) (fileList : List String) : ParserPrivate :=
  { d with fileList := fileList.toFinset }

/-- One iteration of the loop of `removeFiles` (lines 523-529). -/
def removeFile (d : ParserPrivate) (name : String) : ParserPrivate :=
  { d with
    fileList := d.fileList.erase name
    m_documentCache := hashRemove d.m_documentCache name
    m_projectCache := fun k =>
      (hashRemove d.m_projectCache name k).map
        (fun entry => { entry with fileList := entry.fileList.erase name }) }

/-- Source `Parser::removeFiles` (lines 518-530). -/
def removeFiles (d : ParserPrivate) (fileList : List String) : ParserPrivate :=
  if fileList.isEmpty then d else fileList.foldl removeFile d

/-- Source `Parser::resetData` (lines 535-551); a snapshot is the sequence of its
(file path, document) pairs in iteration order. -/
def resetData (ext : Externals) (d : ParserPrivate) (snapshot : List (String × Option Document))
    (projects : List Project) : ParserPrivate :=
  let documentCache : String → Option DocumentCache :=
    snapshot.foldl
      (fun m kv => hashInsert m kv.1 { (m kv.1).getD DocumentCache.init with document := kv.2 })
      (fun _ => none)
  let d1 := { d with m_projectCache := fun _ => none, m_documentCache := documentCache }
  let fileList := projects.foldl (fun fileList prj => fileList ++ prj.sourceFiles) []
  requestCurrentState ext (setFileList d1 fileList) projects

/-! ## Reference definitions for the project tree -/

/-- The merge, into `item` and in file-list order, of the
`getCachedOrParseDocumentTree` result of each file that has a known document;
files without a known document or with a null result are passed over.  Each
call works on the parser state the previous call left. -/
def mergeDocumentTrees (ext : Externals) :
    ParserPrivate → ParserTreeItem → List String → ParserTreeItem
  | _, item, [] => item
  | d, item, file :: rest =>
    match d.document file with
    | none => mergeDocumentTrees ext d item rest
    | some doc =>
      match (getCachedOrParseDocumentTree ext d (some doc)).1 with
      | none =>
        mergeDocumentTrees ext (getCachedOrParseDocumentTree ext d (some doc)).2 item rest
      | some tree =>
        mergeDocumentTrees ext (getCachedOrParseDocumentTree ext d (some doc)).2
          (item.add tree) rest

/-- The sum, as a 32-bit unsigned number, of the revisions of the known
documents of the files of a list. -/
def revisionSum (d : ParserPrivate) (fileList : List String) : Nat :=
  ((fileList.filterMap d.document).map Document.revision).sum % unsignedModulus

/-- The entry is that of a parsed document of the given path: it holds a
document of that path, a tree, and the revision of that document. -/
def DocumentCache.isValidFor (entry : DocumentCache) (file : String) : Bool :=
  match entry.document, entry.tree with
  | some doc, some _ => doc.fileName == file && entry.treeRevision == doc.revision
  | _, _ => false

/-- The tree cached for a file that has a known document. -/
def cachedDocumentTree (d : ParserPrivate) (file : String) : Option ParserTreeItem :=
  match d.m_documentCache file with
  | some entry => if entry.document.isSome then entry.tree else none
  | none => none

/-- The tree that `getParseDocumentTree` builds for a document. -/
def builtDocumentTree (ext : Externals) (doc : Document) : ParserTreeItem :=
  doc.globalSymbols.foldl (addSymbol ext) ParserTreeItem.empty

/-! ## Reference definitions for the root -/

/-- The key under which `parse` stores the node of a project (line 267). -/
def projectInformation (ext : Externals) (prj : Project) : SymbolInformation :=
  { name := prj.displayName, type := prj.projectFilePath, iconType := ext.defaultIconType }

/-- The node of a project in the root: with a non-empty file list (as
`getAllFiles` gives it) it carries locations and children of the
`getCachedOrParseProjectTree` result for that list and the project file path,
with an empty file list it has no children; the icon is that of the project. -/
def projectChild (ext : Externals) (d : ParserPrivate) (prj : Project) : ParserTreeItem :=
  let files := getAllFiles d (some prj)
  if files.1.length > 0 then
    let tree := (getCachedOrParseProjectTree ext files.2 files.1 prj.projectFilePath).1
    ParserTreeItem.mk tree.symbolLocations (some prj.icon) tree.symbolInformations
  else ParserTreeItem.mk ∅ (some prj.icon) []

/-- The parser state after `parse` has dealt with one project. -/
def afterProject (ext : Externals) (d : ParserPrivate) (prj : Project) : ParserPrivate :=
  (addFlatTree ext d ParserTreeItem.empty (some prj)).2

/-- The keyed project nodes of the root, one per project in list order, each
built in the state the previous projects left. -/
def projectChildren (ext : Externals) :
    ParserPrivate → List Project → List (SymbolInformation × ParserTreeItem)
  | _, [] => []
  | d, prj :: rest =>
    (projectInformation ext prj, projectChild ext d prj) ::
      projectChildren ext (afterProject ext d prj) rest

/-! ## The publish timer -/

/-- Whether a call of `Parser::parseDocument` reaches line 500 and calls
`d->timer.start(400)`: the document is non-null, its path is tracked, and
after `getParseDocumentTree` the timer is not active (lines 488-500). -/
def parseDocumentStartsTimer (ext : Externals) (d : ParserPrivate) (doc : Option Document) :
    Bool :=
  match doc with
  | none => false
  | some doc =>
    if doc.fileName ∉ d.fileList then false
    else !(getParseDocumentTree ext d (some doc)).2.timerActive

/-- The parser state after a sequence of `parseDocument` calls, nothing else
happening in between. -/
def parseDocuments (ext : Externals) (d : ParserPrivate) (docs : List (Option Document)) :
    ParserPrivate :=
  docs.foldl (parseDocument ext) d

/-- The number of `timer.start` calls made by a sequence of `parseDocument`
calls, nothing else happening in between. -/
def timerStartCount (ext : Externals) : ParserPrivate → List (Option Document) → Nat
  | _, [] => 0
  | d, doc :: rest =>
    (if parseDocumentStartsTimer ext d doc then 1 else 0) +
      timerStartCount ext (parseDocument ext d doc) rest

/-! ## Read-side navigation -/

/-- A `QStandardItem` of the UI model as `findItemByRoot` sees it: the data
from which its key is derived and its parent, which a top-level item does not
have (`parent()` is null). -/
inductive QStandardItem where
  | root (data : SymbolInformation)
  | child (data : SymbolInformation) (parent : QStandardItem)

namespace QStandardItem

/-- Modelled from the spec: `symbolInformationFromItem` (classviewutils.cpp is
not among the sources), the key derived again from the data stored in the UI
node. -/
def symbolInformationFromItem : QStandardItem → SymbolInformation
  | root data => data
  | child data _ => data

/-- The list `uiList` of lines 220-225: the item first, then its parent, up to
the item without parent. -/
def uiList : QStandardItem → List QStandardItem
  | root data => [root data]
  | child data parent => child data parent :: uiList parent

end QStandardItem

/-- What a call that may go through a null pointer does: it returns a value,
or it dereferences a null tree item. -/
inductive Outcome (α : Type) where
  | returns (value : α)
  | nullDereference

/-- The loop of lines 236-243 on the items still to visit, topmost first (the
source takes them from the end of `uiList`): `internal->child(inf)` needs
`internal` to be non-null, and a null result ends the loop. -/
def descend : Option ParserTreeItem → List QStandardItem → Outcome (Option ParserTreeItem)
  | internal, [] => Outcome.returns internal
  | none, _ :: _ => Outcome.nullDereference
  | some internal, cur :: rest =>
    match internal.child cur.symbolInformationFromItem with
    | none => Outcome.returns none
    | some next => descend (some next) rest

/-- Source `Parser::findItemByRoot` (lines 214-246). -/
def findItemByRoot (d : ParserPrivate) (item : Option QStandardItem) (skipRoot : Bool) :
    Outcome (Option ParserTreeItem) :=
  match item with
  | none => Outcome.returns none
  | some item =>
    let uiList := item.uiList
    let uiList := if skipRoot && uiList.length > 0 then uiList.dropLast else uiList
    descend d.rootItem uiList.reverse

/-- What the read-side queries use and the sources do not hold:
`ParserTreeItem::canFetchMore`, `ParserTreeItem::fetchMore` (its effect on the
UI item) and the default value of the parameter `skipRoot` of
`findItemByRoot`, declared in the header. -/
structure UiExternals where
  itemCanFetchMore : ParserTreeItem → QStandardItem → Bool
  itemFetchMore : ParserTreeItem → QStandardItem → QStandardItem
  skipRootDefault : Bool

/-- Source `Parser::canFetchMore` (lines 164-170). -/
def canFetchMore (ui : UiExternals) (d : ParserPrivate) (item : Option QStandardItem)
    (skipRoot : Bool) : Outcome Bool :=
  match findItemByRoot d item skipRoot, item with
  | Outcome.nullDereference, _ => Outcome.nullDereference
  | Outcome.returns none, _ => Outcome.returns false
  | Outcome.returns (some _), none => Outcome.returns false
  | Outcome.returns (some ptr), some item => Outcome.returns (ui.itemCanFetchMore ptr item)

/-- Source `Parser::fetchMore` (lines 177-183): the UI item after the call. -/
def fetchMore (ui : UiExternals) (d : ParserPrivate) (item : Option QStandardItem)
    (skipRoot : Bool) : Outcome (Option QStandardItem) :=
  match findItemByRoot d item skipRoot, item with
  | Outcome.nullDereference, _ => Outcome.nullDereference
  | Outcome.returns none, _ => Outcome.returns item
  | Outcome.returns (some _), none => Outcome.returns item
  | Outcome.returns (some ptr), some item => Outcome.returns (some (ui.itemFetchMore ptr item))

/-- Source `Parser::hasChildren` (lines 185-191). -/
def hasChildren (ui : UiExternals) (d : ParserPrivate) (item : Option QStandardItem) :
    Outcome Bool :=
  match findItemByRoot d item ui.skipRootDefault with
  | Outcome.nullDereference => Outcome.nullDereference
  | Outcome.returns none => Outcome.returns false
  | Outcome.returns (some ptr) => Outcome.returns (ptr.childCount != 0)

/-- The item reached from an item by successive child lookups with the given
keys, null as soon as one lookup fails. -/
def resolve : Option ParserTreeItem → List SymbolInformation → Option ParserTreeItem
  | cur, [] => cur
  | none, _ :: _ => none
  | some cur, key :: rest => resolve (cur.child key) rest

/-- The keys derived from the ancestor chain of a UI node, topmost first; with
`skipRoot` the topmost is dropped. -/
def pathKeys (item : QStandardItem) (skipRoot : Bool) : List SymbolInformation :=
  let keys := item.uiList.reverse.map QStandardItem.symbolInformationFromItem
  if skipRoot then keys.drop 1 else keys

/-- Two descriptions of a project that agree in display name, project file
path and icon; the source files may differ. -/
def sameProject (a b : Project) : Prop :=
  a.displayName = b.displayName ∧ a.projectFilePath = b.projectFilePath ∧ a.icon = b.icon

end ClassView

/-!
# MCU support: package status (`src/plugins/mcusupport/mcusupportoptions.cpp`)
-/

namespace McuSupport

/-- The values of `McuPackage::Status` that `updateStatus` assigns. -/
inductive Status where
  | EmptyPath
  | InvalidPath
  | ValidPathInvalidPackage
  | ValidPackageMismatchedVersion
  | ValidPackage
deriving DecidableEq, Repr

/-- The members of `McuPackage` that `updateStatus` reads and writes.  The
version detector is null or gives `parseVersion`; the file chooser is null or
gives `filePath().toString()`. -/
structure McuPackage where
  m_path : String
  m_detectionPath : String
  m_versions : List String
  m_versionDetector : Option (String → String)
  m_fileChooser : Option String
  m_detectedVersion : String
  m_status : Status

/-- Source `McuPackage::basePath` (lines 115-118). -/
def McuPackage.basePath (pkg : McuPackage) : String :=
  match pkg.m_fileChooser with
  | some filePath => filePath
  | none => pkg.m_path

/-- The path `detectionPath` of line 266. -/
def McuPackage.detectionPath (pkg : McuPackage) : String :=
  pkg.basePath ++ "/" ++ pkg.m_detectionPath

/-- Source `McuPackage::updateStatus` (lines 263-279); `fileExists` is
`FilePath::exists` of the file system at the time of the call. -/
def McuPackage.updateStatus (fileExists : String → Bool) (pkg : McuPackage) : McuPackage :=
  let validPath := pkg.m_path != "" && fileExists pkg.m_path
  let validPackage := pkg.m_detectionPath == "" || fileExists pkg.detectionPath
  let detectedVersion :=
    match validPath && validPackage, pkg.m_versionDetector with
    | true, some parseVersion => parseVersion pkg.basePath
    | _, _ => ""
  let validVersion :=
    detectedVersion == "" || pkg.m_versions.isEmpty || pkg.m_versions.contains detectedVersion
  let status :=
    if validPath then
      (if validPackage then
        (if validVersion then Status.ValidPackage else Status.ValidPackageMismatchedVersion)
      else Status.ValidPathInvalidPackage)
    else if pkg.m_path == "" then Status.EmptyPath else Status.InvalidPath
  { pkg with m_detectedVersion := detectedVersion, m_status := status }

/-- Source `McuPackage::validStatus` (lines 191-194). -/
def McuPackage.validStatus (pkg : McuPackage) : Bool :=
  pkg.m_status == Status.ValidPackage || pkg.m_status == Status.ValidPackageMismatchedVersion

/-- A file system that holds `/sdk` and `/sdk/bin/tool`. -/
def sdkFiles (path : String) : Bool :=
  path == "/sdk" || path == "/sdk/bin/tool"

/-- A package at `/sdk`, detected through `bin/tool`, whose detector reports
version `1.0` while `2.0` is supported. -/
def sdkPackage : McuPackage :=
  { m_path := "/sdk", m_detectionPath := "bin/tool", m_versions := ["2.0"],
    m_versionDetector := some (fun _ => "1.0"), m_fileChooser := none,
    m_detectedVersion := "", m_status := Status.EmptyPath }

end McuSupport

namespace ClassView

/-! ## Flat mode, and predicates on the parser state -/

/-- Source `Parser::setFlatMode` (lines 197-207). -/
def setFlatMode (ext : Externals) (d : ParserPrivate) (flatMode : Bool)
    (projects : List Project) : ParserPrivate :=
  if flatMode == d.flatMode then d
  else requestCurrentState ext { d with flatMode := flatMode } projects

/-- The state with other values for the timer flag, the published root and the
flat-mode flag. -/
def ParserPrivate.withUi (d : ParserPrivate) (timerActive : Bool)
    (rootItem : Option ParserTreeItem) (flatMode : Bool) : ParserPrivate :=
  { d with timerActive := timerActive, rootItem := rootItem, flatMode := flatMode }

/-- Every DocumentCache entry that holds a tree also holds a document, its
stored revision is the revision of that document, and its key is the file
path of that document. -/
def TreesValid (d : ParserPrivate) : Prop :=
  ∀ (k : String) (entry : DocumentCache), d.m_documentCache k = some entry →
    entry.tree.isSome = true →
    ∃ doc : Document, entry.document = some doc ∧ entry.treeRevision = doc.revision ∧
      doc.fileName = k

/-- Every known document is stored under its own file path. -/
def KeyConsistent (d : ParserPrivate) : Prop :=
  ∀ (file : String) (doc : Document), d.document file = some doc → doc.fileName = file

/-- A snapshot as the C++ model manager keeps it: a map (no key twice) from
the file path of a document to that document. -/
def SnapshotWellFormed (snapshot : List (String × Option Document)) : Prop :=
  (snapshot.map Prod.fst).Nodup ∧
    ∀ kv ∈ snapshot, ∃ doc : Document, kv.2 = some doc ∧ doc.fileName = kv.1

/-- The DocumentCache that `resetData` fills from the snapshot (lines 538-540). -/
def snapshotCache (snapshot : List (String × Option Document)) : String → Option DocumentCache :=
  snapshot.foldl
    (fun m kv => hashInsert m kv.1 { (m kv.1).getD DocumentCache.init with document := kv.2 })
    (fun _ => none)

/-- The state from which `resetData` runs its publish, with the members that
`resetData` does not assign (timer flag, published root, flat-mode flag) set
to the values of a new parser. -/
def resetBase (snapshot : List (String × Option Document)) (projects : List Project) :
    ParserPrivate :=
  { timerActive := false
    m_documentCache := snapshotCache snapshot
    m_projectCache := fun _ => none
    fileList := (projects.foldl (fun fileList prj => fileList ++ prj.sourceFiles) []).toFinset
    rootItem := none
    flatMode := false }

/-! ## Concrete inputs

A front end that prints a name as its identifier and a type as its spelling,
and the translation unit `namespace N { class C {}; }` of file `a.cpp` in
project `P`. -/

/-- A concrete choice of the library functions. -/
def ext0 : Externals :=
  { prettyName := fun n => match n with
      | some n => n.identifier
      | none => ""
    prettyType := fun t => t.spelling
    trimmed := fun s => s
    iconTypeForSymbol := fun s => if s.data.isNamespace then 3 else 1
    defaultIconType := -1 }

/-- Attributes of a symbol of `a.cpp` that no early return filters. -/
def plainData (name : String) (line : Nat) (isNamespace : Bool) : SymbolData :=
  { isForwardClassDeclaration := false, isExtern := false, isFriend := false,
    isGenerated := false, isUsingNamespaceDirective := false, isUsingDeclaration := false,
    name := some { isQualifiedNameId := false, identifier := name }, type := { spelling := "" },
    fileName := "a.cpp", line := line, column := 1, isFunction := false,
    isNamespace := isNamespace }

/-- The class `C {}`. -/
def symC : Symbol := Symbol.mk (plainData "C" 2 false) (some [])

/-- The namespace `N { class C {}; }`. -/
def symN : Symbol := Symbol.mk (plainData "N" 1 true) (some [some symC])

/-- The document of `a.cpp` at revision 1. -/
def docA : Document := { fileName := "a.cpp", revision := 1, globalSymbols := [some symN] }

/-- The project `P` with the single source file `a.cpp`. -/
def prjP : Project :=
  { displayName := "P", projectFilePath := "p.pro", sourceFiles := ["a.cpp"], icon := 7 }

/-- The parser state right after construction. -/
def initialState : ParserPrivate :=
  { timerActive := false, m_documentCache := fun _ => none, m_projectCache := fun _ => none,
    fileList := ∅, rootItem := none, flatMode := false }

/-- The tree of `a.cpp`: `N` holding `C`. -/
def treeA : ParserTreeItem :=
  ParserTreeItem.mk ∅ none
    [({ name := "N", type := "", iconType := 3 },
      ParserTreeItem.mk {{ fileName := "a.cpp", line := 1, column := 1 }} none
        [({ name := "C", type := "", iconType := 1 },
          ParserTreeItem.mk {{ fileName := "a.cpp", line := 2, column := 1 }} none [])])]

/-- An `extern` declaration that nevertheless has a member scope. -/
def symExtern : Symbol :=
  Symbol.mk { plainData "E" 5 false with isExtern := true } (some [some symC])

/-- A second declaration of namespace `N`, in `b.cpp`, holding `C` as well. -/
def symN2 : Symbol :=
  Symbol.mk { plainData "N" 10 true with fileName := "b.cpp" } (some [some symC])

/-- The forward declaration `class C;`. -/
def symForwardC : Symbol :=
  Symbol.mk { plainData "C" 3 false with isForwardClassDeclaration := true } none

/-- The namespace `A { namespace B {} namespace N { class C; } }`. -/
def symHollow : Symbol :=
  Symbol.mk (plainData "A" 1 true)
    (some [some (Symbol.mk (plainData "B" 2 true) (some [])), none,
      some (Symbol.mk (plainData "N" 3 true) (some [some symForwardC]))])

/-- A function whose scope holds a local class. -/
def symFunction : Symbol :=
  Symbol.mk { plainData "f" 4 false with isFunction := true, type := { spelling := "void ()" } }
    (some [some symC])

/-- A document of `a.cpp` with the revision of `docA` but without symbols. -/
def docA2 : Document := { fileName := "a.cpp", revision := 1, globalSymbols := [] }

/-- The state in which `a.cpp` is tracked and nothing is cached. -/
def trackedState : ParserPrivate := setFileList initialState ["a.cpp"]

/-- The state after `a.cpp` is tracked and `docA` has been parsed. -/
def parsedState : ParserPrivate := (getParseDocumentTree ext0 trackedState (some docA)).2

/-- The entry that parsing `docA` leaves in the document cache. -/
def entryA : DocumentCache := { treeRevision := 1, tree := some treeA, document := some docA }

/-- The state after `resetData` with the snapshot that holds `docA`, project `P` open. -/
def publishedState : ParserPrivate :=
  resetData ext0 initialState [("a.cpp", some docA)] [prjP]

/-- The root with project `P` holding the tree of `a.cpp`. -/
def rootWithA : ParserTreeItem :=
  ParserTreeItem.mk ∅ none
    [({ name := "P", type := "p.pro", iconType := -1 },
      ParserTreeItem.mk ∅ (some 7) treeA.symbolInformations)]

/-- The root with project `P` holding nothing. -/
def rootWithoutA : ParserTreeItem :=
  ParserTreeItem.mk ∅ none
    [({ name := "P", type := "p.pro", iconType := -1 }, ParserTreeItem.mk ∅ (some 7) [])]

/-- The state in which `docA` is the known document of `a.cpp`, no file is
tracked and no tree is cached. -/
def untrackedState : ParserPrivate :=
  { initialState with
    m_documentCache := (hashInsert (fun _ => none) "a.cpp"
      { treeRevision := 0, tree := none, document := some docA }) }

/-- The state in which `a.cpp` is tracked, `docA` is its known document and no
tree is cached. -/
def knownState : ParserPrivate :=
  { initialState with
    fileList := {"a.cpp"}
    m_documentCache := (hashInsert (fun _ => none) "a.cpp"
      { treeRevision := 0, tree := none, document := some docA }) }

/-- The entry that the publish leaves in the project cache for `p.pro`. -/
def entryP : ProjectCache := { treeRevision := 1, tree := some treeA, fileList := ["a.cpp"] }

/-- The class `D {}` of `b.cpp`. -/
def symD : Symbol :=
  Symbol.mk { plainData "D" 1 false with fileName := "b.cpp" } (some [])

/-- The document of `b.cpp` at revision 5. -/
def docB : Document := { fileName := "b.cpp", revision := 5, globalSymbols := [some symD] }

/-- A later document of `a.cpp`, revision 2, that holds the class `C` alone. -/
def docA3 : Document := { fileName := "a.cpp", revision := 2, globalSymbols := [some symC] }

/-- The project `Q` with the source files `a.cpp` and `b.cpp`. -/
def prjQ : Project :=
  { displayName := "Q", projectFilePath := "q.pro", sourceFiles := ["a.cpp", "b.cpp"], icon := 8 }

/-- The state after `resetData` with `docA` and `docB`, project `Q` open. -/
def publishedStateQ : ParserPrivate :=
  resetData ext0 initialState [("a.cpp", some docA), ("b.cpp", some docB)] [prjQ]

/-- The tree of `b.cpp`: the class `D`. -/
def treeB : ParserTreeItem :=
  ParserTreeItem.mk ∅ none
    [({ name := "D", type := "", iconType := 1 },
      ParserTreeItem.mk {{ fileName := "b.cpp", line := 1, column := 1 }} none [])]

/-- The tree of project `Q`: `N` holding `C`, and `D`. -/
def treeQ : ParserTreeItem :=
  ParserTreeItem.mk ∅ none (treeA.symbolInformations ++ treeB.symbolInformations)

/-- The entry that the publish leaves in the project cache for `q.pro`. -/
def entryQ : ProjectCache :=
  { treeRevision := 6, tree := some treeQ, fileList := ["a.cpp", "b.cpp"] }

/-- The entry that the publish leaves in the document cache for `b.cpp`. -/
def entryB : DocumentCache := { treeRevision := 5, tree := some treeB, document := some docB }

/-- A later document of `a.cpp`, revision `1 + 2^31`, that holds the class `C` alone. -/
def docAWrap : Document :=
  { fileName := "a.cpp", revision := 2147483649, globalSymbols := [some symC] }

/-- A later document of `b.cpp`, revision `5 + 2^31`, with the symbols of `docB`. -/
def docBWrap : Document :=
  { fileName := "b.cpp", revision := 2147483653, globalSymbols := [some symD] }

/-- The state after project `Q` was published and both files were notified
again with revisions larger by `2^31`. -/
def collidingState : ParserPrivate :=
  parseDocument ext0 (parseDocument ext0 publishedStateQ (some docAWrap)) (some docBWrap)

/-- A project whose source-file list names `a.cpp` twice. -/
def prjDup : Project :=
  { displayName := "D", projectFilePath := "d.pro", sourceFiles := ["a.cpp", "a.cpp"], icon := 9 }

/-- The state after `resetData` with `docA`, project `D` open. -/
def publishedStateDup : ParserPrivate :=
  resetData ext0 initialState [("a.cpp", some docA)] [prjDup]

/-- The translation unit of `docA` at revision 0. -/
def docA0 : Document := { fileName := "a.cpp", revision := 0, globalSymbols := [some symN] }

/-- The state after `resetData` with `docA0` and `docB`, project `Q` open. -/
def publishedStateZero : ParserPrivate :=
  resetData ext0 initialState [("a.cpp", some docA0), ("b.cpp", some docB)] [prjQ]

/-- A document of `z.cpp`, a file of no project. -/
def docZ : Document := { fileName := "z.cpp", revision := 3, globalSymbols := [some symC] }

/-- A concrete choice of the UI functions, `skipRoot` false by default. -/
def ui0 : UiExternals :=
  { itemCanFetchMore := fun ptr _ => ptr.childCount != 0
    itemFetchMore := fun _ item => item
    skipRootDefault := false }

/-- The UI node of project `Q`, a top-level item. -/
def uiProjectQ : QStandardItem := QStandardItem.root (projectInformation ext0 prjQ)

/-- The UI node of namespace `N` under project `Q`. -/
def uiNamespaceN : QStandardItem :=
  QStandardItem.child { name := "N", type := "", iconType := 3 } uiProjectQ

/-- The root published for project `Q`. -/
def rootQ : ParserTreeItem :=
  ParserTreeItem.mk ∅ none
    [(projectInformation ext0 prjQ, ParserTreeItem.mk ∅ (some 8) treeQ.symbolInformations)]

/-- Project `P` after `b.cpp` has been added to its source files. -/
def prjP2 : Project := { prjP with sourceFiles := ["a.cpp", "b.cpp"] }

/-- The location of namespace `N` in `a.cpp`. -/
def locN : SymbolLocation := { fileName := "a.cpp", line := 1, column := 1 }

/-- The node of namespace `N` in the tree of `a.cpp`. -/
def itemN : ParserTreeItem :=
  ParserTreeItem.mk {locN} none
    [({ name := "C", type := "", iconType := 1 },
      ParserTreeItem.mk {{ fileName := "a.cpp", line := 2, column := 1 }} none [])]

/-- The state after `resetData` with `docA` while no project is open, a publish
with project `P` open, and `setFileList ["a.cpp"]`: the tree of `P` was
cached while `a.cpp` was not tracked. -/
def staleState : ParserPrivate :=
  setFileList
    (requestCurrentState ext0 (resetData ext0 initialState [("a.cpp", some docA)] []) [prjP])
    ["a.cpp"]

/-! ## Lemmas on tree items -/

namespace ParserTreeItem

@[simp] theorem symbolLocations_appendChild (p c : ParserTreeItem) (inf : SymbolInformation) :
    (p.appendChild c inf).symbolLocations = p.symbolLocations := rfl

@[simp] theorem icon_appendChild (p c : ParserTreeItem) (inf : SymbolInformation) :
    (p.appendChild c inf).icon = p.icon := rfl

@[simp] theorem symbolInformations_appendChild (p c : ParserTreeItem) (inf : SymbolInformation) :
    (p.appendChild c inf).symbolInformations = assign inf c p.symbolInformations := rfl

@[simp] theorem symbolInformations_addSymbolLocation (p : ParserTreeItem) (l : SymbolLocation) :
    (p.addSymbolLocation l).symbolInformations = p.symbolInformations := rfl

@[simp] theorem symbolLocations_addSymbolLocation (p : ParserTreeItem) (l : SymbolLocation) :
    (p.addSymbolLocation l).symbolLocations = insert l p.symbolLocations := rfl

theorem eta (p : ParserTreeItem) :
    mk p.symbolLocations p.icon p.symbolInformations = p := by
  cases p; rfl

theorem lookup_assign_self (inf : SymbolInformation) (c : ParserTreeItem)
    (l : List (SymbolInformation × ParserTreeItem)) :
    lookup inf (assign inf c l) = some c := by
  induction l with
  | nil => simp [assign, lookup]
  | cons hd tl ih =>
    obtain ⟨k, v⟩ := hd
    by_cases h : k = inf
    · simp [assign, lookup, h]
    · simp [assign, lookup, h, ih]

theorem map_fst_assign_of_lookup (inf : SymbolInformation) (c : ParserTreeItem)
    (l : List (SymbolInformation × ParserTreeItem)) (h : (lookup inf l).isSome = true) :
    (assign inf c l).map Prod.fst = l.map Prod.fst := by
  induction l with
  | nil => simp [lookup] at h
  | cons hd tl ih =>
    obtain ⟨k, v⟩ := hd
    by_cases hk : k = inf
    · simp [assign, hk]
    · simp only [lookup, hk, if_false] at h
      simp [assign, hk, ih h]

end ParserTreeItem

/-! ## Lemmas on the symbol walk -/

theorem addSymbolNonNull_unfold (ext : Externals) (item : ParserTreeItem) (d : SymbolData)
    (scope : Option (List (Option Symbol))) :
    addSymbolNonNull ext item (Symbol.mk d scope) =
      if isSkippedKind d then item
      else if hasQualifiedName d then item
      else
        let inf := information ext (Symbol.mk d scope)
        let found := item.child inf
        let itemAdd0 := (found.getD ParserTreeItem.empty).addSymbolLocation
          (location (Symbol.mk d scope))
        let itemAdd :=
          if !d.isFunction then
            match scope with
            | some members => addMembers ext itemAdd0 members
            | none => itemAdd0
          else itemAdd0
        if found.isSome then item.appendChild itemAdd inf
        else if !(d.isNamespace && itemAdd.childCount == 0) then item.appendChild itemAdd inf
        else item := by
  cases scope with
  | none => rfl
  | some members => rfl

theorem addMembers_nil (ext : Externals) (item : ParserTreeItem) :
    addMembers ext item [] = item := rfl

theorem addMembers_none (ext : Externals) (item : ParserTreeItem) (rest : List (Option Symbol)) :
    addMembers ext item (none :: rest) = addMembers ext item rest := rfl

theorem addMembers_some (ext : Externals) (item : ParserTreeItem) (s : Symbol)
    (rest : List (Option Symbol)) :
    addMembers ext item (some s :: rest) = addMembers ext (addSymbolNonNull ext item s) rest := rfl

theorem addSymbolNonNull_eq (ext : Externals) (item : ParserTreeItem) (s : Symbol) :
    addSymbolNonNull ext item s =
      if isFiltered s then item
      else if (item.child (information ext s)).isSome then
        item.appendChild (itemAddOf ext item s) (information ext s)
      else if isPruned ext item s then item
      else item.appendChild (itemAddOf ext item s) (information ext s) := by
  cases s with
  | mk d scope =>
    rw [addSymbolNonNull_unfold]
    show (if isSkippedKind d then item
      else if hasQualifiedName d then item
      else if (item.child (information ext (Symbol.mk d scope))).isSome then
        item.appendChild (itemAddOf ext item (Symbol.mk d scope)) (information ext (Symbol.mk d scope))
      else if !(d.isNamespace && (itemAddOf ext item (Symbol.mk d scope)).childCount == 0) then
        item.appendChild (itemAddOf ext item (Symbol.mk d scope)) (information ext (Symbol.mk d scope))
      else item) = _
    simp only [isFiltered, isPruned, Symbol.data]
    cases h1 : isSkippedKind d <;> cases h2 : hasQualifiedName d <;>
      cases h3 : (item.child (information ext (Symbol.mk d scope))).isSome <;>
      by_cases hn : d.isNamespace = true <;>
      by_cases hc : (itemAddOf ext item (Symbol.mk d scope)).childCount = 0 <;>
      simp [hn, hc]

theorem addSymbol_some (ext : Externals) (item : ParserTreeItem) (s : Symbol) :
    addSymbol ext item (some s) = addSymbolNonNull ext item s := rfl

theorem isFiltered_of_flag (s : Symbol)
    (h : s.data.isForwardClassDeclaration = true ∨ s.data.isExtern = true ∨
      s.data.isFriend = true ∨ s.data.isGenerated = true ∨
      s.data.isUsingNamespaceDirective = true ∨ s.data.isUsingDeclaration = true ∨
      ∃ n, s.data.name = some n ∧ n.isQualifiedNameId = true) :
    isFiltered s = true := by
  unfold isFiltered isSkippedKind hasQualifiedName
  rcases h with h | h | h | h | h | h | ⟨n, hn, hq⟩
  · simp [h]
  · simp [h]
  · simp [h]
  · simp [h]
  · simp [h]
  · simp [h]
  · simp [hn, hq]

theorem addSymbolNonNull_symbolLocations (ext : Externals) (item : ParserTreeItem) (s : Symbol) :
    (addSymbolNonNull ext item s).symbolLocations = item.symbolLocations := by
  rw [addSymbolNonNull_eq]
  split_ifs <;> rfl

theorem addSymbolNonNull_icon (ext : Externals) (item : ParserTreeItem) (s : Symbol) :
    (addSymbolNonNull ext item s).icon = item.icon := by
  rw [addSymbolNonNull_eq]
  split_ifs <;> rfl

theorem addMembers_symbolLocations (ext : Externals) (members : List (Option Symbol)) :
    ∀ item : ParserTreeItem,
      (addMembers ext item members).symbolLocations = item.symbolLocations := by
  induction members with
  | nil => intro item; rfl
  | cons m rest ih =>
    intro item
    cases m with
    | none => rw [addMembers_none]; exact ih item
    | some s => rw [addMembers_some, ih, addSymbolNonNull_symbolLocations]

theorem itemAddOf_symbolLocations (ext : Externals) (item : ParserTreeItem) (s : Symbol) :
    (itemAddOf ext item s).symbolLocations =
      insert (location s)
        ((item.child (information ext s)).getD ParserTreeItem.empty).symbolLocations := by
  unfold itemAddOf
  simp only []
  split_ifs
  · split
    · rw [addMembers_symbolLocations]; rfl
    · rfl
  · rfl

theorem keys_addSymbolNonNull_of_pruned (ext : Externals) (item : ParserTreeItem) (s : Symbol)
    (hp : isPruned ext item s = true) :
    (addSymbolNonNull ext item s).keys = item.keys := by
  rw [addSymbolNonNull_eq]
  split_ifs with h1 h2
  · rfl
  · exact ParserTreeItem.map_fst_assign_of_lookup _ _ _ h2
  · rfl

mutual
theorem addSymbolNonNull_hollow (ext : Externals) :
    ∀ (s : Symbol) (item : ParserTreeItem), item.symbolInformations = [] →
      (isFiltered s || isHollowNamespace s) = true → addSymbolNonNull ext item s = item
  | Symbol.mk d scope, item, hitem, h => by
    rw [addSymbolNonNull_eq]
    by_cases hf : isFiltered (Symbol.mk d scope) = true
    · simp [hf]
    · have hh : isHollowNamespace (Symbol.mk d scope) = true := by
        simpa [hf] using h
      have hchild : item.child (information ext (Symbol.mk d scope)) = none := by
        simp [ParserTreeItem.child, hitem, ParserTreeItem.lookup]
      have hns : d.isNamespace = true := by
        cases scope <;> simp [isHollowNamespace] at hh <;> simp [hh]
      have hcount : (itemAddOf ext item (Symbol.mk d scope)).childCount = 0 := by
        unfold itemAddOf
        simp only [hchild, Symbol.data, Symbol.asScope, Option.getD_none]
        split_ifs
        · cases scope with
          | none => rfl
          | some members =>
            have hall : allHollow members = true := by
              simp [isHollowNamespace] at hh
              exact hh.2
            show (addMembers ext (ParserTreeItem.empty.addSymbolLocation
              (location (Symbol.mk d (some members)))) members).childCount = 0
            rw [addMembers_hollow ext members
              (ParserTreeItem.empty.addSymbolLocation (location (Symbol.mk d (some members))))
              rfl hall]
            rfl
        · rfl
      simp [hf, hchild, isPruned, hns, hcount, Symbol.data]
theorem addMembers_hollow (ext : Externals) :
    ∀ (members : List (Option Symbol)) (item : ParserTreeItem), item.symbolInformations = [] →
      allHollow members = true → addMembers ext item members = item
  | [], _, _, _ => rfl
  | none :: rest, item, hitem, h => by
    rw [addMembers_none]
    exact addMembers_hollow ext rest item hitem (by simpa [allHollow] using h)
  | some s :: rest, item, hitem, h => by
    have h2 : (isFiltered s || isHollowNamespace s) = true ∧ allHollow rest = true := by
      simpa [allHollow] using h
    rw [addMembers_some, addSymbolNonNull_hollow ext s item hitem h2.1]
    exact addMembers_hollow ext rest item hitem h2.2
end

/-! ## Lemmas on the document cache -/

theorem foldl_range_getD {α : Type} (f : α → Option Symbol → α) (l : List (Option Symbol)) :
    ∀ (n : Nat) (init : α), n ≤ l.length →
      (List.range n).foldl (fun acc i => f acc (l.getD i none)) init = (l.take n).foldl f init := by
  intro n
  induction n with
  | zero => intro init _; rfl
  | succ n ih =>
    intro init hn
    have hlt : n < l.length := hn
    rw [List.range_succ, List.foldl_append, ih init (Nat.le_of_lt hlt), List.take_succ,
      List.foldl_append]
    simp [List.getD, List.getElem?_eq_getElem hlt]

theorem getParseDocumentTree_of_mem (ext : Externals) (d : ParserPrivate) (doc : Document)
    (h : doc.fileName ∈ d.fileList) :
    getParseDocumentTree ext d (some doc) =
      (some (doc.globalSymbols.foldl (addSymbol ext) ParserTreeItem.empty),
        { d with m_documentCache := (hashInsert d.m_documentCache doc.fileName
            (DocumentCache.mk doc.revision
              (some (doc.globalSymbols.foldl (addSymbol ext) ParserTreeItem.empty)) (some doc))) }) := by
  have hfold := foldl_range_getD (addSymbol ext) doc.globalSymbols doc.globalSymbols.length
    ParserTreeItem.empty (Nat.le_refl _)
  rw [List.take_length] at hfold
  simp only [getParseDocumentTree, h, not_true_eq_false, if_false, Document.globalSymbolCount,
    Document.globalSymbolAt, hfold]

theorem getParseDocumentTree_of_not_mem (ext : Externals) (d : ParserPrivate) (doc : Document)
    (h : doc.fileName ∉ d.fileList) :
    getParseDocumentTree ext d (some doc) = (none, d) := by
  simp [getParseDocumentTree, h]

theorem getCachedOrParseDocumentTree_hit (ext : Externals) (d : ParserPrivate) (doc : Document)
    (entry : DocumentCache) (t : ParserTreeItem)
    (he : d.m_documentCache doc.fileName = some entry) (ht : entry.tree = some t)
    (hr : entry.treeRevision = doc.revision) :
    getCachedOrParseDocumentTree ext d (some doc) = (some t, d) := by
  simp [getCachedOrParseDocumentTree, he, ht, hr]

theorem getCachedOrParseDocumentTree_miss (ext : Externals) (d : ParserPrivate) (doc : Document)
    (h : ¬ ∃ entry t, d.m_documentCache doc.fileName = some entry ∧ entry.tree = some t ∧
      entry.treeRevision = doc.revision) :
    getCachedOrParseDocumentTree ext d (some doc) = getParseDocumentTree ext d (some doc) := by
  simp only [getCachedOrParseDocumentTree]
  cases he : d.m_documentCache doc.fileName with
  | none => rfl
  | some entry =>
    simp only []
    split_ifs with hc
    · exfalso
      simp only [Bool.and_eq_true, beq_iff_eq, Option.isSome_iff_exists] at hc
      obtain ⟨⟨t, ht⟩, hr⟩ := hc
      exact h ⟨entry, t, he, ht, hr⟩
    · rfl

theorem getCachedOrParseDocumentTree_cases (ext : Externals) (d : ParserPrivate)
    (doc : Document) :
    (∃ entry t, d.m_documentCache doc.fileName = some entry ∧ entry.tree = some t ∧
        entry.treeRevision = doc.revision ∧
        getCachedOrParseDocumentTree ext d (some doc) = (some t, d)) ∨
      (doc.fileName ∉ d.fileList ∧ getCachedOrParseDocumentTree ext d (some doc) = (none, d)) ∨
      (doc.fileName ∈ d.fileList ∧
        getCachedOrParseDocumentTree ext d (some doc) = getParseDocumentTree ext d (some doc)) := by
  by_cases h : ∃ entry t, d.m_documentCache doc.fileName = some entry ∧ entry.tree = some t ∧
      entry.treeRevision = doc.revision
  · obtain ⟨entry, t, he, ht, hr⟩ := h
    exact Or.inl ⟨entry, t, he, ht, hr, getCachedOrParseDocumentTree_hit ext d doc entry t he ht hr⟩
  · by_cases hm : doc.fileName ∈ d.fileList
    · exact Or.inr (Or.inr ⟨hm, getCachedOrParseDocumentTree_miss ext d doc h⟩)
    · refine Or.inr (Or.inl ⟨hm, ?_⟩)
      rw [getCachedOrParseDocumentTree_miss ext d doc h, getParseDocumentTree_of_not_mem ext d doc hm]

/-- After a first call for a document, a call for any document of the same path
and revision returns the result of the first call and changes nothing. -/
theorem getCachedOrParseDocumentTree_again (ext : Externals) (d : ParserPrivate)
    (doc doc2 : Document) (hn : doc2.fileName = doc.fileName)
    (hr : doc2.revision = doc.revision) :
    getCachedOrParseDocumentTree ext (getCachedOrParseDocumentTree ext d (some doc)).2 (some doc2) =
      getCachedOrParseDocumentTree ext d (some doc) := by
  rcases getCachedOrParseDocumentTree_cases ext d doc with
    ⟨entry, t, he, ht, hrev, h⟩ | ⟨hm, h⟩ | ⟨hm, h⟩
  · rw [h]
    exact getCachedOrParseDocumentTree_hit ext d doc2 entry t (by rw [hn]; exact he) ht
      (by rw [hr]; exact hrev)
  · rw [h]
    by_cases h2 : ∃ entry t, d.m_documentCache doc2.fileName = some entry ∧ entry.tree = some t ∧
        entry.treeRevision = doc2.revision
    · exfalso
      obtain ⟨entry, t, he, ht, hrev⟩ := h2
      have := getCachedOrParseDocumentTree_hit ext d doc entry t (by rw [← hn]; exact he) ht
        (by rw [← hr]; exact hrev)
      rw [h] at this
      simp at this
    · rw [getCachedOrParseDocumentTree_miss ext d doc2 h2,
        getParseDocumentTree_of_not_mem ext d doc2 (by rw [hn]; exact hm)]
  · rw [h, getParseDocumentTree_of_mem ext d doc hm]
    exact getCachedOrParseDocumentTree_hit ext _ doc2
      (DocumentCache.mk doc.revision
        (some (doc.globalSymbols.foldl (addSymbol ext) ParserTreeItem.empty)) (some doc)) _
      (by simp [hashInsert, hn]) rfl hr.symm

/-! ## Lemmas on the merge of trees and on the project tree -/

namespace ParserTreeItem

theorem add_mk (item : ParserTreeItem) (locs : Finset SymbolLocation) (icon : Option Nat)
    (children : List (SymbolInformation × ParserTreeItem)) :
    item.add (mk locs icon children) =
      addChildren (mk (item.symbolLocations ∪ locs) item.icon item.symbolInformations) children :=
  rfl

theorem add_congr (item t t2 : ParserTreeItem)
    (hl : t.symbolLocations = t2.symbolLocations)
    (hc : t.symbolInformations = t2.symbolInformations) : item.add t = item.add t2 := by
  cases t
  cases t2
  simp only [symbolLocations, symbolInformations] at hl hc
  subst hl
  subst hc
  rfl

theorem addChildren_nil (item : ParserTreeItem) : addChildren item [] = item := rfl

theorem addChildren_cons (item : ParserTreeItem) (inf : SymbolInformation)
    (targetChild : ParserTreeItem) (rest : List (SymbolInformation × ParserTreeItem)) :
    addChildren item ((inf, targetChild) :: rest) =
      match item.child inf with
      | some c => addChildren (item.appendChild (add c targetChild) inf) rest
      | none => addChildren (item.appendChild targetChild inf) rest := by
  rfl

end ParserTreeItem

theorem getParseProjectTree_fst (ext : Externals) (d : ParserPrivate) (fileList : List String)
    (projectId : String) :
    (getParseProjectTree ext d fileList projectId).1 =
      (fileList.foldl (projectTreeStep ext) (ParserTreeItem.empty, 0, d)).1 := by
  unfold getParseProjectTree
  simp only []
  split_ifs <;> rfl

/-- The tree of a document that holds one namespace with one member-free,
non-namespace member. -/
theorem addSymbol_namespace_with_class (ext : Externals) (dn dc : SymbolData)
    (scopeC : Option (List (Option Symbol)))
    (hfn : isFiltered (Symbol.mk dn (some [some (Symbol.mk dc scopeC)])) = false)
    (hfc : isFiltered (Symbol.mk dc scopeC) = false)
    (hnfun : dn.isFunction = false) (hcns : dc.isNamespace = false)
    (hscope : scopeC = none ∨ scopeC = some []) :
    addSymbol ext ParserTreeItem.empty (some (Symbol.mk dn (some [some (Symbol.mk dc scopeC)]))) =
      ParserTreeItem.mk ∅ none
        [(information ext (Symbol.mk dn (some [some (Symbol.mk dc scopeC)])),
          ParserTreeItem.mk {location (Symbol.mk dn (some [some (Symbol.mk dc scopeC)]))} none
            [(information ext (Symbol.mk dc scopeC),
              ParserTreeItem.mk {location (Symbol.mk dc scopeC)} none [])])] := by
  have hC : ∀ item : ParserTreeItem, item.symbolInformations = [] →
      addSymbolNonNull ext item (Symbol.mk dc scopeC) =
        ParserTreeItem.mk item.symbolLocations item.icon
          [(information ext (Symbol.mk dc scopeC),
            ParserTreeItem.mk {location (Symbol.mk dc scopeC)} none [])] := by
    intro item hitem
    have hchild : item.child (information ext (Symbol.mk dc scopeC)) = none := by
      simp [ParserTreeItem.child, hitem, ParserTreeItem.lookup]
    have hia : itemAddOf ext item (Symbol.mk dc scopeC) =
        ParserTreeItem.mk {location (Symbol.mk dc scopeC)} none [] := by
      rcases hscope with h | h <;> subst h <;>
        simp [itemAddOf, hchild, Symbol.asScope, addMembers_nil, ParserTreeItem.empty,
          ParserTreeItem.addSymbolLocation, ParserTreeItem.symbolLocations, ParserTreeItem.icon,
          ParserTreeItem.symbolInformations]
    rw [addSymbolNonNull_eq, hfc, hchild, hia]
    simp [isPruned, Symbol.data, hcns, ParserTreeItem.appendChild, hitem, ParserTreeItem.assign]
  have hchildN : ParserTreeItem.empty.child
      (information ext (Symbol.mk dn (some [some (Symbol.mk dc scopeC)]))) = none := rfl
  have hiaN : itemAddOf ext ParserTreeItem.empty (Symbol.mk dn (some [some (Symbol.mk dc scopeC)])) =
      ParserTreeItem.mk {location (Symbol.mk dn (some [some (Symbol.mk dc scopeC)]))} none
        [(information ext (Symbol.mk dc scopeC),
          ParserTreeItem.mk {location (Symbol.mk dc scopeC)} none [])] := by
    simp only [itemAddOf, hchildN, Symbol.data, Symbol.asScope, hnfun, Option.getD_none,
      addMembers_some, addMembers_nil, Bool.not_false, if_true]
    rw [hC (ParserTreeItem.empty.addSymbolLocation
      (location (Symbol.mk dn (some [some (Symbol.mk dc scopeC)])))) rfl]
    rfl
  have hpr : isPruned ext ParserTreeItem.empty
      (Symbol.mk dn (some [some (Symbol.mk dc scopeC)])) = false := by
    simp [isPruned, hiaN, ParserTreeItem.childCount, ParserTreeItem.symbolInformations]
  rw [addSymbol_some, addSymbolNonNull_eq, hfn, hchildN, hpr, hiaN]
  rfl

/-! ## Frame lemmas: what the document functions leave alone -/

theorem getParseDocumentTree_frame (ext : Externals) (d : ParserPrivate) (doc : Option Document) :
    (getParseDocumentTree ext d doc).2.m_projectCache = d.m_projectCache ∧
      (getParseDocumentTree ext d doc).2.fileList = d.fileList ∧
      (getParseDocumentTree ext d doc).2.timerActive = d.timerActive ∧
      (getParseDocumentTree ext d doc).2.rootItem = d.rootItem ∧
      (getParseDocumentTree ext d doc).2.flatMode = d.flatMode := by
  cases doc with
  | none => exact ⟨rfl, rfl, rfl, rfl, rfl⟩
  | some doc =>
    by_cases h : doc.fileName ∈ d.fileList
    · rw [getParseDocumentTree_of_mem ext d doc h]
      exact ⟨rfl, rfl, rfl, rfl, rfl⟩
    · rw [getParseDocumentTree_of_not_mem ext d doc h]
      exact ⟨rfl, rfl, rfl, rfl, rfl⟩

theorem getCachedOrParseDocumentTree_frame (ext : Externals) (d : ParserPrivate)
    (doc : Option Document) :
    (getCachedOrParseDocumentTree ext d doc).2.m_projectCache = d.m_projectCache ∧
      (getCachedOrParseDocumentTree ext d doc).2.fileList = d.fileList ∧
      (getCachedOrParseDocumentTree ext d doc).2.timerActive = d.timerActive ∧
      (getCachedOrParseDocumentTree ext d doc).2.rootItem = d.rootItem ∧
      (getCachedOrParseDocumentTree ext d doc).2.flatMode = d.flatMode := by
  cases doc with
  | none => exact ⟨rfl, rfl, rfl, rfl, rfl⟩
  | some doc =>
    rcases getCachedOrParseDocumentTree_cases ext d doc with
      ⟨entry, t, _, _, _, h⟩ | ⟨_, h⟩ | ⟨_, h⟩
    · rw [h]; exact ⟨rfl, rfl, rfl, rfl, rfl⟩
    · rw [h]; exact ⟨rfl, rfl, rfl, rfl, rfl⟩
    · rw [h]; exact getParseDocumentTree_frame ext d (some doc)

theorem projectTreeStep_frame (ext : Externals) (acc : ParserTreeItem × Nat × ParserPrivate)
    (file : String) :
    (projectTreeStep ext acc file).2.2.m_projectCache = acc.2.2.m_projectCache ∧
      (projectTreeStep ext acc file).2.2.fileList = acc.2.2.fileList := by
  unfold projectTreeStep
  cases hdoc : acc.2.2.document file with
  | none => exact ⟨rfl, rfl⟩
  | some doc =>
    have hf := getCachedOrParseDocumentTree_frame ext acc.2.2 (some doc)
    simp only []
    cases (getCachedOrParseDocumentTree ext acc.2.2 (some doc)).1 <;> exact ⟨hf.1, hf.2.1⟩

theorem foldl_projectTreeStep_frame (ext : Externals) (fileList : List String) :
    ∀ acc : ParserTreeItem × Nat × ParserPrivate,
      (fileList.foldl (projectTreeStep ext) acc).2.2.m_projectCache = acc.2.2.m_projectCache ∧
        (fileList.foldl (projectTreeStep ext) acc).2.2.fileList = acc.2.2.fileList := by
  induction fileList with
  | nil => intro acc; exact ⟨rfl, rfl⟩
  | cons file rest ih =>
    intro acc
    rw [List.foldl_cons]
    have h1 := ih (projectTreeStep ext acc file)
    have h2 := projectTreeStep_frame ext acc file
    exact ⟨h1.1.trans h2.1, h1.2.trans h2.2⟩

theorem foldl_projectTreeStep_fst (ext : Externals) (fileList : List String) :
    ∀ (item : ParserTreeItem) (revision : Nat) (d : ParserPrivate),
      (fileList.foldl (projectTreeStep ext) (item, revision, d)).1 =
        mergeDocumentTrees ext d item fileList := by
  induction fileList with
  | nil => intro item revision d; rfl
  | cons file rest ih =>
    intro item revision d
    rw [List.foldl_cons]
    simp only [projectTreeStep, mergeDocumentTrees]
    cases hdoc : d.document file with
    | none => exact ih item revision d
    | some doc =>
      simp only []
      cases hr : (getCachedOrParseDocumentTree ext d (some doc)).1 with
      | none => exact ih _ _ _
      | some tree => exact ih _ _ _

/-! ## Lemmas on the revision sum and the project cache -/

theorem foldl_revision_eq (d : ParserPrivate) (fileList : List String) :
    ∀ acc : Nat, acc < unsignedModulus →
      fileList.foldl
          (fun revision file =>
            match d.document file with
            | none => revision
            | some doc => (revision + doc.revision) % unsignedModulus)
          acc =
        (acc + ((fileList.filterMap d.document).map Document.revision).sum) % unsignedModulus := by
  induction fileList with
  | nil =>
    intro acc hacc
    simp [Nat.mod_eq_of_lt hacc]
  | cons file rest ih =>
    intro acc hacc
    rw [List.foldl_cons]
    cases hdoc : d.document file with
    | none =>
      simp only [List.filterMap_cons, hdoc]
      exact ih acc hacc
    | some doc =>
      simp only [List.filterMap_cons, hdoc, List.map_cons, List.sum_cons]
      rw [ih _ (Nat.mod_lt _ (by decide)), Nat.mod_add_mod, Nat.add_assoc]

theorem projectRevision_eq_revisionSum (d : ParserPrivate) (fileList : List String) :
    projectRevision d fileList = revisionSum d fileList := by
  unfold projectRevision revisionSum
  rw [foldl_revision_eq d fileList 0 (by decide), Nat.zero_add]

theorem getCachedOrParseProjectTree_hit (ext : Externals) (d : ParserPrivate)
    (fileList : List String) (projectId : String) (entry : ProjectCache) (t : ParserTreeItem)
    (he : d.m_projectCache projectId = some entry) (ht : entry.tree = some t)
    (hr : entry.treeRevision = projectRevision d fileList) :
    getCachedOrParseProjectTree ext d fileList projectId = (t, d) := by
  simp [getCachedOrParseProjectTree, he, ht, hr]

theorem getCachedOrParseProjectTree_miss (ext : Externals) (d : ParserPrivate)
    (fileList : List String) (projectId : String)
    (h : ¬ ∃ entry t, d.m_projectCache projectId = some entry ∧ entry.tree = some t ∧
      entry.treeRevision = projectRevision d fileList) :
    getCachedOrParseProjectTree ext d fileList projectId =
      getParseProjectTree ext d fileList projectId := by
  simp only [getCachedOrParseProjectTree]
  cases he : d.m_projectCache projectId with
  | none => rfl
  | some entry =>
    simp only []
    cases ht : entry.tree with
    | none => rfl
    | some t =>
      simp only []
      split_ifs with hc
      · exact absurd ⟨entry, t, he, ht, (beq_iff_eq.mp hc).symm⟩ h
      · rfl

/-! ## Lemmas on a document change followed by a project rebuild -/

theorem parseDocument_of_mem (ext : Externals) (d : ParserPrivate) (doc : Document)
    (h : doc.fileName ∈ d.fileList) :
    (parseDocument ext d (some doc)).m_documentCache =
        hashInsert d.m_documentCache doc.fileName
          (DocumentCache.mk doc.revision (some (builtDocumentTree ext doc)) (some doc)) ∧
      (parseDocument ext d (some doc)).m_projectCache = d.m_projectCache ∧
      (parseDocument ext d (some doc)).fileList = d.fileList ∧
      (parseDocument ext d (some doc)).timerActive = true ∧
      (parseDocument ext d (some doc)).rootItem = d.rootItem ∧
      (parseDocument ext d (some doc)).flatMode = d.flatMode := by
  simp only [parseDocument, h, not_true_eq_false, if_false,
    getParseDocumentTree_of_mem ext d doc h]
  cases d.timerActive <;> exact ⟨rfl, rfl, rfl, rfl, rfl, rfl⟩

theorem document_hashInsert (d : ParserPrivate) (key : String) (entry : DocumentCache)
    (file : String) :
    ({ d with m_documentCache := hashInsert d.m_documentCache key entry } : ParserPrivate).document
        file =
      if file = key then entry.document else d.document file := by
  unfold ParserPrivate.document hashInsert
  by_cases h : file = key <;> simp [h]

/-- In a state in which every file of the list that has a known document has a
valid entry, the loop of `getParseProjectTree` merges the cached trees and
leaves the state alone. -/
theorem foldl_projectTreeStep_of_valid (ext : Externals) (d : ParserPrivate)
    (fileList : List String)
    (hvalid : ∀ G ∈ fileList, ∀ e, d.m_documentCache G = some e → e.document.isSome = true →
      e.isValidFor G = true) :
    ∀ (item : ParserTreeItem) (revision : Nat),
      (fileList.foldl (projectTreeStep ext) (item, revision, d)).1 =
          fileList.foldl
            (fun item G =>
              match cachedDocumentTree d G with
              | some t => item.add t
              | none => item)
            item ∧
        (fileList.foldl (projectTreeStep ext) (item, revision, d)).2.2 = d := by
  induction fileList with
  | nil => intro item revision; exact ⟨rfl, rfl⟩
  | cons G rest ih =>
    intro item revision
    have ih2 := ih (fun G2 hG2 => hvalid G2 (List.mem_cons_of_mem _ hG2))
    rw [List.foldl_cons, List.foldl_cons]
    cases he : d.m_documentCache G with
    | none =>
      have hdoc : d.document G = none := by simp [ParserPrivate.document, he, DocumentCache.init]
      have hc : cachedDocumentTree d G = none := by simp [cachedDocumentTree, he]
      simp only [projectTreeStep, hdoc, hc]
      exact ih2 item revision
    | some e =>
      cases hd : e.document with
      | none =>
        have hdoc : d.document G = none := by simp [ParserPrivate.document, he, hd]
        have hc : cachedDocumentTree d G = none := by simp [cachedDocumentTree, he, hd]
        simp only [projectTreeStep, hdoc, hc]
        exact ih2 item revision
      | some doc =>
        have hdoc : d.document G = some doc := by simp [ParserPrivate.document, he, hd]
        have hv := hvalid G (List.mem_cons_self _ _) e he (by simp [hd])
        cases ht : e.tree with
        | none => simp [DocumentCache.isValidFor, hd, ht] at hv
        | some t =>
          simp only [DocumentCache.isValidFor, hd, ht, Bool.and_eq_true, beq_iff_eq] at hv
          have hc : cachedDocumentTree d G = some t := by simp [cachedDocumentTree, he, hd, ht]
          have hhit := getCachedOrParseDocumentTree_hit ext d doc e t (by rw [hv.1]; exact he) ht hv.2
          simp only [projectTreeStep, hdoc, hc, hhit]
          exact ih2 (item.add t) _

theorem revision_sum_after_change (d d1 : ParserPrivate) (F : String) (docOld docNew : Document)
    (hold : d.document F = some docOld)
    (hnew : ∀ G, d1.document G = if G = F then some docNew else d.document G)
    (fileList : List String) :
    ((fileList.filterMap d1.document).map Document.revision).sum +
        fileList.count F * docOld.revision =
      ((fileList.filterMap d.document).map Document.revision).sum +
        fileList.count F * docNew.revision := by
  induction fileList with
  | nil => simp
  | cons G rest ih =>
    by_cases hG : G = F
    · subst hG
      have h1 : d1.document G = some docNew := by rw [hnew]; simp
      simp only [List.filterMap_cons, h1, hold, List.map_cons, List.sum_cons, List.count_cons_self,
        Nat.succ_mul]
      omega
    · have h1 : d1.document G = d.document G := by rw [hnew]; simp [hG]
      have hc : List.count F (G :: rest) = List.count F rest := by
        rw [List.count_cons_of_ne]
        exact fun h => hG h.symm
      rw [hc]
      cases hdoc : d.document G with
      | none =>
        simp only [List.filterMap_cons, h1, hdoc]
        exact ih
      | some doc =>
        simp only [List.filterMap_cons, h1, hdoc, List.map_cons, List.sum_cons]
        omega

theorem revisionSum_ne_after_change (d d1 : ParserPrivate) (F : String)
    (docOld docNew : Document) (fileList : List String)
    (hold : d.document F = some docOld)
    (hnew : ∀ G, d1.document G = if G = F then some docNew else d.document G)
    (hlt : docOld.revision < docNew.revision)
    (hcount : (fileList.count F * (docNew.revision - docOld.revision)) % unsignedModulus ≠ 0) :
    revisionSum d1 fileList ≠ revisionSum d fileList := by
  have h := revision_sum_after_change d d1 F docOld docNew hold hnew fileList
  have hsplit : fileList.count F * docNew.revision =
      fileList.count F * docOld.revision +
        fileList.count F * (docNew.revision - docOld.revision) := by
    rw [← Nat.mul_add]
    congr 1
    omega
  rw [hsplit] at h
  unfold revisionSum
  unfold unsignedModulus at hcount ⊢
  generalize fileList.count F * (docNew.revision - docOld.revision) = x at h hcount
  generalize fileList.count F * docOld.revision = y at h
  omega

/-! ## Lemmas on the root -/

theorem ParserTreeItem.assign_of_not_mem (inf : SymbolInformation) (c : ParserTreeItem)
    (l : List (SymbolInformation × ParserTreeItem)) (h : inf ∉ l.map Prod.fst) :
    ParserTreeItem.assign inf c l = l ++ [(inf, c)] := by
  induction l with
  | nil => rfl
  | cons hd tl ih =>
    obtain ⟨k, v⟩ := hd
    simp only [List.map_cons, List.mem_cons, not_or] at h
    have hk : ¬ k = inf := fun hk => h.1 hk.symm
    simp [ParserTreeItem.assign, hk, ih h.2]

theorem parseStep_eq (ext : Externals) (acc : ParserTreeItem) (d : ParserPrivate)
    (prj : Project) :
    parseStep ext (acc, d) prj =
      (acc.appendChild (projectChild ext d prj) (projectInformation ext prj),
        afterProject ext d prj) := by
  simp only [parseStep, projectChild, afterProject, projectInformation, addFlatTree, addProject]
  split_ifs <;> rfl

theorem foldl_parseStep (ext : Externals) (projects : List Project) :
    ∀ (acc : ParserTreeItem) (d : ParserPrivate),
      ((acc.keys ++ projects.map (projectInformation ext)).Nodup) →
      (projects.foldl (parseStep ext) (acc, d)).1 =
        ParserTreeItem.mk acc.symbolLocations acc.icon
          (acc.symbolInformations ++ projectChildren ext d projects) := by
  induction projects with
  | nil =>
    intro acc d _
    simp [projectChildren, ParserTreeItem.eta]
  | cons prj rest ih =>
    intro acc d hnd
    rw [List.foldl_cons, parseStep_eq]
    have hnot : projectInformation ext prj ∉ acc.symbolInformations.map Prod.fst := by
      intro hmem
      rw [List.map_cons] at hnd
      exact (List.nodup_append.mp hnd).2.2 hmem (List.mem_cons_self _ _)
    have happ : acc.appendChild (projectChild ext d prj) (projectInformation ext prj) =
        ParserTreeItem.mk acc.symbolLocations acc.icon
          (acc.symbolInformations ++ [(projectInformation ext prj, projectChild ext d prj)]) := by
      simp [ParserTreeItem.appendChild, ParserTreeItem.assign_of_not_mem _ _ _ hnot]
    rw [happ, ih]
    · simp [ParserTreeItem.symbolLocations, ParserTreeItem.icon,
        ParserTreeItem.symbolInformations, projectChildren]
    · simpa [ParserTreeItem.keys, ParserTreeItem.symbolInformations, List.map_append] using hnd

theorem map_fst_projectChildren (ext : Externals) (projects : List Project) :
    ∀ d : ParserPrivate,
      (projectChildren ext d projects).map Prod.fst = projects.map (projectInformation ext) := by
  induction projects with
  | nil => intro d; rfl
  | cons prj rest ih => intro d; simp [projectChildren, ih]

/-! ## Lemmas on `removeFiles` -/

theorem ParserPrivate.eq_of_fields (a b : ParserPrivate) (h1 : a.timerActive = b.timerActive)
    (h2 : a.m_documentCache = b.m_documentCache) (h3 : a.m_projectCache = b.m_projectCache)
    (h4 : a.fileList = b.fileList) (h5 : a.rootItem = b.rootItem) (h6 : a.flatMode = b.flatMode) :
    a = b := by
  cases a; cases b
  simp only [ParserPrivate.mk.injEq]
  exact ⟨h1, h2, h3, h4, h5, h6⟩

theorem count_diff_list (a : String) (L : List String) :
    ∀ l : List String, (l.diff L).count a = l.count a - L.count a := by
  induction L with
  | nil => intro l; simp
  | cons b rest ih =>
    intro l
    rw [List.diff_cons, ih, List.count_erase, List.count_cons]
    by_cases hb : b = a
    · simp [hb]; omega
    · simp [hb]

theorem diff_eq_self_of_not_mem (L : List String) :
    ∀ l : List String, (∀ p ∈ L, p ∉ l) → l.diff L = l := by
  induction L with
  | nil => intro l _; simp
  | cons b rest ih =>
    intro l h
    rw [List.diff_cons, List.erase_of_not_mem (h b (List.mem_cons_self _ _))]
    exact ih l (fun p hp => h p (List.mem_cons_of_mem _ hp))

theorem removeFiles_eq_foldl (d : ParserPrivate) (L : List String) :
    removeFiles d L = L.foldl removeFile d := by
  unfold removeFiles
  cases L <;> rfl

/-- The state after `removeFiles`, field by field. -/
theorem foldl_removeFile (L : List String) :
    ∀ d : ParserPrivate,
      (L.foldl removeFile d).fileList = d.fileList \ L.toFinset ∧
        (∀ k, (L.foldl removeFile d).m_documentCache k =
          if k ∈ L then none else d.m_documentCache k) ∧
        (∀ k, (L.foldl removeFile d).m_projectCache k =
          if k ∈ L then none
          else (d.m_projectCache k).map
            (fun entry => { entry with fileList := entry.fileList.diff L })) ∧
        (L.foldl removeFile d).timerActive = d.timerActive ∧
        (L.foldl removeFile d).rootItem = d.rootItem ∧
        (L.foldl removeFile d).flatMode = d.flatMode := by
  induction L with
  | nil =>
    intro d
    refine ⟨by simp, fun k => by simp, fun k => ?_, rfl, rfl, rfl⟩
    cases h : d.m_projectCache k <;> simp [h]
  | cons name rest ih =>
    intro d
    obtain ⟨h1, h2, h3, h4, h5, h6⟩ := ih (removeFile d name)
    rw [List.foldl_cons]
    refine ⟨?_, fun k => ?_, fun k => ?_, h4, h5, h6⟩
    · rw [h1]
      ext x
      simp only [removeFile, Finset.mem_sdiff, Finset.mem_erase, List.toFinset_cons,
        Finset.mem_insert, List.mem_toFinset]
      tauto
    · rw [h2]
      simp only [removeFile, hashRemove, List.mem_cons]
      by_cases hk : k = name
      · simp [hk]
      · simp [hk]
    · rw [h3]
      simp only [removeFile, hashRemove, List.mem_cons]
      by_cases hk : k = name
      · simp [hk]
      · by_cases hr : k ∈ rest
        · simp [hk, hr]
        · simp only [hk, hr, if_false, or_self]
          cases d.m_projectCache k <;> simp [List.diff_cons]

theorem removeFile_fields (d : ParserPrivate) (f : String) :
    (removeFiles d [f]).fileList = d.fileList.erase f ∧
      (removeFiles d [f]).m_documentCache = hashRemove d.m_documentCache f ∧
      (∀ k, (removeFiles d [f]).m_projectCache k =
        (hashRemove d.m_projectCache f k).map
          (fun entry => { entry with fileList := entry.fileList.erase f })) :=
  ⟨rfl, rfl, fun _ => rfl⟩

theorem document_removeFile (d : ParserPrivate) (f G : String) :
    (removeFiles d [f]).document G = if G = f then none else d.document G := by
  unfold ParserPrivate.document
  rw [(removeFile_fields d f).2.1]
  unfold hashRemove
  by_cases h : G = f <;> simp [h, DocumentCache.init]

theorem revision_sum_split (d d2 : ParserPrivate) (f : String) (doc : Document)
    (hdoc : d.document f = some doc)
    (h2 : ∀ G, d2.document G = if G = f then none else d.document G) (l : List String) :
    ((l.filterMap d.document).map Document.revision).sum =
      ((l.filterMap d2.document).map Document.revision).sum + l.count f * doc.revision := by
  induction l with
  | nil => simp
  | cons G rest ih =>
    by_cases hG : G = f
    · subst hG
      have h1 : d2.document G = none := by rw [h2]; simp
      simp only [List.filterMap_cons, h1, hdoc, List.map_cons, List.sum_cons,
        List.count_cons_self, Nat.succ_mul]
      omega
    · have h1 : d2.document G = d.document G := by rw [h2]; simp [hG]
      have hc : List.count f (G :: rest) = List.count f rest := by
        rw [List.count_cons_of_ne]
        exact fun h => hG h.symm
      rw [hc]
      cases hd : d.document G with
      | none =>
        simp only [List.filterMap_cons, h1, hd]
        exact ih
      | some docG =>
        simp only [List.filterMap_cons, h1, hd, List.map_cons, List.sum_cons]
        omega

theorem revision_sum_erase (d2 : ParserPrivate) (f : String) (h2 : d2.document f = none)
    (l : List String) :
    ((l.erase f).filterMap d2.document).map Document.revision =
      (l.filterMap d2.document).map Document.revision := by
  induction l with
  | nil => rfl
  | cons G rest ih =>
    by_cases hG : G = f
    · subst hG
      simp [h2]
    · have hne : (G == f) = false := by simpa using hG
      rw [List.erase_cons, hne]
      simp only [Bool.false_eq_true, if_false, List.filterMap_cons]
      cases d2.document G with
      | none => exact ih
      | some docG => simp only [List.map_cons, ih]

/-! ## Lemmas on the publish timer -/

theorem parseDocumentStartsTimer_of_mem (ext : Externals) (d : ParserPrivate) (doc : Document)
    (h : doc.fileName ∈ d.fileList) :
    parseDocumentStartsTimer ext d (some doc) = !d.timerActive := by
  simp only [parseDocumentStartsTimer, h, not_true_eq_false, if_false]
  rw [(getParseDocumentTree_frame ext d (some doc)).2.2.1]

theorem timerStartCount_of_active (ext : Externals) (docs : List (Option Document)) :
    ∀ d : ParserPrivate, d.timerActive = true →
      (∀ doc ∈ docs, ∃ D : Document, doc = some D ∧ D.fileName ∈ d.fileList) →
      timerStartCount ext d docs = 0 ∧ (parseDocuments ext d docs).timerActive = true := by
  induction docs with
  | nil => intro d hd _; exact ⟨rfl, hd⟩
  | cons doc rest ih =>
    intro d hd hall
    obtain ⟨D, hD, hmem⟩ := hall doc (List.mem_cons_self _ _)
    subst hD
    obtain ⟨-, -, hfl, hta, -, -⟩ := parseDocument_of_mem ext d D hmem
    have hrest := ih (parseDocument ext d (some D)) hta (fun doc2 h2 => by
      rw [hfl]
      exact hall doc2 (List.mem_cons_of_mem _ h2))
    refine ⟨?_, hrest.2⟩
    simp only [timerStartCount, parseDocumentStartsTimer_of_mem ext d D hmem, hd, hrest.1]
    rfl

/-- The timer is active after `parseDocument` exactly when it was active before
or the call has started it. -/
theorem parseDocument_timerActive (ext : Externals) (d : ParserPrivate) (doc : Option Document) :
    (parseDocument ext d doc).timerActive =
      (d.timerActive || parseDocumentStartsTimer ext d doc) := by
  cases doc with
  | none => simp [parseDocument, parseDocumentStartsTimer]
  | some D =>
    by_cases h : D.fileName ∈ d.fileList
    · rw [(parseDocument_of_mem ext d D h).2.2.2.1, parseDocumentStartsTimer_of_mem ext d D h]
      cases d.timerActive <;> rfl
    · simp [parseDocument, parseDocumentStartsTimer, h]

/-! ## Lemmas on the read-side navigation -/

theorem resolve_none (keys : List SymbolInformation) : resolve none keys = none := by
  cases keys <;> rfl

theorem descend_some (items : List QStandardItem) :
    ∀ internal : ParserTreeItem,
      descend (some internal) items =
        Outcome.returns
          (resolve (some internal) (items.map QStandardItem.symbolInformationFromItem)) := by
  induction items with
  | nil => intro internal; rfl
  | cons cur rest ih =>
    intro internal
    simp only [descend, List.map_cons, resolve]
    cases h : internal.child cur.symbolInformationFromItem with
    | none => simp [resolve_none]
    | some next => exact ih next

theorem uiList_ne_nil (item : QStandardItem) : item.uiList ≠ [] := by
  cases item <;> simp [QStandardItem.uiList]

theorem findItemByRoot_of_root (d : ParserPrivate) (item : QStandardItem) (skipRoot : Bool)
    (root : ParserTreeItem) (hroot : d.rootItem = some root) :
    findItemByRoot d (some item) skipRoot =
      Outcome.returns (resolve (some root) (pathKeys item skipRoot)) := by
  have hlen : item.uiList.length > 0 := List.length_pos.mpr (uiList_ne_nil item)
  cases skipRoot with
  | false =>
    simp only [findItemByRoot, hroot, Bool.false_and, Bool.false_eq_true, if_false, pathKeys,
      descend_some]
  | true =>
    simp only [findItemByRoot, hroot, Bool.true_and, hlen, decide_True, if_true, pathKeys,
      descend_some, ← List.tail_reverse, List.map_tail, List.drop_one]

/-! ## Lemmas on the monotony of `addSymbol` -/

namespace ParserTreeItem

theorem lookup_assign_of_ne (inf k : SymbolInformation) (c : ParserTreeItem)
    (l : List (SymbolInformation × ParserTreeItem)) (h : k ≠ inf) :
    lookup k (assign inf c l) = lookup k l := by
  induction l with
  | nil => simp [assign, lookup, Ne.symm h]
  | cons hd tl ih =>
    obtain ⟨k2, v⟩ := hd
    by_cases h2 : k2 = inf
    · subst h2
      simp [assign, lookup, Ne.symm h]
    · by_cases h3 : k2 = k
      · subst h3
        simp [assign, lookup, h2]
      · simp [assign, lookup, h2, h3, ih]

theorem length_assign (inf : SymbolInformation) (c : ParserTreeItem)
    (l : List (SymbolInformation × ParserTreeItem)) :
    l.length ≤ (assign inf c l).length ∧ (assign inf c l).length ≤ l.length + 1 := by
  induction l with
  | nil => simp [assign]
  | cons hd tl ih =>
    obtain ⟨k, v⟩ := hd
    by_cases hk : k = inf
    · simp [assign, hk]
    · simp only [assign, hk, if_false, List.length_cons]
      omega

end ParserTreeItem

/-! ## Lemmas on the stored file lists -/

/-- The file list stored for a key of the ProjectCache. -/
theorem getParseProjectTree_fileList (ext : Externals) (d : ParserPrivate)
    (fileList : List String) (projectId : String) (k : String) :
    ((getParseProjectTree ext d fileList projectId).2.m_projectCache k).map ProjectCache.fileList =
        (d.m_projectCache k).map ProjectCache.fileList ∨
      (d.m_projectCache k = none ∧ k = projectId ∧
        ((getParseProjectTree ext d fileList projectId).2.m_projectCache k).map
          ProjectCache.fileList = some []) := by
  have hframe := (foldl_projectTreeStep_frame ext fileList (ParserTreeItem.empty, 0, d)).1
  unfold getParseProjectTree
  simp only []
  split_ifs with hid
  · by_cases hk : k = projectId
    · subst hk
      simp only [hashInsert, if_true, hframe]
      cases h : d.m_projectCache k with
      | none => exact Or.inr ⟨rfl, trivial, rfl⟩
      | some e => left; rfl
    · left
      simp only [hashInsert, hk, if_false, hframe]
  · left
    rw [hframe]

theorem getCachedOrParseProjectTree_fileList (ext : Externals) (d : ParserPrivate)
    (fileList : List String) (projectId : String) (k : String)
    (hk : (d.m_projectCache k).isSome = true) :
    ((getCachedOrParseProjectTree ext d fileList projectId).2.m_projectCache k).map
        ProjectCache.fileList = (d.m_projectCache k).map ProjectCache.fileList := by
  have hbuild : ((getParseProjectTree ext d fileList projectId).2.m_projectCache k).map
      ProjectCache.fileList = (d.m_projectCache k).map ProjectCache.fileList := by
    rcases getParseProjectTree_fileList ext d fileList projectId k with h | ⟨h, -, -⟩
    · exact h
    · rw [h] at hk
      simp at hk
  unfold getCachedOrParseProjectTree
  cases he : d.m_projectCache projectId with
  | none => exact hbuild
  | some entry =>
    simp only []
    cases ht : entry.tree with
    | none => exact hbuild
    | some t =>
      simp only []
      split_ifs
      · rfl
      · exact hbuild

/-- The step of `parse` for a project keeps every stored file list and leaves
an entry for the project; a new entry holds the source files of the project. -/
theorem parseStep_fileList (ext : Externals) (acc : ParserTreeItem × ParserPrivate)
    (prj : Project) :
    (∀ k : String, (acc.2.m_projectCache k).isSome = true →
      ((parseStep ext acc prj).2.m_projectCache k).map ProjectCache.fileList =
        (acc.2.m_projectCache k).map ProjectCache.fileList) ∧
      (acc.2.m_projectCache prj.projectFilePath = none →
        ((parseStep ext acc prj).2.m_projectCache prj.projectFilePath).map ProjectCache.fileList =
          some prj.sourceFiles) := by
  obtain ⟨root, d⟩ := acc
  simp only [parseStep, addFlatTree, addProject, getAllFiles]
  cases he : d.m_projectCache prj.projectFilePath with
  | some entry =>
    simp only []
    refine ⟨fun k hk => ?_, fun h => by simp at h⟩
    split_ifs
    · exact getCachedOrParseProjectTree_fileList ext d _ _ k hk
    · rfl
  | none =>
    simp only []
    have hins : ∀ k : String, (d.m_projectCache k).isSome = true →
        (hashInsert d.m_projectCache prj.projectFilePath
          (ProjectCache.mk ProjectCache.init.treeRevision ProjectCache.init.tree prj.sourceFiles)
          k) = d.m_projectCache k := by
      intro k hk
      unfold hashInsert
      by_cases hkp : k = prj.projectFilePath
      · rw [hkp, he] at hk
        simp at hk
      · simp [hkp]
    have hnew : (hashInsert d.m_projectCache prj.projectFilePath
        (ProjectCache.mk ProjectCache.init.treeRevision ProjectCache.init.tree prj.sourceFiles)
        prj.projectFilePath) =
        some (ProjectCache.mk ProjectCache.init.treeRevision ProjectCache.init.tree
          prj.sourceFiles) := by
      simp [hashInsert]
    refine ⟨fun k hk => ?_, fun _ => ?_⟩
    · split_ifs
      · rw [getCachedOrParseProjectTree_fileList ext _ _ _ k (by simp only [hins k hk, hk])]
        simp only [hins k hk]
      · simp only [hins k hk]
    · split_ifs
      · rw [getCachedOrParseProjectTree_fileList ext _ _ _ _ (by simp only [hnew]; rfl)]
        simp only [hnew]
        rfl
      · simp only [hnew]
        rfl

theorem parseStep_isSome (ext : Externals) (acc : ParserTreeItem × ParserPrivate)
    (prj : Project) (k : String) (hk : (acc.2.m_projectCache k).isSome = true) :
    ((parseStep ext acc prj).2.m_projectCache k).isSome = true := by
  have h := (parseStep_fileList ext acc prj).1 k hk
  cases h2 : (parseStep ext acc prj).2.m_projectCache k with
  | some e => rfl
  | none =>
    rw [h2] at h
    cases h3 : acc.2.m_projectCache k with
    | none => rw [h3] at hk; simp at hk
    | some e => rw [h3] at h; simp at h

theorem parseStep_entry (ext : Externals) (acc : ParserTreeItem × ParserPrivate)
    (prj : Project) :
    ((parseStep ext acc prj).2.m_projectCache prj.projectFilePath).isSome = true := by
  cases h : acc.2.m_projectCache prj.projectFilePath with
  | some e => exact parseStep_isSome ext acc prj _ (by rw [h]; rfl)
  | none =>
    have h2 := (parseStep_fileList ext acc prj).2 h
    cases h3 : (parseStep ext acc prj).2.m_projectCache prj.projectFilePath with
    | some e => rfl
    | none => rw [h3] at h2; simp at h2

theorem foldl_parseStep_fileList (ext : Externals) (projects : List Project) :
    ∀ acc : ParserTreeItem × ParserPrivate,
      (∀ k : String, (acc.2.m_projectCache k).isSome = true →
        ((projects.foldl (parseStep ext) acc).2.m_projectCache k).map ProjectCache.fileList =
          (acc.2.m_projectCache k).map ProjectCache.fileList) ∧
        (∀ prj ∈ projects,
          ((projects.foldl (parseStep ext) acc).2.m_projectCache prj.projectFilePath).isSome =
            true) := by
  induction projects with
  | nil =>
    intro acc
    exact ⟨fun _ _ => rfl, fun _ h => by simp at h⟩
  | cons p rest ih =>
    intro acc
    rw [List.foldl_cons]
    obtain ⟨ih1, ih2⟩ := ih (parseStep ext acc p)
    refine ⟨fun k hk => ?_, fun prj hprj => ?_⟩
    · rw [ih1 k (parseStep_isSome ext acc p k hk), (parseStep_fileList ext acc p).1 k hk]
    · rcases List.mem_cons.mp hprj with h | h
      · subst h
        have h1 := ih1 prj.projectFilePath (parseStep_entry ext acc prj)
        have h2 := parseStep_entry ext acc prj
        cases h3 : (List.foldl (parseStep ext) (parseStep ext acc prj) rest).2.m_projectCache
            prj.projectFilePath with
        | some e => rfl
        | none =>
          rw [h3] at h1
          cases h4 : (parseStep ext acc prj).2.m_projectCache prj.projectFilePath with
          | none => rw [h4] at h2; simp at h2
          | some e => rw [h4] at h1; simp at h1
      · exact ih2 prj h

theorem parseStep_congr (ext : Externals) (acc : ParserTreeItem × ParserPrivate)
    (prj prj2 : Project) (hsame : sameProject prj prj2)
    (hentry : (acc.2.m_projectCache prj.projectFilePath).isSome = true) :
    parseStep ext acc prj2 = parseStep ext acc prj := by
  obtain ⟨hn, hp, hi⟩ := hsame
  cases he : acc.2.m_projectCache prj.projectFilePath with
  | none => rw [he] at hentry; simp at hentry
  | some entry =>
    simp only [parseStep, addFlatTree, getAllFiles, ← hn, ← hp, ← hi, he]

theorem foldl_parseStep_congr (ext : Externals) (projects projects2 : List Project)
    (hsame : List.Forall₂ sameProject projects projects2) :
    ∀ acc : ParserTreeItem × ParserPrivate,
      (∀ prj ∈ projects, (acc.2.m_projectCache prj.projectFilePath).isSome = true) →
      projects2.foldl (parseStep ext) acc = projects.foldl (parseStep ext) acc := by
  induction hsame with
  | nil => intro acc _; rfl
  | cons h _ ih =>
    intro acc hall
    rw [List.foldl_cons, List.foldl_cons,
      parseStep_congr ext acc _ _ h (hall _ (List.mem_cons_self _ _))]
    exact ih _ (fun prj hprj =>
      parseStep_isSome ext acc _ _ (hall prj (List.mem_cons_of_mem _ hprj)))

/-! ## Lemmas: properties of the document part of the state carried through `parse` -/

/-- A property of the state that the document functions keep on the way
through the loop of `getParseProjectTree`. -/
theorem foldl_projectTreeStep_induction (ext : Externals) (P : ParserPrivate → Prop)
    (hstep : ∀ (d : ParserPrivate) (file : String) (doc : Document), P d →
      d.document file = some doc → P (getCachedOrParseDocumentTree ext d (some doc)).2)
    (fileList : List String) :
    ∀ acc : ParserTreeItem × Nat × ParserPrivate, P acc.2.2 →
      P (fileList.foldl (projectTreeStep ext) acc).2.2 := by
  induction fileList with
  | nil => intro acc h; exact h
  | cons file rest ih =>
    intro acc h
    rw [List.foldl_cons]
    apply ih
    unfold projectTreeStep
    cases hdoc : acc.2.2.document file with
    | none => exact h
    | some doc =>
      simp only []
      have := hstep acc.2.2 file doc h hdoc
      cases (getCachedOrParseDocumentTree ext acc.2.2 (some doc)).1 <;> exact this

/-- The same for `parse`, for a property that depends on the DocumentCache and
the tracked set only. -/
theorem parse_induction (ext : Externals) (P : ParserPrivate → Prop)
    (hP : ∀ d d2 : ParserPrivate, d.m_documentCache = d2.m_documentCache →
      d.fileList = d2.fileList → P d → P d2)
    (hstep : ∀ (d : ParserPrivate) (file : String) (doc : Document), P d →
      d.document file = some doc → P (getCachedOrParseDocumentTree ext d (some doc)).2)
    (projects : List Project) :
    ∀ acc : ParserTreeItem × ParserPrivate, P acc.2 →
      P (projects.foldl (parseStep ext) acc).2 := by
  have hbuild : ∀ (d : ParserPrivate) (fileList : List String) (projectId : String), P d →
      P (getParseProjectTree ext d fileList projectId).2 := by
    intro d fileList projectId h
    have hf := foldl_projectTreeStep_induction ext P hstep fileList (ParserTreeItem.empty, 0, d) h
    unfold getParseProjectTree
    simp only []
    split_ifs
    · exact hP (fileList.foldl (projectTreeStep ext) (ParserTreeItem.empty, 0, d)).2.2 _ rfl rfl hf
    · exact hf
  have hcached : ∀ (d : ParserPrivate) (fileList : List String) (projectId : String), P d →
      P (getCachedOrParseProjectTree ext d fileList projectId).2 := by
    intro d fileList projectId h
    unfold getCachedOrParseProjectTree
    cases d.m_projectCache projectId with
    | none => exact hbuild d fileList projectId h
    | some entry =>
      simp only []
      cases entry.tree with
      | none => exact hbuild d fileList projectId h
      | some t =>
        simp only []
        split_ifs
        · exact h
        · exact hbuild d fileList projectId h
  have hone : ∀ (acc : ParserTreeItem × ParserPrivate) (prj : Project), P acc.2 →
      P (parseStep ext acc prj).2 := by
    intro acc prj h
    simp only [parseStep, addFlatTree, addProject, getAllFiles]
    cases acc.2.m_projectCache prj.projectFilePath with
    | some entry =>
      simp only []
      split_ifs
      · exact hcached _ _ _ h
      · exact h
    | none =>
      simp only []
      split_ifs
      · exact hcached _ _ _ (hP acc.2 _ rfl rfl h)
      · exact hP acc.2 _ rfl rfl h
  induction projects with
  | nil => intro acc h; exact h
  | cons prj rest ih =>
    intro acc h
    rw [List.foldl_cons]
    exact ih _ (hone acc prj h)

/-! ## Lemmas on the validity of cached document trees -/

theorem TreesValid.of_eq {d d2 : ParserPrivate} (h : d.m_documentCache = d2.m_documentCache)
    (hv : TreesValid d) : TreesValid d2 := by
  intro k entry he ht
  exact hv k entry (by rw [h]; exact he) ht

theorem getParseDocumentTree_treesValid (ext : Externals) (d : ParserPrivate)
    (doc : Option Document) (hv : TreesValid d) :
    TreesValid (getParseDocumentTree ext d doc).2 := by
  cases doc with
  | none => exact hv
  | some doc =>
    by_cases h : doc.fileName ∈ d.fileList
    · rw [getParseDocumentTree_of_mem ext d doc h]
      intro k entry he ht
      simp only [hashInsert] at he
      by_cases hk : k = doc.fileName
      · simp only [hk, if_true, Option.some.injEq] at he
        subst he
        exact ⟨doc, rfl, rfl, hk.symm⟩
      · simp only [hk, if_false] at he
        exact hv k entry he ht
    · rw [getParseDocumentTree_of_not_mem ext d doc h]
      exact hv

theorem getCachedOrParseDocumentTree_treesValid (ext : Externals) (d : ParserPrivate)
    (doc : Option Document) (hv : TreesValid d) :
    TreesValid (getCachedOrParseDocumentTree ext d doc).2 := by
  cases doc with
  | none => exact hv
  | some doc =>
    rcases getCachedOrParseDocumentTree_cases ext d doc with
      ⟨entry, t, _, _, _, h⟩ | ⟨_, h⟩ | ⟨_, h⟩
    · rw [h]; exact hv
    · rw [h]; exact hv
    · rw [h]; exact getParseDocumentTree_treesValid ext d (some doc) hv

theorem parse_treesValid (ext : Externals) (d : ParserPrivate) (projects : List Project)
    (hv : TreesValid d) : TreesValid (parse ext d projects).2 :=
  parse_induction ext TreesValid (fun _ _ h _ hv => TreesValid.of_eq h hv)
    (fun d _ doc hv _ => getCachedOrParseDocumentTree_treesValid ext d (some doc) hv)
    projects (ParserTreeItem.empty, d) hv

theorem removeFiles_treesValid (d : ParserPrivate) (L : List String) (hv : TreesValid d) :
    TreesValid (removeFiles d L) := by
  rw [removeFiles_eq_foldl]
  intro k entry he ht
  rw [(foldl_removeFile L d).2.1 k] at he
  by_cases hk : k ∈ L
  · simp [hk] at he
  · simp only [hk, if_false] at he
    exact hv k entry he ht

/-- The DocumentCache that `resetData` fills from the snapshot holds no tree. -/
theorem snapshot_cache_no_tree (snapshot : List (String × Option Document)) :
    ∀ m : String → Option DocumentCache,
      (∀ k e, m k = some e → e.tree = none) →
      ∀ k e,
        snapshot.foldl
            (fun m kv =>
              hashInsert m kv.1 { (m kv.1).getD DocumentCache.init with document := kv.2 })
            m k = some e →
        e.tree = none := by
  induction snapshot with
  | nil => intro m hm k e he; exact hm k e he
  | cons kv rest ih =>
    intro m hm
    rw [List.foldl_cons]
    apply ih
    intro k e he
    simp only [hashInsert] at he
    by_cases hk : k = kv.1
    · simp only [hk, if_true, Option.some.injEq] at he
      subst he
      cases hmk : m kv.1 with
      | none => rfl
      | some e0 => exact hm kv.1 e0 hmk
    · simp only [hk, if_false] at he
      exact hm k e he

theorem resetData_treesValid (ext : Externals) (d : ParserPrivate)
    (snapshot : List (String × Option Document)) (projects : List Project) :
    TreesValid (resetData ext d snapshot projects) := by
  simp only [resetData, requestCurrentState]
  apply TreesValid.of_eq (d := (parse ext _ projects).2) rfl
  apply parse_treesValid
  intro k entry he ht
  have := snapshot_cache_no_tree snapshot (fun _ => none) (fun _ _ h => by simp at h) k entry he
  rw [this] at ht
  simp at ht

/-! ## Lemmas: `parse` does not read timer flag, published root and flat-mode flag -/

theorem getParseDocumentTree_withUi (ext : Externals) (d : ParserPrivate) (doc : Option Document)
    (t : Bool) (r : Option ParserTreeItem) (f : Bool) :
    getParseDocumentTree ext (d.withUi t r f) doc =
      ((getParseDocumentTree ext d doc).1, (getParseDocumentTree ext d doc).2.withUi t r f) := by
  cases doc with
  | none => rfl
  | some doc =>
    by_cases h : doc.fileName ∈ d.fileList
    · rw [getParseDocumentTree_of_mem ext d doc h,
        getParseDocumentTree_of_mem ext (d.withUi t r f) doc h]
      rfl
    · rw [getParseDocumentTree_of_not_mem ext d doc h,
        getParseDocumentTree_of_not_mem ext (d.withUi t r f) doc h]

theorem getCachedOrParseDocumentTree_withUi (ext : Externals) (d : ParserPrivate)
    (doc : Option Document) (t : Bool) (r : Option ParserTreeItem) (f : Bool) :
    getCachedOrParseDocumentTree ext (d.withUi t r f) doc =
      ((getCachedOrParseDocumentTree ext d doc).1,
        (getCachedOrParseDocumentTree ext d doc).2.withUi t r f) := by
  cases doc with
  | none => rfl
  | some doc =>
    simp only [getCachedOrParseDocumentTree]
    have hc : (d.withUi t r f).m_documentCache doc.fileName = d.m_documentCache doc.fileName := rfl
    rw [hc]
    cases d.m_documentCache doc.fileName with
    | none => exact getParseDocumentTree_withUi ext d (some doc) t r f
    | some entry =>
      simp only []
      split_ifs
      · rfl
      · exact getParseDocumentTree_withUi ext d (some doc) t r f

theorem foldl_projectTreeStep_withUi (ext : Externals) (fileList : List String)
    (t : Bool) (r : Option ParserTreeItem) (f : Bool) :
    ∀ (item : ParserTreeItem) (revision : Nat) (d : ParserPrivate),
      fileList.foldl (projectTreeStep ext) (item, revision, d.withUi t r f) =
        ((fileList.foldl (projectTreeStep ext) (item, revision, d)).1,
          (fileList.foldl (projectTreeStep ext) (item, revision, d)).2.1,
          (fileList.foldl (projectTreeStep ext) (item, revision, d)).2.2.withUi t r f) := by
  induction fileList with
  | nil => intro item revision d; rfl
  | cons file rest ih =>
    intro item revision d
    rw [List.foldl_cons, List.foldl_cons]
    have hstep : projectTreeStep ext (item, revision, d.withUi t r f) file =
        ((projectTreeStep ext (item, revision, d) file).1,
          (projectTreeStep ext (item, revision, d) file).2.1,
          (projectTreeStep ext (item, revision, d) file).2.2.withUi t r f) := by
      simp only [projectTreeStep]
      have hd : (d.withUi t r f).document file = d.document file := rfl
      rw [hd]
      cases d.document file with
      | none => rfl
      | some doc =>
        simp only [getCachedOrParseDocumentTree_withUi]
        cases (getCachedOrParseDocumentTree ext d (some doc)).1 <;> rfl
    rw [hstep]
    exact ih _ _ _

theorem getParseProjectTree_withUi (ext : Externals) (d : ParserPrivate)
    (fileList : List String) (projectId : String) (t : Bool) (r : Option ParserTreeItem)
    (f : Bool) :
    getParseProjectTree ext (d.withUi t r f) fileList projectId =
      ((getParseProjectTree ext d fileList projectId).1,
        (getParseProjectTree ext d fileList projectId).2.withUi t r f) := by
  simp only [getParseProjectTree, foldl_projectTreeStep_withUi]
  split_ifs <;> rfl

theorem getCachedOrParseProjectTree_withUi (ext : Externals) (d : ParserPrivate)
    (fileList : List String) (projectId : String) (t : Bool) (r : Option ParserTreeItem)
    (f : Bool) :
    getCachedOrParseProjectTree ext (d.withUi t r f) fileList projectId =
      ((getCachedOrParseProjectTree ext d fileList projectId).1,
        (getCachedOrParseProjectTree ext d fileList projectId).2.withUi t r f) := by
  simp only [getCachedOrParseProjectTree]
  have hc : (d.withUi t r f).m_projectCache projectId = d.m_projectCache projectId := rfl
  have hr : projectRevision (d.withUi t r f) fileList = projectRevision d fileList := rfl
  rw [hc, hr]
  cases d.m_projectCache projectId with
  | none => exact getParseProjectTree_withUi ext d fileList projectId t r f
  | some entry =>
    simp only []
    cases entry.tree with
    | none => exact getParseProjectTree_withUi ext d fileList projectId t r f
    | some tree =>
      simp only []
      split_ifs
      · rfl
      · exact getParseProjectTree_withUi ext d fileList projectId t r f

theorem parseStep_withUi (ext : Externals) (root : ParserTreeItem) (d : ParserPrivate)
    (prj : Project) (t : Bool) (r : Option ParserTreeItem) (f : Bool) :
    parseStep ext (root, d.withUi t r f) prj =
      ((parseStep ext (root, d) prj).1, (parseStep ext (root, d) prj).2.withUi t r f) := by
  simp only [parseStep, addFlatTree, addProject, getAllFiles]
  have hc : (d.withUi t r f).m_projectCache prj.projectFilePath =
      d.m_projectCache prj.projectFilePath := rfl
  rw [hc]
  cases d.m_projectCache prj.projectFilePath with
  | some entry =>
    simp only []
    split_ifs
    · rw [getCachedOrParseProjectTree_withUi]
    · rfl
  | none =>
    simp only []
    split_ifs
    · exact congrArg
        (fun x : ParserTreeItem × ParserPrivate =>
          ((root.appendChild ((ParserTreeItem.empty.copy (some x.1)).setIcon prj.icon)
            { name := prj.displayName, type := prj.projectFilePath,
              iconType := ext.defaultIconType }), x.2))
        (getCachedOrParseProjectTree_withUi ext
          { d with m_projectCache := (hashInsert d.m_projectCache prj.projectFilePath
            { ProjectCache.init with fileList := prj.sourceFiles }) } prj.sourceFiles
          prj.projectFilePath t r f)
    · rfl

theorem parse_withUi (ext : Externals) (projects : List Project) (t : Bool)
    (r : Option ParserTreeItem) (f : Bool) :
    ∀ (root : ParserTreeItem) (d : ParserPrivate),
      projects.foldl (parseStep ext) (root, d.withUi t r f) =
        ((projects.foldl (parseStep ext) (root, d)).1,
          (projects.foldl (parseStep ext) (root, d)).2.withUi t r f) := by
  induction projects with
  | nil => intro root d; rfl
  | cons prj rest ih =>
    intro root d
    rw [List.foldl_cons, List.foldl_cons, parseStep_withUi]
    exact ih _ _

/-! ## Lemmas on `resetData` -/

theorem requestCurrentState_withUi (ext : Externals) (X : ParserPrivate) (t : Bool)
    (r : Option ParserTreeItem) (f : Bool) (projects : List Project) :
    requestCurrentState ext (X.withUi t r f) projects =
      (parse ext X projects).2.withUi false (some (parse ext X projects).1) f := by
  have hstate : ({ X.withUi t r f with timerActive := false } : ParserPrivate) =
      X.withUi false r f := rfl
  simp only [requestCurrentState, hstate, parse, parse_withUi]
  rfl

theorem resetData_eq (ext : Externals) (d : ParserPrivate)
    (snapshot : List (String × Option Document)) (projects : List Project) :
    resetData ext d snapshot projects =
      (parse ext (resetBase snapshot projects) projects).2.withUi false
        (some (parse ext (resetBase snapshot projects) projects).1) d.flatMode := by
  have h1 : resetData ext d snapshot projects =
      requestCurrentState ext
        ((resetBase snapshot projects).withUi d.timerActive d.rootItem d.flatMode) projects := rfl
  rw [h1, requestCurrentState_withUi]

theorem foldl_append_sourceFiles (projects : List Project) :
    ∀ (init : List String) (file : String),
      file ∈ projects.foldl (fun fileList prj => fileList ++ prj.sourceFiles) init ↔
        file ∈ init ∨ ∃ prj ∈ projects, file ∈ prj.sourceFiles := by
  induction projects with
  | nil => intro init file; simp
  | cons p rest ih =>
    intro init file
    rw [List.foldl_cons, ih]
    simp only [List.mem_append, List.mem_cons, exists_eq_or_imp]
    tauto

theorem parse_fileList (ext : Externals) (d : ParserPrivate) (projects : List Project) :
    (parse ext d projects).2.fileList = d.fileList :=
  parse_induction ext (fun d2 => d2.fileList = d.fileList)
    (fun d1 d2 _ hf h => by
      show d2.fileList = d.fileList
      rw [← hf]; exact h)
    (fun d2 _ doc h _ => by
      show (getCachedOrParseDocumentTree ext d2 (some doc)).2.fileList = d.fileList
      rw [(getCachedOrParseDocumentTree_frame ext d2 (some doc)).2.1]; exact h)
    projects (ParserTreeItem.empty, d) rfl

theorem getCachedOrParseDocumentTree_document (ext : Externals) (d : ParserPrivate)
    (doc : Document) (hdoc : d.document doc.fileName = some doc) (file : String) :
    (getCachedOrParseDocumentTree ext d (some doc)).2.document file = d.document file := by
  rcases getCachedOrParseDocumentTree_cases ext d doc with
    ⟨entry, t, _, _, _, h⟩ | ⟨_, h⟩ | ⟨hm, h⟩
  · rw [h]
  · rw [h]
  · rw [h, getParseDocumentTree_of_mem ext d doc hm]
    simp only []
    rw [document_hashInsert]
    by_cases hf : file = doc.fileName
    · simp [hf, hdoc]
    · simp [hf]

theorem document_congr {d d2 : ParserPrivate} (h : d.m_documentCache = d2.m_documentCache)
    (file : String) : d.document file = d2.document file := by
  unfold ParserPrivate.document
  rw [h]

/-- With every known document stored under its own path, the loop of
`getParseProjectTree` leaves the known documents as they are. -/
theorem foldl_projectTreeStep_document (ext : Externals) (d : ParserPrivate)
    (hk : KeyConsistent d) (fileList : List String) :
    ∀ acc : ParserTreeItem × Nat × ParserPrivate,
      (∀ file, acc.2.2.document file = d.document file) →
      ∀ file, (fileList.foldl (projectTreeStep ext) acc).2.2.document file = d.document file :=
  foldl_projectTreeStep_induction ext (fun d2 => ∀ file, d2.document file = d.document file)
    (fun d2 file doc h hdoc file2 => by
      have hname : doc.fileName = file := hk file doc (by rw [← h file]; exact hdoc)
      rw [getCachedOrParseDocumentTree_document ext d2 doc (by rw [hname]; exact hdoc)]
      exact h file2)
    fileList

theorem parse_document (ext : Externals) (d : ParserPrivate) (hk : KeyConsistent d)
    (projects : List Project) (file : String) :
    (parse ext d projects).2.document file = d.document file :=
  parse_induction ext (fun d2 => ∀ file, d2.document file = d.document file)
    (fun d1 d2 hc _ h file2 => by rw [← document_congr hc file2]; exact h file2)
    (fun d2 file doc h hdoc file2 => by
      have hname : doc.fileName = file := hk file doc (by rw [← h file]; exact hdoc)
      rw [getCachedOrParseDocumentTree_document ext d2 doc (by rw [hname]; exact hdoc)]
      exact h file2)
    projects (ParserTreeItem.empty, d) (fun _ => rfl) file

theorem snapshot_fold_untouched (snapshot : List (String × Option Document)) :
    ∀ (m : String → Option DocumentCache) (k : String), k ∉ snapshot.map Prod.fst →
      snapshot.foldl
          (fun m kv =>
            hashInsert m kv.1 { (m kv.1).getD DocumentCache.init with document := kv.2 })
          m k = m k := by
  induction snapshot with
  | nil => intro m k _; rfl
  | cons kv rest ih =>
    intro m k hk
    simp only [List.map_cons, List.mem_cons, not_or] at hk
    rw [List.foldl_cons, ih _ k hk.2]
    simp [hashInsert, hk.1]

theorem snapshot_fold_document (snapshot : List (String × Option Document)) :
    ∀ (m : String → Option DocumentCache), (snapshot.map Prod.fst).Nodup →
      ∀ kv ∈ snapshot, ∃ e : DocumentCache,
        snapshot.foldl
            (fun m kv =>
              hashInsert m kv.1 { (m kv.1).getD DocumentCache.init with document := kv.2 })
            m kv.1 = some e ∧ e.document = kv.2 := by
  induction snapshot with
  | nil => intro m _ kv hkv; simp at hkv
  | cons kv0 rest ih =>
    intro m hnd kv hkv
    simp only [List.map_cons, List.nodup_cons] at hnd
    rw [List.foldl_cons]
    rcases List.mem_cons.mp hkv with h | h
    · subst h
      rw [snapshot_fold_untouched rest _ kv.1 hnd.1]
      exact ⟨_, if_pos rfl, rfl⟩
    · exact ih _ hnd.2 kv h

theorem resetBase_document (snapshot : List (String × Option Document))
    (projects : List Project) (hw : SnapshotWellFormed snapshot) :
    (∀ kv ∈ snapshot, (resetBase snapshot projects).document kv.1 = kv.2) ∧
      KeyConsistent (resetBase snapshot projects) := by
  have hknown : ∀ kv ∈ snapshot, (resetBase snapshot projects).document kv.1 = kv.2 := by
    intro kv hkv
    obtain ⟨e, he, hd⟩ := snapshot_fold_document snapshot (fun _ => none) hw.1 kv hkv
    unfold ParserPrivate.document
    show ((snapshotCache snapshot kv.1).getD DocumentCache.init).document = kv.2
    unfold snapshotCache
    rw [he]
    exact hd
  refine ⟨hknown, fun file doc hdoc => ?_⟩
  by_cases hmem : file ∈ snapshot.map Prod.fst
  · obtain ⟨kv, hkv, hfile⟩ := List.mem_map.mp hmem
    obtain ⟨doc2, hdoc2, hname⟩ := hw.2 kv hkv
    have := hknown kv hkv
    rw [hfile, hdoc, hdoc2] at this
    cases this
    rw [← hfile]
    exact hname
  · have hnone : snapshotCache snapshot file = none :=
      snapshot_fold_untouched snapshot (fun _ => none) file hmem
    have : (resetBase snapshot projects).document file = none := by
      unfold ParserPrivate.document
      show ((snapshotCache snapshot file).getD DocumentCache.init).document = none
      rw [hnone]
      rfl
    rw [this] at hdoc
    cases hdoc

/-! ## Lemmas on the stored project revision -/

theorem projectRevision_congr (d d2 : ParserPrivate)
    (h : ∀ file, d2.document file = d.document file) (fileList : List String) :
    projectRevision d2 fileList = projectRevision d fileList := by
  unfold projectRevision
  congr 1
  funext revision file
  rw [h file]

theorem foldl_projectTreeStep_revision (ext : Externals) (d : ParserPrivate)
    (hk : KeyConsistent d) (fileList : List String) :
    ∀ acc : ParserTreeItem × Nat × ParserPrivate,
      (∀ file, acc.2.2.document file = d.document file) →
      (fileList.foldl (projectTreeStep ext) acc).2.1 =
        fileList.foldl
          (fun revision file =>
            match d.document file with
            | none => revision
            | some doc => (revision + doc.revision) % unsignedModulus)
          acc.2.1 := by
  induction fileList with
  | nil => intro acc _; rfl
  | cons file rest ih =>
    intro acc hacc
    rw [List.foldl_cons, List.foldl_cons]
    have hdocs := foldl_projectTreeStep_document ext d hk [file] acc hacc
    rw [List.foldl_cons, List.foldl_nil] at hdocs
    rw [ih _ hdocs]
    congr 1
    unfold projectTreeStep
    rw [hacc file]
    cases d.document file with
    | none => rfl
    | some doc =>
      simp only []
      cases (getCachedOrParseDocumentTree ext acc.2.2 (some doc)).1 <;> rfl

/-- With every known document stored under its own path, the revision that
`getParseProjectTree` stores is the revision sum of the state it leaves. -/
theorem getParseProjectTree_stored (ext : Externals) (d : ParserPrivate) (hk : KeyConsistent d)
    (fileList : List String) (projectId : String) (hid : projectId ≠ "") :
    ∃ entry : ProjectCache,
      (getParseProjectTree ext d fileList projectId).2.m_projectCache projectId = some entry ∧
        entry.tree = some (getParseProjectTree ext d fileList projectId).1 ∧
        entry.treeRevision =
          projectRevision (getParseProjectTree ext d fileList projectId).2 fileList := by
  have hdocs := foldl_projectTreeStep_document ext d hk fileList (ParserTreeItem.empty, 0, d)
    (fun _ => rfl)
  have hrev := foldl_projectTreeStep_revision ext d hk fileList (ParserTreeItem.empty, 0, d)
    (fun _ => rfl)
  have hafter : ∀ file, (getParseProjectTree ext d fileList projectId).2.document file =
      d.document file := by
    intro file
    rw [← hdocs file]
    apply document_congr
    simp only [getParseProjectTree, hid, ne_eq, not_false_eq_true, if_true]
  rw [projectRevision_congr d _ hafter]
  simp only [getParseProjectTree, hid, ne_eq, not_false_eq_true, if_true]
  exact ⟨_, if_pos rfl, rfl, hrev⟩

/-! ## Filtering, merging and pruning in `addSymbol` -/

/-- C1: for every parent item and every symbol that is a forward class
declaration, extern, friend, compiler-generated, a using-namespace directive, a
using-declaration, or whose name is a qualified name, `addSymbol` returns the
parent unchanged (children and locations alike), whatever the scope of the
symbol contains. -/
theorem addSymbol_filtered_unchanged (ext : Externals) (item : ParserTreeItem) (s : Symbol)
    (h : s.data.isForwardClassDeclaration = true ∨ s.data.isExtern = true ∨
      s.data.isFriend = true ∨ s.data.isGenerated = true ∨
      s.data.isUsingNamespaceDirective = true ∨ s.data.isUsingDeclaration = true ∨
      ∃ n, s.data.name = some n ∧ n.isQualifiedNameId = true) :
    addSymbol ext item (some s) = item := by
  rw [addSymbol_some, addSymbolNonNull_eq, isFiltered_of_flag s h]
  rfl

/-- An extern symbol with a member is added to the tree of `a.cpp`: nothing changes. -/
theorem addSymbol_filtered_unchanged_witness :
    symExtern.data.isExtern = true ∧ addSymbol ext0 treeA (some symExtern) = treeA :=
  ⟨rfl, addSymbol_filtered_unchanged ext0 treeA symExtern (Or.inr (Or.inl rfl))⟩

/-- C2: two non-filtered symbols with the same display identity, the first of
them not pruned, added one after the other to an empty parent, leave the
parent with exactly one child, stored under that identity, whose location set
is exactly the pair of the two locations.  (The second symbol needs no
hypothesis on pruning: it finds the child of the first and records its
location in it.) -/
theorem addSymbol_merges_same_identity (ext : Externals) (s1 s2 : Symbol)
    (hf1 : isFiltered s1 = false) (hf2 : isFiltered s2 = false)
    (hid : information ext s1 = information ext s2)
    (hp1 : isPruned ext ParserTreeItem.empty s1 = false) :
    ∃ c : ParserTreeItem,
      (addSymbol ext (addSymbol ext ParserTreeItem.empty (some s1)) (some s2)).symbolInformations
          = [(information ext s1, c)] ∧
        (addSymbol ext (addSymbol ext ParserTreeItem.empty (some s1)) (some s2)).child
          (information ext s1) = some c ∧
        c.symbolLocations = {location s1, location s2} := by
  have h1 : addSymbol ext ParserTreeItem.empty (some s1) =
      ParserTreeItem.mk ∅ none [(information ext s1, itemAddOf ext ParserTreeItem.empty s1)] := by
    have he : ParserTreeItem.empty.child (information ext s1) = none := rfl
    rw [addSymbol_some, addSymbolNonNull_eq, hf1, hp1, he]
    rfl
  have hchild : (ParserTreeItem.mk ∅ none
      [(information ext s1, itemAddOf ext ParserTreeItem.empty s1)]).child (information ext s2) =
      some (itemAddOf ext ParserTreeItem.empty s1) := by
    simp [ParserTreeItem.child, ParserTreeItem.lookup, ParserTreeItem.symbolInformations, hid]
  have h2 : addSymbol ext (addSymbol ext ParserTreeItem.empty (some s1)) (some s2) =
      ParserTreeItem.mk ∅ none [(information ext s1,
        itemAddOf ext (addSymbol ext ParserTreeItem.empty (some s1)) s2)] := by
    rw [addSymbol_some, addSymbolNonNull_eq, h1, hchild]
    simp [hf2, ParserTreeItem.appendChild, ParserTreeItem.assign,
      ParserTreeItem.symbolInformations, ParserTreeItem.symbolLocations, ParserTreeItem.icon, hid]
  refine ⟨itemAddOf ext (addSymbol ext ParserTreeItem.empty (some s1)) s2, ?_, ?_, ?_⟩
  · rw [h2]; rfl
  · rw [h2]
    simp [ParserTreeItem.child, ParserTreeItem.lookup, ParserTreeItem.symbolInformations]
  · rw [itemAddOf_symbolLocations, h1, hchild, Option.getD_some, itemAddOf_symbolLocations]
    simp [ParserTreeItem.child, ParserTreeItem.lookup, ParserTreeItem.empty,
      ParserTreeItem.symbolInformations, ParserTreeItem.symbolLocations, Finset.pair_comm]

/-- The namespace `N` declared in `a.cpp` and again in `b.cpp` yields one node. -/
theorem addSymbol_merges_same_identity_witness :
    ∃ c : ParserTreeItem,
      (addSymbol ext0 (addSymbol ext0 ParserTreeItem.empty (some symN)) (some symN2)).symbolInformations
          = [(information ext0 symN, c)] ∧
        (addSymbol ext0 (addSymbol ext0 ParserTreeItem.empty (some symN)) (some symN2)).child
          (information ext0 symN) = some c ∧
        c.symbolLocations = {location symN, location symN2} :=
  addSymbol_merges_same_identity ext0 symN symN2 rfl rfl rfl rfl

/-- C3: a namespace symbol whose conversion yields a node without children
contributes no node: the child keys of the parent are the same after the call
as before, and a parent without children still has none. -/
theorem addSymbol_prunes_childless_namespace (ext : Externals) (item : ParserTreeItem)
    (s : Symbol) (hns : s.data.isNamespace = true)
    (hempty : (itemAddOf ext item s).childCount = 0) :
    (addSymbol ext item (some s)).keys = item.keys ∧
      (item.childCount = 0 → (addSymbol ext item (some s)).childCount = 0) := by
  have hp : isPruned ext item s = true := by simp [isPruned, hns, hempty]
  have hk : (addSymbol ext item (some s)).keys = item.keys := by
    rw [addSymbol_some]; exact keys_addSymbolNonNull_of_pruned ext item s hp
  refine ⟨hk, fun h0 => ?_⟩
  have hlen := congrArg List.length hk
  simp only [ParserTreeItem.keys, List.length_map] at hlen
  unfold ParserTreeItem.childCount at h0 ⊢
  omega

/-- The hollow namespace `A` added to the tree of `a.cpp` leaves its keys alone. -/
theorem addSymbol_prunes_childless_namespace_witness :
    symHollow.data.isNamespace = true ∧ (itemAddOf ext0 treeA symHollow).childCount = 0 ∧
      (addSymbol ext0 treeA (some symHollow)).keys = treeA.keys ∧
      (treeA.childCount = 0 → (addSymbol ext0 treeA (some symHollow)).childCount = 0) :=
  ⟨rfl, rfl, addSymbol_prunes_childless_namespace ext0 treeA symHollow rfl rfl⟩

/-- C4: pruning is transitive over any nesting depth: a namespace each of whose
members is (null,) filtered, or recursively a namespace of this kind, added to
an empty parent leaves the parent empty. -/
theorem addSymbol_prunes_hollow_namespace (ext : Externals) (s : Symbol)
    (h : isHollowNamespace s = true) :
    addSymbol ext ParserTreeItem.empty (some s) = ParserTreeItem.empty := by
  rw [addSymbol_some]
  exact addSymbolNonNull_hollow ext s ParserTreeItem.empty rfl (by simp [h])

/-- The namespace `A { namespace B {} namespace N { class C; } }` leaves no node. -/
theorem addSymbol_prunes_hollow_namespace_witness :
    isHollowNamespace symHollow = true ∧
      addSymbol ext0 ParserTreeItem.empty (some symHollow) = ParserTreeItem.empty :=
  ⟨rfl, addSymbol_prunes_hollow_namespace ext0 symHollow rfl⟩

/-- C6: function bodies are never expanded: a non-filtered function symbol
(a function is not a namespace) added to a parent that has no child of the
same display identity attaches, under that identity, a node without children
that records the location of the function, whatever the scope of the function
contains. -/
theorem addSymbol_function_not_expanded (ext : Externals) (item : ParserTreeItem)
    (s : Symbol) (hfun : s.data.isFunction = true) (hns : s.data.isNamespace = false)
    (hf : isFiltered s = false) (hnew : item.child (information ext s) = none) :
    ∃ c : ParserTreeItem,
      (addSymbol ext item (some s)).child (information ext s) = some c ∧
        c.childCount = 0 ∧ c.symbolLocations = {location s} := by
  have hia : itemAddOf ext item s = ParserTreeItem.empty.addSymbolLocation (location s) := by
    simp [itemAddOf, hfun, hnew]
  refine ⟨ParserTreeItem.empty.addSymbolLocation (location s), ?_, rfl, rfl⟩
  rw [addSymbol_some, addSymbolNonNull_eq, hf, hnew]
  simp only [isPruned, hns, hia, Bool.false_and, Option.isSome_none]
  exact ParserTreeItem.lookup_assign_self _ _ _

/-- The function `f`, whose scope holds a class, becomes a leaf of the tree of `a.cpp`. -/
theorem addSymbol_function_not_expanded_witness :
    ∃ c : ParserTreeItem,
      (addSymbol ext0 treeA (some symFunction)).child (information ext0 symFunction) = some c ∧
        c.childCount = 0 ∧ c.symbolLocations = {location symFunction} :=
  addSymbol_function_not_expanded ext0 treeA symFunction rfl rfl rfl rfl

/-! ## Document trees and their cache -/

/-- C7: for a non-null document whose file path is tracked, `getParseDocumentTree`
returns the tree obtained by applying `addSymbol`, starting from a new empty
item, to the global symbols in index order; afterwards the DocumentCache entry
of that path is exactly the revision of the document, the returned tree and
the document, whatever was stored there before, and every other DocumentCache
entry is unchanged. -/
theorem getParseDocumentTree_tracked (ext : Externals) (d : ParserPrivate) (doc : Document)
    (h : doc.fileName ∈ d.fileList) :
    (getParseDocumentTree ext d (some doc)).1 =
        some (doc.globalSymbols.foldl (addSymbol ext) ParserTreeItem.empty) ∧
      (getParseDocumentTree ext d (some doc)).2.m_documentCache doc.fileName =
        some { treeRevision := doc.revision
               tree := some (doc.globalSymbols.foldl (addSymbol ext) ParserTreeItem.empty)
               document := some doc } ∧
      ∀ k : String, k ≠ doc.fileName →
        (getParseDocumentTree ext d (some doc)).2.m_documentCache k = d.m_documentCache k := by
  rw [getParseDocumentTree_of_mem ext d doc h]
  refine ⟨rfl, ?_, ?_⟩
  · simp [hashInsert]
  · intro k hk
    simp [hashInsert, hk]

/-- The document of `a.cpp`, tracked, is parsed in the initial state. -/
theorem getParseDocumentTree_tracked_witness :
    (getParseDocumentTree ext0 (setFileList initialState ["a.cpp"]) (some docA)).1 =
        some (docA.globalSymbols.foldl (addSymbol ext0) ParserTreeItem.empty) ∧
      (getParseDocumentTree ext0 (setFileList initialState ["a.cpp"]) (some docA)).2.m_documentCache
          docA.fileName =
        some { treeRevision := docA.revision
               tree := some (docA.globalSymbols.foldl (addSymbol ext0) ParserTreeItem.empty)
               document := some docA } ∧
      ∀ k : String, k ≠ docA.fileName →
        (getParseDocumentTree ext0 (setFileList initialState ["a.cpp"]) (some docA)).2.m_documentCache k
          = (setFileList initialState ["a.cpp"]).m_documentCache k :=
  getParseDocumentTree_tracked ext0 (setFileList initialState ["a.cpp"]) docA (by decide)

/-- C8: for every document (null or not) and every parser state, a second call
of `getCachedOrParseDocumentTree` right after the first returns the same tree
and leaves the whole parser state, the DocumentCache included, as the first
call left it; and it does not look at the symbols: any document of the same
path and revision, whatever its symbols, gets that same result. -/
theorem getCachedOrParseDocumentTree_idempotent (ext : Externals) (d : ParserPrivate)
    (doc : Option Document) :
    getCachedOrParseDocumentTree ext (getCachedOrParseDocumentTree ext d doc).2 doc =
        getCachedOrParseDocumentTree ext d doc ∧
      ∀ D D2 : Document, doc = some D → D2.fileName = D.fileName → D2.revision = D.revision →
        getCachedOrParseDocumentTree ext (getCachedOrParseDocumentTree ext d doc).2 (some D2) =
          getCachedOrParseDocumentTree ext d doc := by
  constructor
  · cases doc with
    | none => rfl
    | some D => exact getCachedOrParseDocumentTree_again ext d D D rfl rfl
  · intro D D2 hD hn hr
    subst hD
    exact getCachedOrParseDocumentTree_again ext d D D2 hn hr

/-- After `docA` went through the cache, a document of the same path and
revision without any symbol gets the tree of `docA`. -/
theorem getCachedOrParseDocumentTree_idempotent_witness :
    getCachedOrParseDocumentTree ext0
        (getCachedOrParseDocumentTree ext0 trackedState (some docA)).2 (some docA2) =
      getCachedOrParseDocumentTree ext0 trackedState (some docA) :=
  (getCachedOrParseDocumentTree_idempotent ext0 trackedState (some docA)).2 docA docA2 rfl rfl rfl

/-- C9: for a non-null document, `getCachedOrParseDocumentTree` returns the
stored tree, without changing the state, when the DocumentCache has an entry
for the path of the document that holds a tree and whose stored revision
equals the revision of the document (the symbols of the document play no
part); in every other case its result is that of `getParseDocumentTree`, in
particular for an entry without a tree, whatever its revision. -/
theorem getCachedOrParseDocumentTree_hit_or_build (ext : Externals) (d : ParserPrivate)
    (doc : Document) :
    (∀ (entry : DocumentCache) (t : ParserTreeItem),
        d.m_documentCache doc.fileName = some entry → entry.tree = some t →
        entry.treeRevision = doc.revision →
        getCachedOrParseDocumentTree ext d (some doc) = (some t, d)) ∧
      ((¬ ∃ entry t, d.m_documentCache doc.fileName = some entry ∧ entry.tree = some t ∧
          entry.treeRevision = doc.revision) →
        getCachedOrParseDocumentTree ext d (some doc) = getParseDocumentTree ext d (some doc)) ∧
      (∀ entry : DocumentCache, d.m_documentCache doc.fileName = some entry → entry.tree = none →
        getCachedOrParseDocumentTree ext d (some doc) = getParseDocumentTree ext d (some doc)) := by
  refine ⟨fun entry t he ht hr => getCachedOrParseDocumentTree_hit ext d doc entry t he ht hr,
    getCachedOrParseDocumentTree_miss ext d doc, fun entry he ht => ?_⟩
  apply getCachedOrParseDocumentTree_miss
  rintro ⟨entry2, t, he2, ht2, _⟩
  rw [he] at he2
  cases he2
  rw [ht] at ht2
  cases ht2

/-- With the tree of `docA` cached at revision 1, the symbol-free document of
the same path and revision gets the cached tree. -/
theorem getCachedOrParseDocumentTree_hit_or_build_witness :
    parsedState.m_documentCache docA2.fileName = some entryA ∧
      getCachedOrParseDocumentTree ext0 parsedState (some docA2) = (some treeA, parsedState) :=
  ⟨rfl, (getCachedOrParseDocumentTree_hit_or_build ext0 parsedState docA2).1 entryA treeA
    rfl rfl rfl⟩

/-! ## Root assembly -/

/-- C5, counterexample: `docA` (`namespace N { class C {}; }`) becomes the known
document of `a.cpp` while no file is tracked, project `P` with the file list
`["a.cpp"]` is published, and `a.cpp` is tracked afterwards.  Every condition
of the scenario holds, and `parse` hands out the project tree cached at the
unchanged revision sum: the project node has no children. -/
theorem parse_namespace_with_class_stale :
    prjP.sourceFiles = ["a.cpp"] ∧
      (getAllFiles staleState (some prjP)).1 = ["a.cpp"] ∧
      "a.cpp" ∈ staleState.fileList ∧
      staleState.document "a.cpp" = some docA ∧
      docA.globalSymbols = [some symN] ∧
      staleState.m_projectCache "p.pro" =
        some { treeRevision := 1, tree := some ParserTreeItem.empty, fileList := ["a.cpp"] } ∧
      (parse ext0 staleState [prjP]).1 = rootWithoutA ∧
      rootWithoutA.child (projectInformation ext0 prjP) =
        some (ParserTreeItem.mk ∅ (some 7) []) :=
  ⟨rfl, rfl, by decide, rfl, rfl, rfl, rfl, rfl⟩

/-- C5, amended: one project whose file list (as `getAllFiles` gives it) is
`[a]`, `a` tracked, the known document of `a` holding exactly one global
symbol, a namespace `N` whose only member is a non-filtered class `C` without
members, and no stale tree handed out by the caches: a project tree cached for
the project at the current revision sum has the locations and children of the
merge of the tree of the known document, and, when no project tree is cached
at that sum, a document tree cached for `a` at the revision of the known
document has the locations and children of the tree of that document.  Then
`parse` returns a root with exactly one child, the project node, which has
exactly one child `N`, which has exactly one child `C`, which has no
children. -/
theorem parse_namespace_with_class (ext : Externals) (d : ParserPrivate) (prj : Project)
    (a : String) (doc : Document) (dn dc : SymbolData)
    (scopeC : Option (List (Option Symbol)))
    (hfiles : (getAllFiles d (some prj)).1 = [a])
    (htracked : a ∈ d.fileList)
    (hknown : d.document a = some doc)
    (hname : doc.fileName = a)
    (hsyms : doc.globalSymbols = [some (Symbol.mk dn (some [some (Symbol.mk dc scopeC)]))])
    (hns : dn.isNamespace = true) (hnfun : dn.isFunction = false)
    (hfn : isFiltered (Symbol.mk dn (some [some (Symbol.mk dc scopeC)])) = false)
    (hfc : isFiltered (Symbol.mk dc scopeC) = false)
    (hcns : dc.isNamespace = false)
    (hscope : scopeC = none ∨ scopeC = some [])
    (hprjcache : ∀ (entry : ProjectCache) (t : ParserTreeItem),
      d.m_projectCache prj.projectFilePath = some entry → entry.tree = some t →
      entry.treeRevision = revisionSum d [a] →
      t.symbolLocations =
          (ParserTreeItem.empty.add (builtDocumentTree ext doc)).symbolLocations ∧
        t.symbolInformations =
          (ParserTreeItem.empty.add (builtDocumentTree ext doc)).symbolInformations)
    (hdoccache :
      (¬ ∃ (entry : ProjectCache) (t : ParserTreeItem),
          d.m_projectCache prj.projectFilePath = some entry ∧ entry.tree = some t ∧
            entry.treeRevision = revisionSum d [a]) →
        ∀ (e : DocumentCache) (t : ParserTreeItem), d.m_documentCache a = some e →
          e.tree = some t → e.treeRevision = doc.revision →
          t.symbolLocations = (builtDocumentTree ext doc).symbolLocations ∧
            t.symbolInformations = (builtDocumentTree ext doc).symbolInformations) :
    (parse ext d [prj]).1 =
      ParserTreeItem.mk ∅ none
        [({ name := prj.displayName, type := prj.projectFilePath,
            iconType := ext.defaultIconType },
          ParserTreeItem.mk ∅ (some prj.icon)
            [(information ext (Symbol.mk dn (some [some (Symbol.mk dc scopeC)])),
              ParserTreeItem.mk {location (Symbol.mk dn (some [some (Symbol.mk dc scopeC)]))} none
                [(information ext (Symbol.mk dc scopeC),
                  ParserTreeItem.mk {location (Symbol.mk dc scopeC)} none [])])])] := by
  have _ := hns
  subst hname
  have htree := addSymbol_namespace_with_class ext dn dc scopeC hfn hfc hnfun hcns hscope
  have hbuilt : builtDocumentTree ext doc =
      addSymbol ext ParserTreeItem.empty
        (some (Symbol.mk dn (some [some (Symbol.mk dc scopeC)]))) := by
    unfold builtDocumentTree
    rw [hsyms]
    rfl
  have hdocTree : ∀ d1 : ParserPrivate, d1.m_documentCache = d.m_documentCache →
      d1.fileList = d.fileList →
      (¬ ∃ (entry : ProjectCache) (t : ParserTreeItem),
        d.m_projectCache prj.projectFilePath = some entry ∧ entry.tree = some t ∧
          entry.treeRevision = revisionSum d [doc.fileName]) →
      ∃ t : ParserTreeItem, (getCachedOrParseDocumentTree ext d1 (some doc)).1 = some t ∧
        ParserTreeItem.empty.add t = ParserTreeItem.empty.add (builtDocumentTree ext doc) := by
    intro d1 hc hl hno
    rcases getCachedOrParseDocumentTree_cases ext d1 doc with
      ⟨e, t, he, ht, hr, hres⟩ | ⟨hnot, _⟩ | ⟨hin, hres⟩
    · rw [hc] at he
      obtain ⟨h1, h2⟩ := hdoccache hno e t he ht hr
      exact ⟨t, by rw [hres], ParserTreeItem.add_congr _ _ _ h1 h2⟩
    · rw [hl] at hnot
      exact absurd htracked hnot
    · rw [hres, getParseDocumentTree_of_mem ext d1 doc hin]
      exact ⟨_, rfl, rfl⟩
  have hprojTree : ∀ d1 : ParserPrivate, d1.m_documentCache = d.m_documentCache →
      d1.fileList = d.fileList →
      (¬ ∃ (entry : ProjectCache) (t : ParserTreeItem),
        d.m_projectCache prj.projectFilePath = some entry ∧ entry.tree = some t ∧
          entry.treeRevision = revisionSum d [doc.fileName]) →
      (getParseProjectTree ext d1 [doc.fileName] prj.projectFilePath).1 =
        ParserTreeItem.empty.add (builtDocumentTree ext doc) := by
    intro d1 hc hl hno
    have hk1 : d1.document doc.fileName = some doc := by
      unfold ParserPrivate.document
      rw [hc]
      exact hknown
    obtain ⟨t, ht, hadd⟩ := hdocTree d1 hc hl hno
    rw [getParseProjectTree_fst]
    simp only [List.foldl_cons, List.foldl_nil, projectTreeStep, hk1, ht]
    exact hadd
  have hcached : ∀ d1 : ParserPrivate, d1.m_documentCache = d.m_documentCache →
      d1.fileList = d.fileList →
      (∀ (entry : ProjectCache) (t : ParserTreeItem),
        d1.m_projectCache prj.projectFilePath = some entry → entry.tree = some t →
        d.m_projectCache prj.projectFilePath = some entry) →
      (∀ entry : ProjectCache, d.m_projectCache prj.projectFilePath = some entry →
        d1.m_projectCache prj.projectFilePath = some entry) →
      (getCachedOrParseProjectTree ext d1 [doc.fileName] prj.projectFilePath).1.symbolLocations =
          (ParserTreeItem.empty.add (builtDocumentTree ext doc)).symbolLocations ∧
        (getCachedOrParseProjectTree ext d1 [doc.fileName]
            prj.projectFilePath).1.symbolInformations =
          (ParserTreeItem.empty.add (builtDocumentTree ext doc)).symbolInformations := by
    intro d1 hc hl hsame hback
    have hdocs : d1.document = d.document := by
      funext file
      unfold ParserPrivate.document
      rw [hc]
    have hsum : projectRevision d1 [doc.fileName] = revisionSum d [doc.fileName] := by
      rw [projectRevision_eq_revisionSum]
      unfold revisionSum
      rw [hdocs]
    by_cases hhit : ∃ entry t, d1.m_projectCache prj.projectFilePath = some entry ∧
        entry.tree = some t ∧ entry.treeRevision = projectRevision d1 [doc.fileName]
    · obtain ⟨entry, t, he, ht, hr⟩ := hhit
      rw [getCachedOrParseProjectTree_hit ext d1 [doc.fileName] prj.projectFilePath entry t he ht hr]
      exact hprjcache entry t (hsame entry t he ht) ht (hr.trans hsum)
    · rw [getCachedOrParseProjectTree_miss ext d1 [doc.fileName] prj.projectFilePath hhit]
      have hno : ¬ ∃ (entry : ProjectCache) (t : ParserTreeItem),
          d.m_projectCache prj.projectFilePath = some entry ∧ entry.tree = some t ∧
            entry.treeRevision = revisionSum d [doc.fileName] := by
        rintro ⟨entry, t, he, ht, hr⟩
        exact hhit ⟨entry, t, hback entry he, ht, hr.trans hsum.symm⟩
      rw [hprojTree d1 hc hl hno]
      exact ⟨rfl, rfl⟩
  have hfrom := hcached (getAllFiles d (some prj)).2
    (by cases hentry : d.m_projectCache prj.projectFilePath <;> simp only [getAllFiles, hentry])
    (by cases hentry : d.m_projectCache prj.projectFilePath <;> simp only [getAllFiles, hentry])
    (by
      intro entry t he ht
      cases hentry : d.m_projectCache prj.projectFilePath with
      | none =>
        simp only [getAllFiles, hentry, hashInsert, if_true, Option.some.injEq] at he
        subst he
        cases ht
      | some entry0 =>
        simp only [getAllFiles, hentry] at he
        exact he)
    (by
      intro entry he
      simp only [getAllFiles, he])
  have hchild : projectChild ext d prj =
      ParserTreeItem.mk (ParserTreeItem.empty.add (builtDocumentTree ext doc)).symbolLocations
        (some prj.icon)
        (ParserTreeItem.empty.add (builtDocumentTree ext doc)).symbolInformations := by
    simp only [projectChild, hfiles, List.length_singleton, gt_iff_lt, Nat.zero_lt_one, if_true,
      hfrom.1, hfrom.2]
  simp only [parse, List.foldl_cons, List.foldl_nil, parseStep_eq, hchild, hbuilt, htree]
  simp [ParserTreeItem.add_mk, ParserTreeItem.addChildren_cons, ParserTreeItem.addChildren_nil,
    ParserTreeItem.appendChild, projectInformation,
    ParserTreeItem.empty, ParserTreeItem.assign, ParserTreeItem.symbolLocations,
    ParserTreeItem.icon, ParserTreeItem.symbolInformations, ParserTreeItem.child,
    ParserTreeItem.lookup]

/-- The translation unit `namespace N { class C {}; }` of `a.cpp` in project `P`,
in the state that a notification for `a.cpp` leaves. -/
theorem parse_namespace_with_class_witness :
    (parse ext0 parsedState [prjP]).1 = rootWithA :=
  parse_namespace_with_class ext0 parsedState prjP "a.cpp" docA (plainData "N" 1 true)
    (plainData "C" 2 false) (some []) rfl (by decide) rfl rfl rfl rfl rfl rfl rfl rfl
    (Or.inr rfl)
    (by
      intro entry t he _ _
      have hnone : parsedState.m_projectCache prjP.projectFilePath = none := rfl
      rw [hnone] at he
      cases he)
    (by
      intro _ e t he ht _
      have hentry : parsedState.m_documentCache "a.cpp" = some entryA := rfl
      rw [hentry] at he
      cases he
      cases ht
      exact ⟨rfl, rfl⟩)

/-- C10, the code at the failing input: after `resetData` has published the tree
of `a.cpp`, `setFileList []` leaves no file tracked, and still the next
`parse` returns a root in which project `P` holds the symbols of `a.cpp`,
taken from the caches that `setFileList` does not touch; `getParseDocumentTree`
in that state rejects the document, and with the same known document but no
cached tree `parse` yields project `P` without children. -/
theorem parse_after_setFileList_keeps_untracked :
    (setFileList publishedState []).fileList = ∅ ∧
      (parse ext0 (setFileList publishedState []) [prjP]).1 = rootWithA ∧
      (getParseDocumentTree ext0 (setFileList publishedState []) (some docA)).1 = none ∧
      (parse ext0 untrackedState [prjP]).1 = rootWithoutA :=
  ⟨rfl, rfl, rfl, rfl⟩

/-! ## Project trees and their cache -/

/-- C11: for every file list and project id, `getParseProjectTree` returns the
merge, into a new empty item and in file-list order, of the
`getCachedOrParseDocumentTree` result of each file that has a known document
(files without a known document or with a null result are passed over); with
a non-empty project id the ProjectCache entry of that id holds the returned
tree afterwards and no other entry has changed, with an empty project id the
ProjectCache is unchanged. -/
theorem getParseProjectTree_merges_and_stores (ext : Externals) (d : ParserPrivate)
    (fileList : List String) (projectId : String) :
    (getParseProjectTree ext d fileList projectId).1 =
        mergeDocumentTrees ext d ParserTreeItem.empty fileList ∧
      (projectId ≠ "" →
        (∃ entry : ProjectCache,
          (getParseProjectTree ext d fileList projectId).2.m_projectCache projectId = some entry ∧
            entry.tree = some (getParseProjectTree ext d fileList projectId).1) ∧
        ∀ k : String, k ≠ projectId →
          (getParseProjectTree ext d fileList projectId).2.m_projectCache k = d.m_projectCache k) ∧
      (projectId = "" →
        (getParseProjectTree ext d fileList projectId).2.m_projectCache = d.m_projectCache) := by
  have hframe := (foldl_projectTreeStep_frame ext fileList (ParserTreeItem.empty, 0, d)).1
  refine ⟨?_, ?_, ?_⟩
  · rw [getParseProjectTree_fst, foldl_projectTreeStep_fst]
  · intro hid
    simp only [getParseProjectTree, hid, ne_eq, not_false_eq_true, if_true]
    refine ⟨⟨_, if_pos rfl, rfl⟩, fun k hk => ?_⟩
    simp only [hashInsert, hk, if_false]
    exact congrFun hframe k
  · intro hid
    simp only [getParseProjectTree, hid, ne_eq, not_true_eq_false, if_false]
    exact hframe

/-- The project tree of `["a.cpp"]` is built and stored under `p.pro`. -/
theorem getParseProjectTree_merges_and_stores_witness :
    (getParseProjectTree ext0 knownState ["a.cpp"] "p.pro").1 =
        mergeDocumentTrees ext0 knownState ParserTreeItem.empty ["a.cpp"] ∧
      ∃ entry : ProjectCache,
        (getParseProjectTree ext0 knownState ["a.cpp"] "p.pro").2.m_projectCache "p.pro" =
            some entry ∧
          entry.tree = some (getParseProjectTree ext0 knownState ["a.cpp"] "p.pro").1 :=
  ⟨(getParseProjectTree_merges_and_stores ext0 knownState ["a.cpp"] "p.pro").1,
    ((getParseProjectTree_merges_and_stores ext0 knownState ["a.cpp"] "p.pro").2.1
      (by decide)).1⟩

/-- C12: `getCachedOrParseProjectTree` returns the cached tree and leaves the
parser state, all caches included, unchanged when the ProjectCache has an entry
for the project id that holds a tree and whose stored revision equals the sum,
as a 32-bit unsigned number, of the current revisions of the known documents of
the files of the list; in every other case its result and the state it leaves
are those of `getParseProjectTree`. -/
theorem getCachedOrParseProjectTree_hit_or_build (ext : Externals) (d : ParserPrivate)
    (fileList : List String) (projectId : String) :
    (∀ (entry : ProjectCache) (t : ParserTreeItem),
        d.m_projectCache projectId = some entry → entry.tree = some t →
        entry.treeRevision = revisionSum d fileList →
        getCachedOrParseProjectTree ext d fileList projectId = (t, d)) ∧
      ((¬ ∃ entry t, d.m_projectCache projectId = some entry ∧ entry.tree = some t ∧
          entry.treeRevision = revisionSum d fileList) →
        getCachedOrParseProjectTree ext d fileList projectId =
          getParseProjectTree ext d fileList projectId) := by
  rw [← projectRevision_eq_revisionSum]
  exact ⟨fun entry t he ht hr => getCachedOrParseProjectTree_hit ext d fileList projectId entry t
    he ht hr, getCachedOrParseProjectTree_miss ext d fileList projectId⟩

/-- After the publish the tree of project `P` is cached at revision sum 1 and is
handed out again. -/
theorem getCachedOrParseProjectTree_hit_or_build_witness :
    publishedState.m_projectCache "p.pro" = some entryP ∧
      getCachedOrParseProjectTree ext0 publishedState ["a.cpp"] "p.pro" =
        (treeA, publishedState) :=
  ⟨rfl, (getCachedOrParseProjectTree_hit_or_build ext0 publishedState ["a.cpp"] "p.pro").1
    entryP treeA rfl rfl rfl⟩

/-- C13, counterexample: project `D` names `a.cpp` twice and its tree is cached at
the revision sum 2; `a.cpp`, tracked, is notified again with a document of
revision `1 + 2^31` that holds the class `C` alone.  The revision sum is
`2 * (1 + 2^31) = 2` modulo `2^32`, so `getCachedOrParseProjectTree` hands out
the cached tree with `N`, while the build gives a tree with `C`. -/
theorem getCachedOrParseProjectTree_stale_after_change :
    publishedStateDup.m_projectCache "d.pro" =
        some { treeRevision := 2, tree := some treeA, fileList := ["a.cpp", "a.cpp"] } ∧
      "a.cpp" ∈ publishedStateDup.fileList ∧
      publishedStateDup.document "a.cpp" = some docA ∧
      docA.revision < docAWrap.revision ∧
      docAWrap.revision - docA.revision < unsignedModulus ∧
      getCachedOrParseProjectTree ext0 (parseDocument ext0 publishedStateDup (some docAWrap))
          ["a.cpp", "a.cpp"] "d.pro" =
        (treeA, parseDocument ext0 publishedStateDup (some docAWrap)) ∧
      treeA.keys = [{ name := "N", type := "", iconType := 3 }] ∧
      (getParseProjectTree ext0 (parseDocument ext0 publishedStateDup (some docAWrap))
          ["a.cpp", "a.cpp"] "d.pro").1.keys = [{ name := "C", type := "", iconType := 1 }] :=
  ⟨rfl, by decide, rfl, by decide, by decide, rfl, rfl, rfl⟩

/-- C13, amended: a project tree is cached at the current revision sum; one
tracked member file `F` is notified again through `parseDocument` with a
document of strictly larger revision, where the increase times the number of
times the file list names `F` is not a multiple of `2^32` (for a file named
once: any increase below `2^32`), while the other files with a known document
hold valid cached trees.  Then the next `getCachedOrParseProjectTree` does not
hand out the cached tree but rebuilds: it returns the merge, in file-list
order, of the unchanged cached document trees of the other files and the newly
built tree of `F`, and it leaves the DocumentCache as `parseDocument` left it,
so that the entries of the other files are those from before the
notification. -/
theorem getCachedOrParseProjectTree_after_change (ext : Externals) (d : ParserPrivate)
    (fileList : List String) (projectId F : String) (docOld docNew : Document)
    (entry : ProjectCache) (T : ParserTreeItem)
    (hentry : d.m_projectCache projectId = some entry) (htree : entry.tree = some T)
    (hrev : entry.treeRevision = revisionSum d fileList)
    (htracked : F ∈ d.fileList)
    (hold : d.document F = some docOld) (hname : docNew.fileName = F)
    (hlt : docOld.revision < docNew.revision)
    (hcount : (fileList.count F * (docNew.revision - docOld.revision)) % unsignedModulus ≠ 0)
    (hothers : ∀ G ∈ fileList, G ≠ F → ∀ e, d.m_documentCache G = some e →
      e.document.isSome = true → e.isValidFor G = true) :
    getCachedOrParseProjectTree ext (parseDocument ext d (some docNew)) fileList projectId =
        getParseProjectTree ext (parseDocument ext d (some docNew)) fileList projectId ∧
      (getCachedOrParseProjectTree ext (parseDocument ext d (some docNew)) fileList projectId).1 =
        fileList.foldl
          (fun item G =>
            if G = F then item.add (builtDocumentTree ext docNew)
            else
              match cachedDocumentTree d G with
              | some t => item.add t
              | none => item)
          ParserTreeItem.empty ∧
      (getCachedOrParseProjectTree ext (parseDocument ext d (some docNew)) fileList
          projectId).2.m_documentCache = (parseDocument ext d (some docNew)).m_documentCache ∧
      ∀ G : String, G ≠ F →
        (getCachedOrParseProjectTree ext (parseDocument ext d (some docNew)) fileList
          projectId).2.m_documentCache G = d.m_documentCache G := by
  have _ := htree
  subst hname
  obtain ⟨hdc, hpc, -, -, -, -⟩ := parseDocument_of_mem ext d docNew htracked
  generalize parseDocument ext d (some docNew) = d1 at hdc hpc ⊢
  have hdoc1 : ∀ G, d1.document G = if G = docNew.fileName then some docNew else d.document G := by
    intro G
    unfold ParserPrivate.document
    rw [hdc]
    unfold hashInsert
    by_cases hG : G = docNew.fileName <;> simp [hG]
  have hcached1 : ∀ G, cachedDocumentTree d1 G =
      if G = docNew.fileName then some (builtDocumentTree ext docNew)
      else cachedDocumentTree d G := by
    intro G
    unfold cachedDocumentTree
    rw [hdc]
    unfold hashInsert
    by_cases hG : G = docNew.fileName <;> simp [hG]
  have hvalid1 : ∀ G ∈ fileList, ∀ e, d1.m_documentCache G = some e → e.document.isSome = true →
      e.isValidFor G = true := by
    intro G hG e he hd
    rw [hdc] at he
    unfold hashInsert at he
    by_cases hGF : G = docNew.fileName
    · simp only [hGF, if_true, Option.some.injEq] at he
      subst he
      simp [DocumentCache.isValidFor, hGF]
    · simp only [hGF, if_false] at he
      exact hothers G hG hGF e he hd
  have hmiss : getCachedOrParseProjectTree ext d1 fileList projectId =
      getParseProjectTree ext d1 fileList projectId := by
    apply getCachedOrParseProjectTree_miss
    rintro ⟨entry2, t, he2, -, hr2⟩
    rw [hpc, hentry] at he2
    cases he2
    rw [projectRevision_eq_revisionSum, hrev] at hr2
    exact revisionSum_ne_after_change d d1 docNew.fileName docOld docNew fileList hold hdoc1
      hlt hcount hr2.symm
  have hfold := foldl_projectTreeStep_of_valid ext d1 fileList hvalid1 ParserTreeItem.empty 0
  have hstate : (getParseProjectTree ext d1 fileList projectId).2.m_documentCache =
      d1.m_documentCache := by
    unfold getParseProjectTree
    simp only [hfold.2]
    split_ifs <;> rfl
  refine ⟨hmiss, ?_, ?_, ?_⟩
  · rw [hmiss, getParseProjectTree_fst, hfold.1]
    congr 1
    funext item G
    rw [hcached1]
    by_cases hG : G = docNew.fileName <;> simp [hG]
  · rw [hmiss, hstate]
  · intro G hG
    rw [hmiss, hstate, hdc]
    simp [hashInsert, hG]

/-- Project `Q` is published, then `a.cpp` is notified at revision 2: the project
tree is rebuilt from the new tree of `a.cpp` and the cached tree of `b.cpp`. -/
theorem getCachedOrParseProjectTree_after_change_witness :
    (getCachedOrParseProjectTree ext0 (parseDocument ext0 publishedStateQ (some docA3))
        ["a.cpp", "b.cpp"] "q.pro").1 =
      (ParserTreeItem.empty.add (builtDocumentTree ext0 docA3)).add treeB :=
  (getCachedOrParseProjectTree_after_change ext0 publishedStateQ ["a.cpp", "b.cpp"] "q.pro"
    "a.cpp" docA docA3 entryQ treeQ rfl rfl rfl (by decide) rfl rfl (by decide) (by decide)
    (by
      intro G hG hne e he _
      have hb : G = "b.cpp" := by
        simp only [List.mem_cons, List.mem_singleton, List.not_mem_nil, or_false] at hG
        rcases hG with h | h
        · exact absurd h hne
        · exact h
      subst hb
      have hq : publishedStateQ.m_documentCache "b.cpp" = some entryB := rfl
      rw [hq] at he
      cases he
      rfl)).2.1

/-- C14: the revision-sum check can collide: there are a file list, a project id
and two parser states whose known documents of a member file differ in
revision while the 32-bit revision sums agree, such that the project tree
cached in the first state is handed out by `getCachedOrParseProjectTree` in the
second state although `getParseProjectTree` in the second state builds a
different tree.  (Project `Q`, revisions 1 and 5, then both larger by `2^31`.) -/
theorem revision_sum_collision :
    ∃ (fileList : List String) (projectId : String) (d1 d2 : ParserPrivate)
      (entry : ProjectCache) (t : ParserTreeItem),
      (∃ file ∈ fileList,
        Option.map Document.revision (d1.document file) ≠
          Option.map Document.revision (d2.document file)) ∧
        revisionSum d1 fileList = revisionSum d2 fileList ∧
        d1.m_projectCache projectId = some entry ∧ entry.tree = some t ∧
        entry.treeRevision = revisionSum d1 fileList ∧
        d2.m_projectCache projectId = some entry ∧
        getCachedOrParseProjectTree ext0 d2 fileList projectId = (t, d2) ∧
        (getParseProjectTree ext0 d2 fileList projectId).1 ≠ t := by
  refine ⟨["a.cpp", "b.cpp"], "q.pro", publishedStateQ, collidingState, entryQ, treeQ,
    ⟨"a.cpp", by decide, by decide⟩, rfl, rfl, rfl, rfl, rfl, rfl, ?_⟩
  intro h
  exact absurd (congrArg ParserTreeItem.keys h) (by decide)

/-- C15: for a project list whose (display name, project file path) pairs are
pairwise distinct, `parse` returns a new root (no locations, no icon) whose
children are, in list order and one per project, stored under exactly those
pairs as keys; the child of a project carries the children of
`getCachedOrParseProjectTree` for its file list and project file path when the
file list is non-empty, and has no children when the file list is empty. -/
theorem parse_root_of_distinct_projects (ext : Externals) (d : ParserPrivate)
    (projects : List Project)
    (h : (projects.map (fun p => (p.displayName, p.projectFilePath))).Nodup) :
    (parse ext d projects).1 = ParserTreeItem.mk ∅ none (projectChildren ext d projects) ∧
      (parse ext d projects).1.keys = projects.map (projectInformation ext) ∧
      (∀ (d1 : ParserPrivate) (prj : Project), (getAllFiles d1 (some prj)).1 ≠ [] →
        (projectChild ext d1 prj).symbolInformations =
          (getCachedOrParseProjectTree ext (getAllFiles d1 (some prj)).2
            (getAllFiles d1 (some prj)).1 prj.projectFilePath).1.symbolInformations) ∧
      (∀ (d1 : ParserPrivate) (prj : Project), (getAllFiles d1 (some prj)).1 = [] →
        (projectChild ext d1 prj).symbolInformations = []) := by
  have hkeys : (projects.map (projectInformation ext)).Nodup := by
    have hinj : Function.Injective
        (fun p : String × String =>
          ({ name := p.1, type := p.2, iconType := ext.defaultIconType } : SymbolInformation)) := by
      intro p q hpq
      simp only [SymbolInformation.mk.injEq, and_true] at hpq
      exact Prod.ext hpq.1 hpq.2
    have := h.map hinj
    simpa [List.map_map, Function.comp_def, projectInformation] using this
  have hroot : (parse ext d projects).1 =
      ParserTreeItem.mk ∅ none (projectChildren ext d projects) := by
    unfold parse
    rw [foldl_parseStep ext projects ParserTreeItem.empty d (by simpa [ParserTreeItem.keys,
      ParserTreeItem.empty, ParserTreeItem.symbolInformations] using hkeys)]
    rfl
  refine ⟨hroot, ?_, ?_, ?_⟩
  · rw [hroot]
    exact map_fst_projectChildren ext projects d
  · intro d1 prj hne
    have hlen : (getAllFiles d1 (some prj)).1.length > 0 := List.length_pos.mpr hne
    simp only [projectChild, hlen, if_true]
    rfl
  · intro d1 prj he
    simp only [projectChild, he, List.length_nil, gt_iff_lt, Nat.lt_irrefl, if_false]
    rfl

/-- The projects `P` and `Q` give a root with the two keys in that order. -/
theorem parse_root_of_distinct_projects_witness :
    (parse ext0 knownState [prjP, prjQ]).1.keys =
      [projectInformation ext0 prjP, projectInformation ext0 prjQ] :=
  (parse_root_of_distinct_projects ext0 knownState [prjP, prjQ] (by decide)).2.1

/-! ## Removing files -/

/-- C16, counterexample: project `D` lists `a.cpp` twice; after the publish and
`removeFiles ["a.cpp"]` the stored file list of `d.pro` still holds `a.cpp`,
because `removeOne` takes out one occurrence only. -/
theorem removeFiles_leaves_duplicate :
    ∃ entry : ProjectCache,
      (removeFiles publishedStateDup ["a.cpp"]).m_projectCache "d.pro" = some entry ∧
        "a.cpp" ∈ entry.fileList :=
  ⟨{ treeRevision := 2, tree := some treeA, fileList := ["a.cpp"] }, rfl, by decide⟩

/-- C16, amended: after `removeFiles L`, for every path `p` of `L`: `p` is not in
the tracked set, the DocumentCache has no entry for `p`, the ProjectCache has
no entry under the key `p`, and every stored file list is the former one with
one occurrence of `p` removed per occurrence of `p` in `L`; so `p` no longer
occurs in a stored file list that held it at most as often as `L` names it, in
particular in one that held it at most once. -/
theorem removeFiles_no_leftover (d : ParserPrivate) (L : List String) (p : String)
    (hp : p ∈ L) :
    p ∉ (removeFiles d L).fileList ∧
      (removeFiles d L).m_documentCache p = none ∧
      (removeFiles d L).m_projectCache p = none ∧
      ∀ (k : String) (entry : ProjectCache), (removeFiles d L).m_projectCache k = some entry →
        ∃ entry0 : ProjectCache, d.m_projectCache k = some entry0 ∧
          entry.fileList.count p = entry0.fileList.count p - L.count p ∧
          (entry0.fileList.count p ≤ L.count p → p ∉ entry.fileList) := by
  rw [removeFiles_eq_foldl]
  obtain ⟨h1, h2, h3, -, -, -⟩ := foldl_removeFile L d
  refine ⟨?_, ?_, ?_, ?_⟩
  · rw [h1]
    simp [hp]
  · rw [h2]; simp [hp]
  · rw [h3]; simp [hp]
  · intro k entry he
    rw [h3] at he
    by_cases hk : k ∈ L
    · simp [hk] at he
    · simp only [hk, if_false] at he
      cases h0 : d.m_projectCache k with
      | none => simp [h0] at he
      | some entry0 =>
        simp only [h0, Option.map_some', Option.some.injEq] at he
        subst he
        refine ⟨entry0, rfl, count_diff_list p L entry0.fileList, fun hle => ?_⟩
        have hc : (entry0.fileList.diff L).count p = 0 := by
          rw [count_diff_list]; omega
        exact List.count_eq_zero.mp hc

/-- After the publish of project `Q`, `removeFiles ["a.cpp"]` leaves nothing of
`a.cpp` in the tracked set and the caches. -/
theorem removeFiles_no_leftover_witness :
    "a.cpp" ∉ (removeFiles publishedStateQ ["a.cpp"]).fileList ∧
      (removeFiles publishedStateQ ["a.cpp"]).m_documentCache "a.cpp" = none ∧
      (removeFiles publishedStateQ ["a.cpp"]).m_projectCache "a.cpp" = none :=
  ⟨(removeFiles_no_leftover publishedStateQ ["a.cpp"] "a.cpp" (by decide)).1,
    (removeFiles_no_leftover publishedStateQ ["a.cpp"] "a.cpp" (by decide)).2.1,
    (removeFiles_no_leftover publishedStateQ ["a.cpp"] "a.cpp" (by decide)).2.2.1⟩

/-- C17, counterexample: with `a.cpp` named twice in the stored file list of
`d.pro`, `removeFiles ["a.cpp"]` applied once leaves the list `["a.cpp"]` and
applied twice leaves the empty list. -/
theorem removeFiles_twice_differs :
    ∃ once twice : ProjectCache,
      (removeFiles publishedStateDup ["a.cpp"]).m_projectCache "d.pro" = some once ∧
        (removeFiles (removeFiles publishedStateDup ["a.cpp"]) ["a.cpp"]).m_projectCache "d.pro" =
          some twice ∧
        once.fileList ≠ twice.fileList :=
  ⟨{ treeRevision := 2, tree := some treeA, fileList := ["a.cpp"] },
    { treeRevision := 2, tree := some treeA, fileList := [] }, rfl, rfl, by decide⟩

/-- C17, amended: applying `removeFiles L` twice yields the same tracked set and
the same DocumentCache as applying it once, and a ProjectCache with the same
keys and, under every key, the same tree and the same stored revision, for
every state and list; the file list stored under a key after the second
application is the one after the first with one more occurrence removed per
occurrence of a path in `L`.  The two states are equal exactly when every
file list stored under a key outside `L` holds each path of `L` at most as
often as `L` names it, so in particular when the stored lists are
duplicate-free. -/
theorem removeFiles_idempotent (d : ParserPrivate) (L : List String) :
    (removeFiles (removeFiles d L) L).fileList = (removeFiles d L).fileList ∧
      (removeFiles (removeFiles d L) L).m_documentCache = (removeFiles d L).m_documentCache ∧
      (∀ k : String, ((removeFiles (removeFiles d L) L).m_projectCache k).isSome =
        ((removeFiles d L).m_projectCache k).isSome) ∧
      (∀ k : String, ((removeFiles (removeFiles d L) L).m_projectCache k).map ProjectCache.tree =
        ((removeFiles d L).m_projectCache k).map ProjectCache.tree) ∧
      (∀ k : String,
        ((removeFiles (removeFiles d L) L).m_projectCache k).map ProjectCache.treeRevision =
          ((removeFiles d L).m_projectCache k).map ProjectCache.treeRevision) ∧
      (∀ k : String, ((removeFiles (removeFiles d L) L).m_projectCache k).map ProjectCache.fileList =
        ((removeFiles d L).m_projectCache k).map (fun entry => entry.fileList.diff L)) ∧
      (removeFiles (removeFiles d L) L = removeFiles d L ↔
        ∀ (k : String) (entry : ProjectCache), k ∉ L → d.m_projectCache k = some entry →
          ∀ p ∈ L, entry.fileList.count p ≤ L.count p) := by
  simp only [removeFiles_eq_foldl]
  obtain ⟨h1, h2, h3, h4, h5, h6⟩ := foldl_removeFile L d
  obtain ⟨g1, g2, g3, g4, g5, g6⟩ := foldl_removeFile L (L.foldl removeFile d)
  have hfl : (L.foldl removeFile (L.foldl removeFile d)).fileList =
      (L.foldl removeFile d).fileList := by
    rw [g1, h1]
    ext x
    simp only [Finset.mem_sdiff, List.mem_toFinset]
    tauto
  have hdc : (L.foldl removeFile (L.foldl removeFile d)).m_documentCache =
      (L.foldl removeFile d).m_documentCache := by
    funext k
    rw [g2, h2]
    by_cases hk : k ∈ L <;> simp [hk]
  have hpc : ∀ k : String, (L.foldl removeFile (L.foldl removeFile d)).m_projectCache k =
      ((L.foldl removeFile d).m_projectCache k).map
        (fun entry => { entry with fileList := entry.fileList.diff L }) := by
    intro k
    rw [g3, h3]
    by_cases hk : k ∈ L
    · simp [hk]
    · simp only [hk, if_false]
  refine ⟨hfl, hdc, fun k => ?_, fun k => ?_, fun k => ?_, fun k => ?_,
    ⟨fun heq k entry0 hk h0 p hp => ?_, fun hb => ?_⟩⟩
  · rw [hpc k]
    cases (L.foldl removeFile d).m_projectCache k <;> rfl
  · rw [hpc k]
    cases (L.foldl removeFile d).m_projectCache k <;> rfl
  · rw [hpc k]
    cases (L.foldl removeFile d).m_projectCache k <;> rfl
  · rw [hpc k]
    cases (L.foldl removeFile d).m_projectCache k <;> rfl
  · have hk2 := congrArg (fun s : ParserPrivate => (s.m_projectCache k).map ProjectCache.fileList)
      heq
    simp only [g3, h3, hk, if_false, h0, Option.map_some', Option.some.injEq] at hk2
    have hc := congrArg (List.count p) hk2
    simp only [count_diff_list] at hc
    have hpos : 0 < L.count p := List.count_pos_iff.mpr hp
    omega
  · apply ParserPrivate.eq_of_fields _ _ (g4.trans rfl) hdc _ hfl (g5.trans rfl) (g6.trans rfl)
    funext k
    rw [g3, h3]
    by_cases hk : k ∈ L
    · simp [hk]
    · simp only [hk, if_false]
      cases h0 : d.m_projectCache k with
      | none => rfl
      | some entry0 =>
        simp only [Option.map_some', Option.some.injEq]
        have hself : (entry0.fileList.diff L).diff L = entry0.fileList.diff L := by
          apply diff_eq_self_of_not_mem
          intro p hp
          apply List.count_eq_zero.mp
          rw [count_diff_list]
          have := hb k entry0 hk h0 p hp
          omega
        rw [hself]

/-- After the publish of project `Q`, whose file list names each file once,
`removeFiles ["a.cpp"]` applied twice gives the state of applying it once. -/
theorem removeFiles_idempotent_witness :
    removeFiles (removeFiles publishedStateQ ["a.cpp"]) ["a.cpp"] =
      removeFiles publishedStateQ ["a.cpp"] :=
  (removeFiles_idempotent publishedStateQ ["a.cpp"]).2.2.2.2.2.2.mpr (by
    intro k entry _ he p hp
    have hcache : publishedStateQ.m_projectCache =
        hashInsert (hashInsert (fun _ => none) "q.pro"
          { treeRevision := 0, tree := none, fileList := ["a.cpp", "b.cpp"] }) "q.pro" entryQ :=
      rfl
    rw [hcache] at he
    unfold hashInsert at he
    simp only [List.mem_singleton] at hp
    subst hp
    by_cases hk : k = "q.pro"
    · simp only [hk, if_true, Option.some.injEq] at he
      subst he
      decide
    · simp [hk] at he)

/-- C18, the code at the failing input: project `Q` with `a.cpp` at revision 0
and `b.cpp` at revision 5 is published and `a.cpp` is removed.  `a.cpp` is not
tracked any more and has no known document, the stored file list is
`["b.cpp"]`, whose revision sum is the cached 5, so the next `parse` hands out
the cached project tree: the project node still holds `N` from `a.cpp`, while
the merge of the document trees of the remaining file holds `D` alone. -/
theorem parse_after_removeFiles_keeps_removed :
    "a.cpp" ∉ (removeFiles publishedStateZero ["a.cpp"]).fileList ∧
      (removeFiles publishedStateZero ["a.cpp"]).document "a.cpp" = none ∧
      (getAllFiles (removeFiles publishedStateZero ["a.cpp"]) (some prjQ)).1 = ["b.cpp"] ∧
      (parse ext0 (removeFiles publishedStateZero ["a.cpp"]) [prjQ]).1 = rootQ ∧
      rootQ.child (projectInformation ext0 prjQ) =
        some (ParserTreeItem.mk ∅ (some 8) treeQ.symbolInformations) ∧
      mergeDocumentTrees ext0 (removeFiles publishedStateZero ["a.cpp"]) ParserTreeItem.empty
        ["b.cpp"] = treeB ∧
      treeQ.keys =
        [{ name := "N", type := "", iconType := 3 }, { name := "D", type := "", iconType := 1 }] ∧
      treeB.keys = [{ name := "D", type := "", iconType := 1 }] :=
  ⟨by decide, rfl, rfl, rfl, rfl, rfl, rfl, rfl⟩

/-! ## Change intake and the publish timer -/

/-- C19: `parseDocument` does nothing when the document is null or its path is
not in the tracked set: the parser state (DocumentCache, ProjectCache, tracked
set, published root, timer) is the one from before the call, and the call does
not reach `timer.start`. -/
theorem parseDocument_noop (ext : Externals) (d : ParserPrivate) (doc : Option Document)
    (h : doc = none ∨ ∃ D : Document, doc = some D ∧ D.fileName ∉ d.fileList) :
    parseDocument ext d doc = d ∧ parseDocumentStartsTimer ext d doc = false := by
  rcases h with h | ⟨D, h, hD⟩
  · subst h
    exact ⟨rfl, rfl⟩
  · subst h
    simp [parseDocument, parseDocumentStartsTimer, hD]

/-- A document of `z.cpp`, which is not tracked, changes nothing after the
publish of project `Q`. -/
theorem parseDocument_noop_witness :
    parseDocument ext0 publishedStateQ (some docZ) = publishedStateQ ∧
      parseDocumentStartsTimer ext0 publishedStateQ (some docZ) = false :=
  parseDocument_noop ext0 publishedStateQ (some docZ) (Or.inr ⟨docZ, rfl, by decide⟩)

/-- C20: debounce.  From a state in which the publish timer is not active, a
sequence of one or more `parseDocument` calls with tracked documents and
nothing in between (no timer expiry, no `requestCurrentState`) calls
`timer.start` exactly once; it is the first call that does, no later call of
the sequence reaches `timer.start`, and afterwards the single-shot timer is
active, so that one publish is pending. -/
theorem parseDocument_debounce (ext : Externals) (d : ParserPrivate)
    (first : Option Document) (later : List (Option Document))
    (hidle : d.timerActive = false)
    (htracked : ∀ doc ∈ first :: later, ∃ D : Document, doc = some D ∧ D.fileName ∈ d.fileList) :
    timerStartCount ext d (first :: later) = 1 ∧
      parseDocumentStartsTimer ext d first = true ∧
      timerStartCount ext (parseDocument ext d first) later = 0 ∧
      (parseDocuments ext d (first :: later)).timerActive = true := by
  obtain ⟨D, hD, hmem⟩ := htracked first (List.mem_cons_self _ _)
  subst hD
  obtain ⟨-, -, hfl, hta, -, -⟩ := parseDocument_of_mem ext d D hmem
  have hstart : parseDocumentStartsTimer ext d (some D) = true := by
    rw [parseDocumentStartsTimer_of_mem ext d D hmem, hidle]
    rfl
  have hrest := timerStartCount_of_active ext later (parseDocument ext d (some D)) hta
    (fun doc2 h2 => by
      rw [hfl]
      exact htracked doc2 (List.mem_cons_of_mem _ h2))
  refine ⟨?_, hstart, hrest.1, hrest.2⟩
  simp only [timerStartCount, hstart, hrest.1, if_true]

/-- Three notifications for `a.cpp` in a row start the timer once. -/
theorem parseDocument_debounce_witness :
    timerStartCount ext0 trackedState [some docA, some docA3, some docA] = 1 ∧
      parseDocumentStartsTimer ext0 trackedState (some docA) = true ∧
      timerStartCount ext0 (parseDocument ext0 trackedState (some docA))
        [some docA3, some docA] = 0 ∧
      (parseDocuments ext0 trackedState [some docA, some docA3, some docA]).timerActive = true :=
  parseDocument_debounce ext0 trackedState (some docA) [some docA3, some docA] rfl (by
    intro doc hdoc
    simp only [List.mem_cons, List.mem_singleton, List.not_mem_nil, or_false] at hdoc
    rcases hdoc with h | h | h
    · exact ⟨docA, h, by decide⟩
    · exact ⟨docA3, h, by decide⟩
    · exact ⟨docA, h, by decide⟩)

/-! ## Read-side navigation -/

/-- C21, the code at the failing input: in the state right after construction no
root has been published, `d->rootItem` is null, and for a UI node
`findItemByRoot` reaches `internal->child(inf)` (line 240) with a null
`internal`; `hasChildren`, `canFetchMore` and `fetchMore` go through the same
call, with `skipRoot` as well when the node has a parent. -/
theorem findItemByRoot_before_first_publish :
    initialState.rootItem = none ∧
      findItemByRoot initialState (some uiProjectQ) false = Outcome.nullDereference ∧
      hasChildren ui0 initialState (some uiProjectQ) = Outcome.nullDereference ∧
      canFetchMore ui0 initialState (some uiNamespaceN) true = Outcome.nullDereference ∧
      fetchMore ui0 initialState (some uiNamespaceN) true = Outcome.nullDereference :=
  ⟨rfl, rfl, rfl, rfl, rfl⟩

/-- C22: for a non-null UI node and a published root, `findItemByRoot` returns
the item reached from the root by successive child lookups with the keys
derived from the ancestor chain of the node, topmost first (without the
topmost when `skipRoot` is set), and null as soon as one lookup fails; it never
dereferences a null item; `hasChildren` is true exactly when the item it
resolves has at least one child. -/
theorem findItemByRoot_resolves (ui : UiExternals) (d : ParserPrivate) (item : QStandardItem)
    (skipRoot : Bool) (root : ParserTreeItem) (hroot : d.rootItem = some root) :
    findItemByRoot d (some item) skipRoot =
        Outcome.returns (resolve (some root) (pathKeys item skipRoot)) ∧
      hasChildren ui d (some item) =
        Outcome.returns
          (match resolve (some root) (pathKeys item ui.skipRootDefault) with
            | some found => decide (0 < found.childCount)
            | none => false) := by
  refine ⟨findItemByRoot_of_root d item skipRoot root hroot, ?_⟩
  simp only [hasChildren, findItemByRoot_of_root d item ui.skipRootDefault root hroot]
  cases resolve (some root) (pathKeys item ui.skipRootDefault) with
  | none => rfl
  | some found =>
    simp only [Outcome.returns.injEq]
    cases h : found.childCount <;> simp

/-- After the publish of project `Q` the UI node of `N` resolves to the item of
`N` under the project node. -/
theorem findItemByRoot_resolves_witness :
    findItemByRoot publishedStateQ (some uiNamespaceN) false =
      Outcome.returns (resolve (some rootQ) (pathKeys uiNamespaceN false)) :=
  (findItemByRoot_resolves ui0 publishedStateQ uiNamespaceN false rootQ rfl).1

/-! ## Monotony of `addSymbol` -/

/-- C29: `addSymbol` is monotone on the parent: for every parent and symbol, a
child key present before the call is present after it, with a location set
that includes the one from before, and the number of children does not
shrink and grows by at most one. -/
theorem addSymbol_monotone (ext : Externals) (item : ParserTreeItem) (symbol : Option Symbol) :
    (∀ (k : SymbolInformation) (c : ParserTreeItem), item.child k = some c →
        ∃ c2 : ParserTreeItem, (addSymbol ext item symbol).child k = some c2 ∧
          c.symbolLocations ⊆ c2.symbolLocations) ∧
      item.childCount ≤ (addSymbol ext item symbol).childCount ∧
      (addSymbol ext item symbol).childCount ≤ item.childCount + 1 := by
  have happ : ∀ s : Symbol,
      (∀ (k : SymbolInformation) (c : ParserTreeItem), item.child k = some c →
        ∃ c2 : ParserTreeItem,
          (item.appendChild (itemAddOf ext item s) (information ext s)).child k = some c2 ∧
            c.symbolLocations ⊆ c2.symbolLocations) ∧
        item.childCount ≤
          (item.appendChild (itemAddOf ext item s) (information ext s)).childCount ∧
        (item.appendChild (itemAddOf ext item s) (information ext s)).childCount ≤
          item.childCount + 1 := by
    intro s
    refine ⟨fun k c hc => ?_, ?_, ?_⟩
    · by_cases hk : k = information ext s
      · subst hk
        refine ⟨itemAddOf ext item s, ParserTreeItem.lookup_assign_self _ _ _, ?_⟩
        rw [itemAddOf_symbolLocations, hc, Option.getD_some]
        exact Finset.subset_insert _ _
      · refine ⟨c, ?_, Finset.Subset.refl _⟩
        unfold ParserTreeItem.child
        rw [ParserTreeItem.symbolInformations_appendChild,
          ParserTreeItem.lookup_assign_of_ne _ _ _ _ hk]
        exact hc
    · exact (ParserTreeItem.length_assign _ _ _).1
    · exact (ParserTreeItem.length_assign _ _ _).2
  have hsame : (∀ (k : SymbolInformation) (c : ParserTreeItem), item.child k = some c →
        ∃ c2 : ParserTreeItem, item.child k = some c2 ∧
          c.symbolLocations ⊆ c2.symbolLocations) ∧
      item.childCount ≤ item.childCount ∧ item.childCount ≤ item.childCount + 1 :=
    ⟨fun k c hc => ⟨c, hc, Finset.Subset.refl _⟩, Nat.le_refl _, Nat.le_succ _⟩
  cases symbol with
  | none => exact hsame
  | some s =>
    rw [addSymbol_some, addSymbolNonNull_eq]
    split_ifs
    · exact hsame
    · exact happ s
    · exact hsame
    · exact happ s

/-- With `N` already in the tree of `a.cpp`, a second declaration of `N` keeps
the child and extends its locations. -/
theorem addSymbol_monotone_witness :
    ∃ c2 : ParserTreeItem,
      (addSymbol ext0 treeA (some symN2)).child { name := "N", type := "", iconType := 3 } =
          some c2 ∧
        itemN.symbolLocations ⊆ c2.symbolLocations :=
  (addSymbol_monotone ext0 treeA (some symN2)).1 { name := "N", type := "", iconType := 3 }
    itemN rfl

/-! ## The memoized file list of a project -/

/-- C28: `getAllFiles` returns the empty list and changes nothing for a null
project; for a project with a ProjectCache entry under its project file path it
returns the stored file list and changes nothing, whatever the source files of
the project are; otherwise it returns the source files of the project and
stores them in a new entry under that path.  Consequently, once `parse` has
run for a project list, a later `parse` for the same projects with other
source files returns what it returns for the unchanged projects; `resetData`
stores the source files anew. -/
theorem getAllFiles_memoized (ext : Externals) (d : ParserPrivate) :
    getAllFiles d none = ([], d) ∧
      (∀ (prj : Project) (entry : ProjectCache),
        d.m_projectCache prj.projectFilePath = some entry →
        getAllFiles d (some prj) = (entry.fileList, d)) ∧
      (∀ prj : Project, d.m_projectCache prj.projectFilePath = none →
        (getAllFiles d (some prj)).1 = prj.sourceFiles ∧
          (getAllFiles d (some prj)).2.m_projectCache prj.projectFilePath =
            some { treeRevision := 0, tree := none, fileList := prj.sourceFiles } ∧
          ∀ k : String, k ≠ prj.projectFilePath →
            (getAllFiles d (some prj)).2.m_projectCache k = d.m_projectCache k) ∧
      (∀ projects projects2 : List Project, List.Forall₂ sameProject projects projects2 →
        parse ext (parse ext d projects).2 projects2 =
          parse ext (parse ext d projects).2 projects) ∧
      (∀ (snapshot : List (String × Option Document)) (prj : Project) (rest : List Project),
        ((resetData ext d snapshot (prj :: rest)).m_projectCache prj.projectFilePath).map
          ProjectCache.fileList = some prj.sourceFiles) := by
  refine ⟨rfl, fun prj entry he => ?_, fun prj he => ?_, fun projects projects2 hsame => ?_,
    fun snapshot prj rest => ?_⟩
  · simp only [getAllFiles, he]
  · simp only [getAllFiles, he]
    refine ⟨by first | rfl | trivial, ?_, fun k hk => ?_⟩
    · simp [hashInsert, ProjectCache.init]
    · simp [hashInsert, hk]
  · unfold parse
    exact foldl_parseStep_congr ext projects projects2 hsame _
      (foldl_parseStep_fileList ext projects (ParserTreeItem.empty, d)).2
  · simp only [resetData, requestCurrentState, parse, List.foldl_cons]
    have hnone : ∀ (root : ParserTreeItem) (d1 : ParserPrivate),
        d1.m_projectCache prj.projectFilePath = none →
        ((rest.foldl (parseStep ext) (parseStep ext (root, d1) prj)).2.m_projectCache
          prj.projectFilePath).map ProjectCache.fileList = some prj.sourceFiles := by
      intro root d1 h1
      rw [(foldl_parseStep_fileList ext rest (parseStep ext (root, d1) prj)).1 _
        (parseStep_entry ext (root, d1) prj)]
      exact (parseStep_fileList ext (root, d1) prj).2 h1
    exact hnone _ _ rfl

/-- After the publish of project `P` with source file `a.cpp`, `getAllFiles`
still answers `["a.cpp"]` for the project with `b.cpp` added. -/
theorem getAllFiles_memoized_witness :
    getAllFiles publishedState (some prjP2) = (["a.cpp"], publishedState) :=
  (getAllFiles_memoized ext0 publishedState).2.1 prjP2 entryP rfl

end ClassView

namespace McuSupport

/-- C30: `McuPackage::updateStatus` classifies by a fixed table (the empty path
names no existing file): EmptyPath iff the path is empty; InvalidPath iff it is
non-empty and does not exist; ValidPathInvalidPackage iff the path exists and
the detection path is non-empty and missing; ValidPackageMismatchedVersion iff
path and package are valid, the detected version is non-empty and the list of
supported versions is non-empty and does not contain it; ValidPackage iff
path and package are valid and the detected version is empty, or the list is
empty, or the list contains it.  Hence `validStatus` holds after `updateStatus`
exactly when the path exists and the detection path is empty or exists. -/
theorem updateStatus_decision_table (fileExists : String → Bool) (pkg : McuPackage)
    (hfs : fileExists "" = false) :
    ((pkg.updateStatus fileExists).m_status = Status.EmptyPath ↔ pkg.m_path = "") ∧
      ((pkg.updateStatus fileExists).m_status = Status.InvalidPath ↔
        pkg.m_path ≠ "" ∧ fileExists pkg.m_path = false) ∧
      ((pkg.updateStatus fileExists).m_status = Status.ValidPathInvalidPackage ↔
        fileExists pkg.m_path = true ∧ pkg.m_detectionPath ≠ "" ∧
          fileExists pkg.detectionPath = false) ∧
      ((pkg.updateStatus fileExists).m_status = Status.ValidPackageMismatchedVersion ↔
        fileExists pkg.m_path = true ∧
          (pkg.m_detectionPath = "" ∨ fileExists pkg.detectionPath = true) ∧
          (pkg.updateStatus fileExists).m_detectedVersion ≠ "" ∧ pkg.m_versions ≠ [] ∧
          (pkg.updateStatus fileExists).m_detectedVersion ∉ pkg.m_versions) ∧
      ((pkg.updateStatus fileExists).m_status = Status.ValidPackage ↔
        fileExists pkg.m_path = true ∧
          (pkg.m_detectionPath = "" ∨ fileExists pkg.detectionPath = true) ∧
          ((pkg.updateStatus fileExists).m_detectedVersion = "" ∨ pkg.m_versions = [] ∨
            (pkg.updateStatus fileExists).m_detectedVersion ∈ pkg.m_versions)) ∧
      ((pkg.updateStatus fileExists).validStatus = true ↔
        fileExists pkg.m_path = true ∧
          (pkg.m_detectionPath = "" ∨ fileExists pkg.detectionPath = true)) := by
  have hstatus : (pkg.updateStatus fileExists).m_status =
      if (pkg.m_path != "" && fileExists pkg.m_path) = true then
        (if (pkg.m_detectionPath == "" || fileExists pkg.detectionPath) = true then
          (if ((pkg.updateStatus fileExists).m_detectedVersion == "" || pkg.m_versions.isEmpty ||
              pkg.m_versions.contains (pkg.updateStatus fileExists).m_detectedVersion) = true then
            Status.ValidPackage
          else Status.ValidPackageMismatchedVersion)
        else Status.ValidPathInvalidPackage)
      else if (pkg.m_path == "") = true then Status.EmptyPath else Status.InvalidPath := rfl
  unfold McuPackage.validStatus
  rw [hstatus]
  generalize (pkg.updateStatus fileExists).m_detectedVersion = dv
  by_cases h1 : pkg.m_path = ""
  · simp [h1, hfs]
  · by_cases h2 : fileExists pkg.m_path = true
    · by_cases h3 : pkg.m_detectionPath = ""
      · by_cases h4 : dv = ""
        · simp [h1, h2, h3, h4]
        · by_cases h5 : pkg.m_versions = []
          · simp [h1, h2, h3, h4, h5]
          · by_cases h6 : dv ∈ pkg.m_versions
            · simp [h1, h2, h3, h4, h5, h6]
            · simp [h1, h2, h3, h4, h5, h6]
      · by_cases h7 : fileExists pkg.detectionPath = true
        · by_cases h4 : dv = ""
          · simp [h1, h2, h3, h4, h7]
          · by_cases h5 : pkg.m_versions = []
            · simp [h1, h2, h3, h4, h5, h7]
            · by_cases h6 : dv ∈ pkg.m_versions
              · simp [h1, h2, h3, h4, h5, h6, h7]
              · simp [h1, h2, h3, h4, h5, h6, h7]
        · simp only [Bool.not_eq_true] at h7
          simp [h1, h2, h3, h7]
    · simp only [Bool.not_eq_true] at h2
      simp [h1, h2]

/-- The package at `/sdk`: path and detection path exist, version `1.0` is
detected and `2.0` supported, so the status is a version mismatch and counts
as valid. -/
theorem updateStatus_decision_table_witness :
    sdkFiles "" = false ∧
      (sdkPackage.updateStatus sdkFiles).m_status = Status.ValidPackageMismatchedVersion ∧
      (sdkPackage.updateStatus sdkFiles).validStatus = true :=
  ⟨by decide,
    (updateStatus_decision_table sdkFiles sdkPackage (by decide)).2.2.2.1.mpr
      ⟨by decide, Or.inr (by decide), by decide, by decide, by decide⟩,
    (updateStatus_decision_table sdkFiles sdkPackage (by decide)).2.2.2.2.2.mpr
      ⟨by decide, Or.inr (by decide)⟩⟩

end McuSupport

namespace ClassView

/-! ## Invariants of the caches -/

/-- C26: the validity of cached document trees (every DocumentCache entry that
holds a tree holds a document, its stored revision is the revision of that
document and its key is the file path of that document) is kept by
`getParseDocumentTree`, `getCachedOrParseDocumentTree`, `parseDocument`,
`removeFiles`, `setFileList` and `parse`, and `resetData` establishes it from
any state, for any snapshot. -/
theorem treesValid_invariant (ext : Externals) (d : ParserPrivate) :
    (∀ doc : Option Document, TreesValid d → TreesValid (getParseDocumentTree ext d doc).2) ∧
      (∀ doc : Option Document, TreesValid d →
        TreesValid (getCachedOrParseDocumentTree ext d doc).2) ∧
      (∀ doc : Option Document, TreesValid d → TreesValid (parseDocument ext d doc)) ∧
      (∀ L : List String, TreesValid d → TreesValid (removeFiles d L)) ∧
      (∀ L : List String, TreesValid d → TreesValid (setFileList d L)) ∧
      (∀ (snapshot : List (String × Option Document)) (projects : List Project),
        TreesValid (resetData ext d snapshot projects)) ∧
      (∀ projects : List Project, TreesValid d → TreesValid (parse ext d projects).2) := by
  refine ⟨fun doc hv => getParseDocumentTree_treesValid ext d doc hv,
    fun doc hv => getCachedOrParseDocumentTree_treesValid ext d doc hv, fun doc hv => ?_,
    fun L hv => removeFiles_treesValid d L hv, fun L hv => TreesValid.of_eq rfl hv,
    fun snapshot projects => resetData_treesValid ext d snapshot projects,
    fun projects hv => parse_treesValid ext d projects hv⟩
  cases doc with
  | none => exact hv
  | some D =>
    by_cases h : D.fileName ∈ d.fileList
    · have hd := getParseDocumentTree_treesValid ext d (some D) hv
      simp only [parseDocument, h, not_true_eq_false, if_false]
      split_ifs
      · exact TreesValid.of_eq rfl hd
      · exact hd
    · simp only [parseDocument, h, not_false_eq_true, if_true]
      exact hv

/-- The state after the publish of project `Q` and a notification for `a.cpp`
holds valid trees only. -/
theorem treesValid_invariant_witness :
    TreesValid (parseDocument ext0 publishedStateQ (some docA3)) :=
  (treesValid_invariant ext0 publishedStateQ).2.2.1 (some docA3)
    ((treesValid_invariant ext0 initialState).2.2.2.2.2.1
      [("a.cpp", some docA), ("b.cpp", some docB)] [prjQ])

/-! ## Flat mode -/

/-- C24, counterexample: project `Q` contributes the symbols `N` and `D`; the
root published by `setFlatMode true` is the root published with flat mode
off, and it has the level of one node per project. -/
theorem setFlatMode_keeps_project_level :
    publishedStateQ.flatMode = false ∧ publishedStateQ.rootItem = some rootQ ∧
      (setFlatMode ext0 publishedStateQ true [prjQ]).flatMode = true ∧
      (setFlatMode ext0 publishedStateQ true [prjQ]).rootItem = some rootQ ∧
      rootQ.keys = [projectInformation ext0 prjQ] ∧
      rootQ.child (projectInformation ext0 prjQ) =
        some (ParserTreeItem.mk ∅ (some 8) treeQ.symbolInformations) ∧
      treeQ.childCount = 2 :=
  ⟨rfl, rfl, rfl, rfl, rfl, rfl, rfl⟩

/-- C24, amended: `setFlatMode` changes nothing when the flag already has the
value; otherwise it stores the flag and republishes.  `parse` does not read the
flag: the root built with any value of the flag is the root built without the
change, so the root and the caches after `setFlatMode` are those that a
publish without change of mode leaves, with one node per project. -/
theorem setFlatMode_republishes_same_root (ext : Externals) (d : ParserPrivate) (flag : Bool)
    (projects : List Project) :
    (flag = d.flatMode → setFlatMode ext d flag projects = d) ∧
      (flag ≠ d.flatMode →
        (setFlatMode ext d flag projects).flatMode = flag ∧
          (setFlatMode ext d flag projects).rootItem =
            (requestCurrentState ext d projects).rootItem ∧
          (setFlatMode ext d flag projects).m_documentCache =
            (requestCurrentState ext d projects).m_documentCache ∧
          (setFlatMode ext d flag projects).m_projectCache =
            (requestCurrentState ext d projects).m_projectCache ∧
          (setFlatMode ext d flag projects).fileList =
            (requestCurrentState ext d projects).fileList) ∧
      (∀ flag2 : Bool,
        (parse ext { d with flatMode := flag2 } projects).1 = (parse ext d projects).1) := by
  refine ⟨fun h => by simp [setFlatMode, h], fun h => ?_, fun flag2 => ?_⟩
  · have hne : (flag == d.flatMode) = false := by
      cases flag <;> cases hd : d.flatMode <;> simp_all
    have hstate : ({ ({ d with flatMode := flag } : ParserPrivate) with timerActive := false } :
        ParserPrivate) =
        ({ d with timerActive := false } : ParserPrivate).withUi false d.rootItem flag := rfl
    simp only [setFlatMode, hne, Bool.false_eq_true, if_false, requestCurrentState, parse, hstate,
      parse_withUi]
    refine ⟨?_, ?_, ?_, ?_, ?_⟩ <;> first | rfl | trivial
  · have hstate : ({ d with flatMode := flag2 } : ParserPrivate) =
        d.withUi d.timerActive d.rootItem flag2 := rfl
    simp only [parse, hstate, parse_withUi]

/-- Switching flat mode on after the publish of project `Q` publishes the root
of a publish without the switch. -/
theorem setFlatMode_republishes_same_root_witness :
    (setFlatMode ext0 publishedStateQ true [prjQ]).rootItem =
      (requestCurrentState ext0 publishedStateQ [prjQ]).rootItem :=
  ((setFlatMode_republishes_same_root ext0 publishedStateQ true [prjQ]).2.1 (by decide)).2.1

/-! ## Full reset -/

/-- C23: `resetData` resets the parser: with the same snapshot and the same
project list, any two prior states give the same DocumentCache, ProjectCache,
tracked set and published root, and the timer is not active afterwards; the
tracked set holds exactly the source files of the projects; and, the snapshot
being a map from file path to the document of that path, every document of
the snapshot is the known document of its path. -/
theorem resetData_resets (ext : Externals) (d d2 : ParserPrivate)
    (snapshot : List (String × Option Document)) (projects : List Project) :
    (resetData ext d snapshot projects).m_documentCache =
        (resetData ext d2 snapshot projects).m_documentCache ∧
      (resetData ext d snapshot projects).m_projectCache =
        (resetData ext d2 snapshot projects).m_projectCache ∧
      (resetData ext d snapshot projects).fileList =
        (resetData ext d2 snapshot projects).fileList ∧
      (resetData ext d snapshot projects).rootItem =
        (resetData ext d2 snapshot projects).rootItem ∧
      (resetData ext d snapshot projects).timerActive = false ∧
      (∀ file : String, file ∈ (resetData ext d snapshot projects).fileList ↔
        ∃ prj ∈ projects, file ∈ prj.sourceFiles) ∧
      (SnapshotWellFormed snapshot →
        ∀ kv ∈ snapshot, (resetData ext d snapshot projects).document kv.1 = kv.2) := by
  rw [resetData_eq ext d, resetData_eq ext d2]
  refine ⟨rfl, rfl, rfl, rfl, rfl, fun file => ?_, fun hw kv hkv => ?_⟩
  · show file ∈ (parse ext (resetBase snapshot projects) projects).2.fileList ↔ _
    rw [parse_fileList]
    show file ∈ (projects.foldl (fun fileList prj => fileList ++ prj.sourceFiles) []).toFinset ↔ _
    rw [List.mem_toFinset, foldl_append_sourceFiles]
    simp
  · obtain ⟨hknown, hkey⟩ := resetBase_document snapshot projects hw
    show (parse ext (resetBase snapshot projects) projects).2.document kv.1 = kv.2
    rw [parse_document ext _ hkey]
    exact hknown kv hkv

/-- After `resetData` with `docA` and `docB` and project `Q`, `docA` is the
known document of `a.cpp`, whatever the state before. -/
theorem resetData_resets_witness :
    (resetData ext0 collidingState [("a.cpp", some docA), ("b.cpp", some docB)]
      [prjQ]).document "a.cpp" = some docA :=
  (resetData_resets ext0 collidingState initialState [("a.cpp", some docA), ("b.cpp", some docB)]
    [prjQ]).2.2.2.2.2.2
    ⟨by decide, by
      intro kv hkv
      simp only [List.mem_cons, List.mem_singleton, List.not_mem_nil, or_false] at hkv
      rcases hkv with h | h
      · exact ⟨docA, by rw [h], by rw [h]; rfl⟩
      · exact ⟨docB, by rw [h], by rw [h]; rfl⟩⟩
    ("a.cpp", some docA) (by simp)

/-- C27: in a state in which every known document is stored under its own file
path, for every file list and non-empty project id a second call of
`getCachedOrParseProjectTree` right after the first returns the same tree and
leaves the state, DocumentCache and ProjectCache included, as the first call
left it: after the first call the entry of the project id holds the returned
tree and a revision equal to the sum recomputed from the same file list.  With
the empty project id `getParseProjectTree` stores nothing, and, no tree being
stored under the empty id, every call builds. -/
theorem getCachedOrParseProjectTree_idempotent (ext : Externals) (d : ParserPrivate)
    (fileList : List String) (projectId : String) (hk : KeyConsistent d)
    (hid : projectId ≠ "") :
    getCachedOrParseProjectTree ext (getCachedOrParseProjectTree ext d fileList projectId).2
        fileList projectId = getCachedOrParseProjectTree ext d fileList projectId ∧
      (∃ entry : ProjectCache,
        (getCachedOrParseProjectTree ext d fileList projectId).2.m_projectCache projectId =
            some entry ∧
          entry.tree = some (getCachedOrParseProjectTree ext d fileList projectId).1 ∧
          entry.treeRevision =
            revisionSum (getCachedOrParseProjectTree ext d fileList projectId).2 fileList) ∧
      (∀ d2 : ParserPrivate, (∀ e, d2.m_projectCache "" = some e → e.tree = none) →
        getCachedOrParseProjectTree ext d2 fileList "" = getParseProjectTree ext d2 fileList "" ∧
          (getParseProjectTree ext d2 fileList "").2.m_projectCache = d2.m_projectCache) := by
  have hmain : ∃ entry : ProjectCache,
      (getCachedOrParseProjectTree ext d fileList projectId).2.m_projectCache projectId =
          some entry ∧
        entry.tree = some (getCachedOrParseProjectTree ext d fileList projectId).1 ∧
        entry.treeRevision =
          projectRevision (getCachedOrParseProjectTree ext d fileList projectId).2 fileList := by
    by_cases hhit : ∃ entry t, d.m_projectCache projectId = some entry ∧ entry.tree = some t ∧
        entry.treeRevision = projectRevision d fileList
    · obtain ⟨entry, t, he, ht, hr⟩ := hhit
      rw [getCachedOrParseProjectTree_hit ext d fileList projectId entry t he ht hr]
      exact ⟨entry, he, ht, hr⟩
    · rw [getCachedOrParseProjectTree_miss ext d fileList projectId hhit]
      exact getParseProjectTree_stored ext d hk fileList projectId hid
  obtain ⟨entry, he, ht, hr⟩ := hmain
  refine ⟨?_, ⟨entry, he, ht, by rw [← projectRevision_eq_revisionSum]; exact hr⟩,
    fun d2 hno => ⟨?_, ?_⟩⟩
  · exact getCachedOrParseProjectTree_hit ext _ fileList projectId entry _ he ht hr
  · apply getCachedOrParseProjectTree_miss
    rintro ⟨e, t, he2, ht2, -⟩
    rw [hno e he2] at ht2
    cases ht2
  · simp only [getParseProjectTree, ne_eq, not_true_eq_false, if_false]
    exact (foldl_projectTreeStep_frame ext fileList (ParserTreeItem.empty, 0, d2)).1

/-- With `docA` known under `a.cpp`, a second call for `p.pro` right after the
first returns the same tree and state; in the initial state the call for the
empty id builds. -/
theorem getCachedOrParseProjectTree_idempotent_witness :
    (getCachedOrParseProjectTree ext0
        (getCachedOrParseProjectTree ext0 knownState ["a.cpp"] "p.pro").2 ["a.cpp"] "p.pro" =
      getCachedOrParseProjectTree ext0 knownState ["a.cpp"] "p.pro") ∧
    getCachedOrParseProjectTree ext0 initialState ["a.cpp"] "" =
      getParseProjectTree ext0 initialState ["a.cpp"] "" :=
  have h := getCachedOrParseProjectTree_idempotent ext0 knownState ["a.cpp"] "p.pro"
    (by
      intro file doc hdoc
      by_cases hf : file = "a.cpp"
      · subst hf
        have hd : knownState.document "a.cpp" = some docA := rfl
        rw [hd] at hdoc
        cases hdoc
        rfl
      · have hd : knownState.document file = none := by
          simp [knownState, ParserPrivate.document, hashInsert, hf, DocumentCache.init]
        rw [hd] at hdoc
        cases hdoc)
    (by decide)
  ⟨h.1, (h.2.2 initialState (fun e he => by cases he)).1⟩

end ClassView
